import Mathlib

/-!
# The xv6 buffer cache of `kernel/bio.c` (bucketed variant)

A shallow embedding of `kernel/bio.c`: thirteen hash buckets, each a circular
doubly linked list through a sentinel head, a cross-bucket steal when the home
bucket has no free buffer.

The embedding is single-threaded: every call runs to its end before the next
one starts.  Spinlock operations change no data in a single thread; they are
recorded as events in `Kernel.log`.  The sleep lock of a buffer does decide
control flow (`holdingsleep`, `acquiresleep`) and is a field of the buffer.
-/

namespace Bcache

/-! ## Data model -/

/-- The constant of `#define NBUCKET 13`. -/
def NBUCKET : Nat := 13

/-- Unsigned 32-bit increment, the `++` of a `uint`. -/
def inc32 (x : Nat) : Nat := (x + 1) % 4294967296

/-- Unsigned 32-bit decrement, the `--` of a `uint`. -/
def dec32 (x : Nat) : Nat := (x + 4294967295) % 4294967296

/-- A `struct buf *` into `bcache`: null, `&bcache.buf[i]` or `&bcache.head[i]`. -/
inductive Ptr where
  | null : Ptr
  | buf (i : Nat) : Ptr
  | head (i : Nat) : Ptr
  deriving DecidableEq

/-- The payload `uchar data[BSIZE]` of one block. -/
abbrev Data := List Nat

/-- Modelled from the spec: the `struct buf` of `kernel/buf.h`, which is not among the
sources.  The fields are the ones `bio.c` reads and writes: identity (`dev`, `blockno`),
`valid`, `refcnt`, the payload and the sleep lock (`locked`).  The list linkage
`prev`/`next` is kept in `Kernel.prev` and `Kernel.next`, because the sentinel heads
carry it too. -/
structure Buf where
  valid : Nat
  dev : Nat
  blockno : Nat
  locked : Bool
  refcnt : Nat
  data : Data
  deriving DecidableEq

/-- The spinlocks of `bcache`: `locks[i]` and `steal_lock`. -/
inductive Lock where
  | bucket (i : Nat) : Lock
  | steal : Lock
  deriving DecidableEq

/-- Observable events of a call, in program order. -/
inductive Event where
  | acquire (l : Lock) : Event
  | release (l : Lock) : Event
  | acquiresleep (b : Nat) : Event
  | releasesleep (b : Nat) : Event
  | diskRead (b : Nat) : Event
  | diskWrite (b : Nat) : Event
  deriving DecidableEq

/-- The memory `bio.c` works on: the array `bcache.buf`, the `next`/`prev` pointers of
the buffers and of the sentinel heads, the disk behind `virtio_disk_rw`, and the
event log. -/
structure Kernel where
  buf : Nat → Buf
  next : Ptr → Ptr
  prev : Ptr → Ptr
  disk : Nat → Nat → Data
  log : List Event

/-- How a call ends.  `sleep` is `acquiresleep` on a sleep lock that is held: with a
single thread nobody can release it, so the call never returns.  `fault` is a list walk
that leaves the buffers (a null or foreign pointer) or never comes back to its head. -/
inductive Outcome (α : Type) where
  | ret (s : Kernel) (a : α) : Outcome α
  | panic (s : Kernel) (msg : String) : Outcome α
  | sleep (s : Kernel) (b : Nat) : Outcome α
  | fault : Outcome α

/-- Result of one scan of a bucket list. -/
inductive Scan where
  | found (b : Nat) : Scan
  | none : Scan
  | fault : Scan
  deriving DecidableEq

/-! ## Primitive updates -/

/-- The zeroed `Buf`. -/
def Buf.zero : Buf :=
  { valid := 0, dev := 0, blockno := 0, locked := false, refcnt := 0, data := [] }

/-- The store `p->next = q`. -/
def setNext (s : Kernel) (p q : Ptr) : Kernel :=
  { s with next := fun x => if x = p then q else s.next x }

/-- The store `p->prev = q`. -/
def setPrev (s : Kernel) (p q : Ptr) : Kernel :=
  { s with prev := fun x => if x = p then q else s.prev x }

/-- A store into the fields of `bcache.buf[b]`. -/
def setBuf (s : Kernel) (b : Nat) (v : Buf) : Kernel :=
  { s with buf := fun x => if x = b then v else s.buf x }

/-- Append an event to the log. -/
def emit (s : Kernel) (e : Event) : Kernel :=
  { s with log := s.log ++ [e] }

/-- The spinlock call `acquire(lk)`. -/
def acquire (s : Kernel) (l : Lock) : Kernel := emit s (Event.acquire l)

/-- The spinlock call `release(lk)`. -/
def release (s : Kernel) (l : Lock) : Kernel := emit s (Event.release l)

/-- Modelled from the spec: `acquiresleep(&b->lock)` of `kernel/sleeplock.c`, a blocking
exclusive lock.  It takes the lock when it is free and sleeps while it is held. -/
def acquiresleep (s : Kernel) (b : Nat) : Outcome Nat :=
  if (s.buf b).locked then Outcome.sleep s b
  else Outcome.ret (emit (setBuf s b { s.buf b with locked := true }) (Event.acquiresleep b)) b

/-- Modelled from the spec: `releasesleep(&b->lock)` of `kernel/sleeplock.c`. -/
def releasesleep (s : Kernel) (b : Nat) : Kernel :=
  emit (setBuf s b { s.buf b with locked := false }) (Event.releasesleep b)

/-- Modelled from the spec: `holdingsleep(&b->lock)` of `kernel/sleeplock.c`; the one
thread of the embedding is the only possible holder. -/
def holdingsleep (s : Kernel) (b : Nat) : Bool := (s.buf b).locked

/-- Modelled from the spec: `virtio_disk_rw(b, write)`, the storage primitive.  A read
fills `b->data` from the disk block `(b->dev, b->blockno)`, a write stores `b->data`
there. -/
def virtio_disk_rw (s : Kernel) (b : Nat) (write : Bool) : Kernel :=
  if write then
    emit { s with disk := fun d n =>
             if d = (s.buf b).dev ∧ n = (s.buf b).blockno then (s.buf b).data else s.disk d n }
      (Event.diskWrite b)
  else
    emit (setBuf s b { s.buf b with data := s.disk (s.buf b).dev (s.buf b).blockno })
      (Event.diskRead b)

/-! ## The functions of `bio.c` -/

/-- The hash `ihash`: `blockno % NBUCKET`. -/
def ihash (blockno : Nat) : Nat := blockno % NBUCKET

/-- All of `bcache` zeroed, as a C global is before `binit`; the disk is a parameter. -/
def zeroed (disk : Nat → Nat → Data) : Kernel :=
  { buf := fun _ => Buf.zero, next := fun _ => Ptr.null, prev := fun _ => Ptr.null,
    disk := disk, log := [] }

/-- Body of the second loop of `binit`: `head->prev = head; head->next = head;`. -/
def binitHead (s : Kernel) (i : Nat) : Kernel :=
  setNext (setPrev s (Ptr.head i) (Ptr.head i)) (Ptr.head i) (Ptr.head i)

/-- Body of the third loop of `binit`: link `b` behind `head[i]`, initialise its lock. -/
def binitBuf (s : Kernel) (b i : Nat) : Kernel :=
  let s1 := setNext s (Ptr.buf b) (s.next (Ptr.head i))
  let s2 := setPrev s1 (Ptr.buf b) (Ptr.head i)
  let s3 := setPrev s2 (s2.next (Ptr.head i)) (Ptr.buf b)
  let s4 := setNext s3 (Ptr.head i) (Ptr.buf b)
  setBuf s4 b { s4.buf b with locked := false }

/-- The third loop of `binit`,
`for(b = bcache.buf, i = 0; b < bcache.buf+NBUF; b++, i = ihash(i + 1))`, from buffer `b`
on with `n` buffers left. -/
def binitLoop : Nat → Nat → Nat → Kernel → Kernel
  | 0, _, _, s => s
  | n + 1, b, i, s => binitLoop n (b + 1) (ihash (i + 1)) (binitBuf s b i)

/-- The function `binit`, for a pool of `NBUF` buffers. -/
def binit (NBUF : Nat) (s : Kernel) : Kernel :=
  binitLoop NBUF 0 0 ((List.range NBUCKET).foldl binitHead s)

/-- The hit scan `for(b = head[id].next; b != &head[id]; b = b->next)` with the test
`b->dev == dev && b->blockno == blockno`, from pointer `p` on. -/
def scanKey (s : Kernel) (id dev blockno : Nat) : Nat → Ptr → Scan
  | 0, _ => Scan.fault
  | fuel + 1, p =>
    if p = Ptr.head id then Scan.none
    else match p with
      | Ptr.buf b =>
        if (s.buf b).dev = dev ∧ (s.buf b).blockno = blockno then Scan.found b
        else scanKey s id dev blockno fuel (s.next (Ptr.buf b))
      | _ => Scan.fault

/-- The free scan `for(b = head[id].prev; b != &head[id]; b = b->prev)` with the test
`b->refcnt == 0`, from pointer `p` on. -/
def scanFree (s : Kernel) (id : Nat) : Nat → Ptr → Scan
  | 0, _ => Scan.fault
  | fuel + 1, p =>
    if p = Ptr.head id then Scan.none
    else match p with
      | Ptr.buf b =>
        if (s.buf b).refcnt = 0 then Scan.found b
        else scanFree s id fuel (s.prev (Ptr.buf b))
      | _ => Scan.fault

/-- The stores `b->dev = dev; b->blockno = blockno; b->valid = 0; b->refcnt = 1;`. -/
def reassign (s : Kernel) (b dev blockno : Nat) : Kernel :=
  setBuf s b { s.buf b with dev := dev, blockno := blockno, valid := 0, refcnt := 1 }

/-- The store `b->refcnt++`. -/
def incRef (s : Kernel) (b : Nat) : Kernel :=
  setBuf s b { s.buf b with refcnt := inc32 (s.buf b).refcnt }

/-- The store `b->refcnt--`. -/
def decRef (s : Kernel) (b : Nat) : Kernel :=
  setBuf s b { s.buf b with refcnt := dec32 (s.buf b).refcnt }

/-- The unlink `b->prev->next = b->next; b->next->prev = b->prev;` of the steal. -/
def unlinkSteal (s : Kernel) (b : Nat) : Kernel :=
  let s1 := setNext s (s.prev (Ptr.buf b)) (s.next (Ptr.buf b))
  setPrev s1 (s1.next (Ptr.buf b)) (s1.prev (Ptr.buf b))

/-- The insert `b->next = head[id].next; b->prev = &head[id]; b->next->prev = b;
b->prev->next = b;` of the steal. -/
def insertSteal (s : Kernel) (b id : Nat) : Kernel :=
  let s1 := setNext s (Ptr.buf b) (s.next (Ptr.head id))
  let s2 := setPrev s1 (Ptr.buf b) (Ptr.head id)
  let s3 := setPrev s2 (s2.next (Ptr.buf b)) (Ptr.buf b)
  setNext s3 (s3.prev (Ptr.buf b)) (Ptr.buf b)

/-- Fuel of one list walk: one more than the number of pointers in `bcache`, the `NBUF`
buffers and the `NBUCKET` heads.  A walk of the C loop that has not met its head after
that many steps has come back to a pointer it has seen and never meets the head. -/
def walkFuel (NBUF : Nat) : Nat := NBUF + NBUCKET + 1

/-- The steal loop `for (int i = ihash(id + 1); i != id; i = ihash(i + 1))` of `bget`
followed by `panic("bget: no buffers")`, from bucket `i` on. -/
def stealLoop (NBUF : Nat) (dev blockno id : Nat) : Nat → Nat → Kernel → Outcome Nat
  | 0, _, _ => Outcome.fault
  | fuel + 1, i, s =>
    if i = id then Outcome.panic s "bget: no buffers"
    else
      let s1 := acquire s (Lock.bucket i)
      match scanFree s1 i (walkFuel NBUF) (s1.prev (Ptr.head i)) with
      | Scan.fault => Outcome.fault
      | Scan.found b =>
        let s2 := reassign s1 b dev blockno
        let s3 := unlinkSteal s2 b
        let s4 := release s3 (Lock.bucket i)
        let s5 := insertSteal s4 b id
        let s6 := release s5 (Lock.bucket id)
        let s7 := release s6 Lock.steal
        acquiresleep s7 b
      | Scan.none =>
        stealLoop NBUF dev blockno id fuel (ihash (i + 1)) (release s1 (Lock.bucket i))

/-- The function `bget`: look the block up in its home bucket, else recycle the least
recently used free buffer there, else redo both under `steal_lock`, else steal from
the other buckets, else panic. -/
def bget (NBUF : Nat) (s : Kernel) (dev blockno : Nat) : Outcome Nat :=
  let id := ihash blockno
  let s1 := acquire s (Lock.bucket id)
  match scanKey s1 id dev blockno (walkFuel NBUF) (s1.next (Ptr.head id)) with
  | Scan.fault => Outcome.fault
  | Scan.found b => acquiresleep (release (incRef s1 b) (Lock.bucket id)) b
  | Scan.none =>
    match scanFree s1 id (walkFuel NBUF) (s1.prev (Ptr.head id)) with
    | Scan.fault => Outcome.fault
    | Scan.found b => acquiresleep (release (reassign s1 b dev blockno) (Lock.bucket id)) b
    | Scan.none =>
      let s2 := release s1 (Lock.bucket id)
      let s3 := acquire s2 Lock.steal
      let s4 := acquire s3 (Lock.bucket id)
      match scanKey s4 id dev blockno (walkFuel NBUF) (s4.next (Ptr.head id)) with
      | Scan.fault => Outcome.fault
      | Scan.found b =>
        acquiresleep (release (release (incRef s4 b) (Lock.bucket id)) Lock.steal) b
      | Scan.none =>
        match scanFree s4 id (walkFuel NBUF) (s4.prev (Ptr.head id)) with
        | Scan.fault => Outcome.fault
        | Scan.found b =>
          acquiresleep
            (release (release (reassign s4 b dev blockno) (Lock.bucket id)) Lock.steal) b
        | Scan.none => stealLoop NBUF dev blockno id NBUCKET (ihash (id + 1)) s4

/-- The function `bread`. -/
def bread (NBUF : Nat) (s : Kernel) (dev blockno : Nat) : Outcome Nat :=
  match bget NBUF s dev blockno with
  | Outcome.ret s1 b =>
    if (s1.buf b).valid = 0 then
      let s2 := virtio_disk_rw s1 b false
      Outcome.ret (setBuf s2 b { s2.buf b with valid := 1 }) b
    else Outcome.ret s1 b
  | o => o

/-- The function `bwrite`. -/
def bwrite (s : Kernel) (b : Nat) : Outcome Unit :=
  if holdingsleep s b = false then Outcome.panic s "bwrite"
  else Outcome.ret (virtio_disk_rw s b true) ()

/-- The relink of `brelse`: `b->next->prev = b->prev; b->prev->next = b->next;
b->next = head[id].next; b->prev = &head[id]; head[id].next->prev = b;
head[id].next = b;`. -/
def moveToFront (s : Kernel) (b id : Nat) : Kernel :=
  let s1 := setPrev s (s.next (Ptr.buf b)) (s.prev (Ptr.buf b))
  let s2 := setNext s1 (s1.prev (Ptr.buf b)) (s1.next (Ptr.buf b))
  let s3 := setNext s2 (Ptr.buf b) (s2.next (Ptr.head id))
  let s4 := setPrev s3 (Ptr.buf b) (Ptr.head id)
  let s5 := setPrev s4 (s4.next (Ptr.head id)) (Ptr.buf b)
  setNext s5 (Ptr.head id) (Ptr.buf b)

/-- The function `brelse`. -/
def brelse (s : Kernel) (b : Nat) : Outcome Unit :=
  if holdingsleep s b = false then Outcome.panic s "brelse"
  else
    let s1 := releasesleep s b
    let id := ihash (s1.buf b).blockno
    let s2 := acquire s1 (Lock.bucket id)
    let s3 := decRef s2 b
    let s4 := if (s3.buf b).refcnt = 0 then moveToFront s3 b id else s3
    Outcome.ret (release s4 (Lock.bucket id)) ()

/-- The function `bpin`. -/
def bpin (s : Kernel) (b : Nat) : Kernel :=
  let id := ihash (s.buf b).blockno
  release (incRef (acquire s (Lock.bucket id)) b) (Lock.bucket id)

/-- The function `bunpin`. -/
def bunpin (s : Kernel) (b : Nat) : Kernel :=
  let id := ihash (s.buf b).blockno
  release (decRef (acquire s (Lock.bucket id)) b) (Lock.bucket id)

/-! ## The abstraction: bucket lists -/

/-- Point update of a function. -/
def upd {α β : Type} [DecidableEq α] (f : α → β) (a : α) (v : β) : α → β :=
  fun x => if x = a then v else f x

/-- The pointers of the cycle of bucket `i` when its list is `l`: head, buffers, head. -/
def nodes (i : Nat) (l : List Nat) : List Ptr :=
  Ptr.head i :: (l.map Ptr.buf ++ [Ptr.head i])

/-- Every `next` pointer along `ns` leads to the following element. -/
def NextOk (f : Ptr → Ptr) (ns : List Ptr) : Prop := List.Chain' (fun a b => f a = b) ns

/-- Every `prev` pointer along `ns` leads to the preceding element. -/
def PrevOk (g : Ptr → Ptr) (ns : List Ptr) : Prop := List.Chain' (fun a b => g b = a) ns

/-- Bucket `i` is a circular doubly linked list holding the buffers `l`, head to tail. -/
def Cyc (f g : Ptr → Ptr) (i : Nat) (l : List Nat) : Prop :=
  NextOk f (nodes i l) ∧ PrevOk g (nodes i l)

/-- Option to scan result. -/
def Scan.ofOption : Option Nat → Scan
  | Option.some b => Scan.found b
  | Option.none => Scan.none

/-- The test of the hit scan. -/
def keyIs (s : Kernel) (dev blockno : Nat) (b : Nat) : Bool :=
  decide ((s.buf b).dev = dev ∧ (s.buf b).blockno = blockno)

/-- The test of the free scan. -/
def isFree (s : Kernel) (b : Nat) : Bool := decide ((s.buf b).refcnt = 0)

/-- The bucket lists `L` describe the pointers: every bucket is a cycle through its
head, no buffer occurs twice. -/
structure Linked (f g : Ptr → Ptr) (L : Nat → List Nat) : Prop where
  cyc : ∀ i, i < NBUCKET → Cyc f g i (L i)
  nodup : ∀ i, i < NBUCKET → (L i).Nodup
  disj : ∀ i j b, i < NBUCKET → j < NBUCKET → b ∈ L i → b ∈ L j → i = j

/-- The abstraction relation: `L` describes the pointers of `s` and the buffers in the
lists are exactly the `NBUF` buffers of the pool. -/
structure Abs (NBUF : Nat) (s : Kernel) (L : Nat → List Nat) : Prop where
  linked : Linked s.next s.prev L
  cover : ∀ b, b < NBUF ↔ ∃ i, i < NBUCKET ∧ b ∈ L i

/-- Spinlock events. -/
def Event.isSpin : Event → Bool
  | Event.acquire _ => true
  | Event.release _ => true
  | _ => false

/-- The log without its spinlock events: sleep-lock and disk events only. -/
def ioLog (s : Kernel) : List Event := s.log.filter (fun e => !e.isSpin)

/-- Two memories that differ at most in the spinlock events of their logs. -/
def Sim (s1 s2 : Kernel) : Prop :=
  s1.buf = s2.buf ∧ s1.next = s2.next ∧ s1.prev = s2.prev ∧ s1.disk = s2.disk ∧
    ioLog s1 = ioLog s2

/-- The lists after `b` has left bucket `i` and entered bucket `id` at the front. -/
def moveL (L : Nat → List Nat) (i id b : Nat) : Nat → List Nat :=
  upd (upd L i ((L i).erase b)) id (b :: upd L i ((L i).erase b) id)

/-- The buckets the steal loop of `bget` visits, in order: `id+1, id+2, ... (mod NBUCKET)`. -/
def stealOrder (id : Nat) : List Nat :=
  (List.range (NBUCKET - 1)).map (fun t => ihash (id + 1 + t))

/-- The least recently used free buffer of a list: the free buffer nearest the tail. -/
def lruFree (s : Kernel) (l : List Nat) : Option Nat := l.reverse.find? (isFree s)

/-- What `bget` selects. -/
inductive Pick where
  | hit (b : Nat) : Pick
  | evict (b : Nat) : Pick
  | steal (i b : Nat) : Pick
  | noBuffers : Pick
  deriving DecidableEq

/-- The selection of `bget` read off the bucket lists `L`. -/
def pick (s : Kernel) (L : Nat → List Nat) (dev blockno : Nat) : Pick :=
  match (L (ihash blockno)).find? (keyIs s dev blockno) with
  | some b => Pick.hit b
  | none =>
    match lruFree s (L (ihash blockno)) with
    | some b => Pick.evict b
    | none =>
      match (stealOrder (ihash blockno)).findSome?
          (fun i => (lruFree s (L i)).map (fun b => (i, b))) with
      | some (i, b) => Pick.steal i b
      | none => Pick.noBuffers

/-- The memory after a steal of `b` into bucket `id`, spinlock events apart. -/
def stolen (s : Kernel) (b dev blockno : Nat) : Kernel :=
  insertSteal (unlinkSteal (reassign s b dev blockno) b) b (ihash blockno)

/-- The outcome of `bget`, spinlock events apart, for each selection. -/
def BgetPost (s : Kernel) (dev blockno : Nat) (o : Outcome Nat) : Pick → Prop
  | Pick.hit b => ∃ s1, o = acquiresleep s1 b ∧ Sim s1 (incRef s b)
  | Pick.evict b => ∃ s1, o = acquiresleep s1 b ∧ Sim s1 (reassign s b dev blockno)
  | Pick.steal _ b => ∃ s1, o = acquiresleep s1 b ∧ Sim s1 (stolen s b dev blockno)
  | Pick.noBuffers => ∃ s1, o = Outcome.panic s1 "bget: no buffers" ∧ Sim s1 s

/-- The candidate of donor bucket `i` in the steal loop. -/
def stealCand (s : Kernel) (L : Nat → List Nat) (i : Nat) : Option (Nat × Nat) :=
  (lruFree s (L i)).map (fun b => (i, b))

/-- The outcome of the steal loop, spinlock events apart. -/
def StealPost (s : Kernel) (dev blockno : Nat) (o : Outcome Nat) : Option (Nat × Nat) → Prop
  | some (_, b) => ∃ s1, o = acquiresleep s1 b ∧ Sim s1 (stolen s b dev blockno)
  | none => ∃ s1, o = Outcome.panic s1 "bget: no buffers" ∧ Sim s1 s

/-- The buffer a selection names. -/
def Pick.buf? : Pick → Option Nat
  | Pick.hit b => some b
  | Pick.evict b => some b
  | Pick.steal _ b => some b
  | Pick.noBuffers => none

/-- The memory after the stores of `bget` for a selection, before `acquiresleep`,
spinlock events apart. -/
def selected (s : Kernel) (dev blockno : Nat) : Pick → Kernel
  | Pick.hit b => incRef s b
  | Pick.evict b => reassign s b dev blockno
  | Pick.steal _ b => stolen s b dev blockno
  | Pick.noBuffers => s

/-- The bucket lists after `bget` for a selection. -/
def listsAfter (L : Nat → List Nat) (id : Nat) : Pick → Nat → List Nat
  | Pick.steal i b => moveL L i id b
  | _ => L

/-- The memory after a successful `acquiresleep(&b->lock)`. -/
def held (s : Kernel) (b : Nat) : Kernel :=
  emit (setBuf s b { s.buf b with locked := true }) (Event.acquiresleep b)

/-- The tail of `bread`: `if(!b->valid) { virtio_disk_rw(b, 0); b->valid = 1; }`. -/
def filled (s : Kernel) (b : Nat) : Kernel :=
  if (s.buf b).valid = 0 then
    setBuf (virtio_disk_rw s b false) b { (virtio_disk_rw s b false).buf b with valid := 1 }
  else s

/-- The caller of the cache stores `d` into `b->data`. -/
def setData (s : Kernel) (b : Nat) (d : Data) : Kernel :=
  setBuf s b { s.buf b with data := d }

/-- The walk `head[id].next, ->next, ...` up to `head[id]`, collecting the buffers. -/
def walk (s : Kernel) (id : Nat) : Nat → Ptr → Option (List Nat)
  | 0, _ => none
  | fuel + 1, p =>
    if p = Ptr.head id then some []
    else match p with
      | Ptr.buf b => (walk s id fuel (s.next (Ptr.buf b))).map (fun l => b :: l)
      | _ => none

/-- The list of bucket `i`, head to tail (most to least recently used), read off the
`next` pointers; empty if the walk does not come back to the head. -/
def bucketList (NBUF : Nat) (s : Kernel) (i : Nat) : List Nat :=
  (walk s i (walkFuel NBUF) (s.next (Ptr.head i))).getD []

/-- A buffer holds a cached block: it is in use or its content is valid. -/
def cached (s : Kernel) (b : Nat) : Prop := 0 < (s.buf b).refcnt ∨ (s.buf b).valid = 1

/-- The states a single thread reaches from `binit` on a zeroed `bcache` by calls of
`bread`, `bwrite`, `brelse`, `bpin`, `bunpin` that return, and by stores into the data of
a buffer whose sleep lock it holds.  The list holds the buffers `bread` has returned so
far; `bwrite`, `brelse`, `bpin`, `bunpin` and the stores are applied to these only. -/
inductive Reach (NBUF : Nat) : Kernel → List Nat → Prop where
  | init (disk : Nat → Nat → Data) : Reach NBUF (binit NBUF (zeroed disk)) []
  | bread {s s1 : Kernel} {R : List Nat} {b : Nat} (dev blockno : Nat) :
      Reach NBUF s R → bread NBUF s dev blockno = Outcome.ret s1 b → Reach NBUF s1 (b :: R)
  | bwrite {s s1 : Kernel} {R : List Nat} {b : Nat} :
      Reach NBUF s R → b ∈ R → bwrite s b = Outcome.ret s1 () → Reach NBUF s1 R
  | brelse {s s1 : Kernel} {R : List Nat} {b : Nat} :
      Reach NBUF s R → b ∈ R → brelse s b = Outcome.ret s1 () → Reach NBUF s1 R
  | bpin {s : Kernel} {R : List Nat} {b : Nat} :
      Reach NBUF s R → b ∈ R → Reach NBUF (bpin s b) R
  | bunpin {s : Kernel} {R : List Nat} {b : Nat} :
      Reach NBUF s R → b ∈ R → Reach NBUF (bunpin s b) R
  | store {s : Kernel} {R : List Nat} {b : Nat} (d : Data) :
      Reach NBUF s R → b ∈ R → (s.buf b).locked = true → Reach NBUF (setData s b d) R

/-- A reachable state of the cache with `NBUF` buffers. -/
def Reachable (NBUF : Nat) (s : Kernel) : Prop := ∃ R, Reach NBUF s R

/-- The invariant behind the claims: the lists `L` describe the pointers, every buffer with
valid content is the first buffer with its key in the list of its home bucket, the
buffers `bread` has returned have valid content, and a buffer without valid content is
unreferenced. -/
structure Inv (NBUF : Nat) (s : Kernel) (R : List Nat) (L : Nat → List Nat) : Prop where
  abs : Abs NBUF s L
  key : ∀ c, c < NBUF → (s.buf c).valid ≠ 0 →
    (L (ihash (s.buf c).blockno)).find? (keyIs s (s.buf c).dev (s.buf c).blockno) = some c
  ret : ∀ b ∈ R, b < NBUF ∧ (s.buf b).valid ≠ 0
  fresh : ∀ c, (s.buf c).valid = 0 → (s.buf c).refcnt = 0
  bool : ∀ c, (s.buf c).valid ≤ 1

/-- The bucket lists right after `binit` with `n` buffers linked: bucket `j` holds the
buffers `k < n` with `k % NBUCKET = j`, the highest index first. -/
def initL (n : Nat) (j : Nat) : List Nat :=
  ((List.range n).filter (fun k => k % NBUCKET = j)).reverse

/-- The memory of `brelse` after `releasesleep`, `acquire` and `b->refcnt--`. -/
def relState (s : Kernel) (b : Nat) : Kernel :=
  decRef (acquire (releasesleep s b) (Lock.bucket (ihash (s.buf b).blockno))) b

/-- The memory a call ends in; `d` when the walk faults. -/
def Outcome.stateD {α : Type} (d : Kernel) : Outcome α → Kernel
  | Outcome.ret s _ => s
  | Outcome.panic s _ => s
  | Outcome.sleep s _ => s
  | Outcome.fault => d

/-- A sample disk: block `n` of device `d` holds the two bytes `d, n`. -/
def wDisk : Nat → Nat → Data := fun d n => [d, n]

/-- Sample state: a pool of 30 buffers right after `binit`. -/
def w0 : Kernel := binit 30 (zeroed wDisk)

/-- Sample state: `w0` after `bread(0, 0)`, which returns buffer 26. -/
def w1 : Kernel := (bread 30 w0 0 0).stateD w0

/-- Sample state: `w1` after `bread(0, 1)`, which returns buffer 1. -/
def w2 : Kernel := (bread 30 w1 0 1).stateD w0

/-- One fetch and release of a block: `bread` followed by `brelse` of the buffer it
returned. -/
def fetchRelease (NBUF : Nat) (s : Kernel) (dev blockno : Nat) : Outcome Unit :=
  match bread NBUF s dev blockno with
  | Outcome.ret s1 b => brelse s1 b
  | Outcome.panic s1 m => Outcome.panic s1 m
  | Outcome.sleep s1 b => Outcome.sleep s1 b
  | Outcome.fault => Outcome.fault

/-- Fetch and release the blocks of a list on one device, in order. -/
def fetchReleaseAll (NBUF : Nat) (dev : Nat) : List Nat → Kernel → Outcome Unit
  | [], s => Outcome.ret s ()
  | n :: ns, s =>
    match fetchRelease NBUF s dev n with
    | Outcome.ret s1 _ => fetchReleaseAll NBUF dev ns s1
    | o => o

/-- The key of a buffer: `(dev, blockno)`. -/
def keyOf (s : Kernel) (b : Nat) : Nat × Nat := ((s.buf b).dev, (s.buf b).blockno)

/-- Disk read events. -/
def Event.isRead : Event → Bool
  | Event.diskRead _ => true
  | _ => false

/-- Number of disk reads `virtio_disk_rw(b, 0)` performed so far. -/
def diskReads (s : Kernel) : Nat := s.log.countP Event.isRead

/-- Calls after which buffer `b` is as it was, its reference count apart: any `bread`
that returns another buffer, `bwrite`, `brelse` and stores on other buffers, and `bpin`
and `bunpin` on any buffer.  `Quiet NBUF b s R s1 R1`: such calls lead from `s` to `s1`. -/
inductive Quiet (NBUF : Nat) (b : Nat) (s : Kernel) (R : List Nat) :
    Kernel → List Nat → Prop where
  | refl : Quiet NBUF b s R s R
  | bread {s1 s2 : Kernel} {R1 : List Nat} {c : Nat} (dev blockno : Nat) :
      Quiet NBUF b s R s1 R1 → bread NBUF s1 dev blockno = Outcome.ret s2 c → c ≠ b →
      Quiet NBUF b s R s2 (c :: R1)
  | bwrite {s1 s2 : Kernel} {R1 : List Nat} {c : Nat} :
      Quiet NBUF b s R s1 R1 → c ∈ R1 → c ≠ b → bwrite s1 c = Outcome.ret s2 () →
      Quiet NBUF b s R s2 R1
  | brelse {s1 s2 : Kernel} {R1 : List Nat} {c : Nat} :
      Quiet NBUF b s R s1 R1 → c ∈ R1 → c ≠ b → brelse s1 c = Outcome.ret s2 () →
      Quiet NBUF b s R s2 R1
  | bpin {s1 : Kernel} {R1 : List Nat} {c : Nat} :
      Quiet NBUF b s R s1 R1 → c ∈ R1 → Quiet NBUF b s R (bpin s1 c) R1
  | bunpin {s1 : Kernel} {R1 : List Nat} {c : Nat} :
      Quiet NBUF b s R s1 R1 → c ∈ R1 → Quiet NBUF b s R (bunpin s1 c) R1
  | store {s1 : Kernel} {R1 : List Nat} {c : Nat} (d : Data) :
      Quiet NBUF b s R s1 R1 → c ∈ R1 → c ≠ b → (s1.buf c).locked = true →
      Quiet NBUF b s R (setData s1 c d) R1

/-- The call returned. -/
def Outcome.isRet {α : Type} : Outcome α → Bool
  | Outcome.ret _ _ => true
  | _ => false

/-- The call sleeps for ever in `acquiresleep`. -/
def Outcome.isSleep {α : Type} : Outcome α → Bool
  | Outcome.sleep _ _ => true
  | _ => false

/-- The call ended in `panic`. -/
def Outcome.isPanic {α : Type} : Outcome α → Bool
  | Outcome.panic _ _ => true
  | _ => false

/-- Sample state: `w0` after `bread(0, 12)`, which returns buffer 12. -/
def x1 : Kernel := (bread 30 w0 0 12).stateD w0

/-- Sample state: `x1` after `bread(0, 25)`, which returns buffer 25; now both buffers of
bucket 12 are in use. -/
def x2 : Kernel := (bread 30 x1 0 25).stateD w0

/-- Sample state: `x2` after `bread(0, 13)`, which returns buffer 0, the tail of bucket 0. -/
def x3 : Kernel := (bread 30 x2 0 13).stateD w0

/-- Sample state: `x3` after `bunpin` of buffer 0: its `refcnt` is 0 while its sleep lock
is still held. -/
def x4 : Kernel := bunpin x3 0

/-- Sample state: `w1` after `brelse` of buffer 26. -/
def y2 : Kernel := (brelse w1 26).stateD w0

/-- Sample state: `y2` after `bunpin` of buffer 26: its `refcnt` wraps from 0 to
`2^32 - 1`. -/
def y3 : Kernel := bunpin y2 26

/-- The reachable states of callers that write their changes through: as `Reach`, but
`brelse(b)` is called only when `b->data` equals the disk block of `b`, that is after
every store into `b` has been followed by `bwrite(b)`. -/
inductive ReachW (NBUF : Nat) : Kernel → List Nat → Prop where
  | init (disk : Nat → Nat → Data) : ReachW NBUF (binit NBUF (zeroed disk)) []
  | bread {s s1 : Kernel} {R : List Nat} {b : Nat} (dev blockno : Nat) :
      ReachW NBUF s R → bread NBUF s dev blockno = Outcome.ret s1 b → ReachW NBUF s1 (b :: R)
  | bwrite {s s1 : Kernel} {R : List Nat} {b : Nat} :
      ReachW NBUF s R → b ∈ R → bwrite s b = Outcome.ret s1 () → ReachW NBUF s1 R
  | brelse {s s1 : Kernel} {R : List Nat} {b : Nat} :
      ReachW NBUF s R → b ∈ R → (s.buf b).data = s.disk (s.buf b).dev (s.buf b).blockno →
      brelse s b = Outcome.ret s1 () → ReachW NBUF s1 R
  | bpin {s : Kernel} {R : List Nat} {b : Nat} :
      ReachW NBUF s R → b ∈ R → ReachW NBUF (bpin s b) R
  | bunpin {s : Kernel} {R : List Nat} {b : Nat} :
      ReachW NBUF s R → b ∈ R → ReachW NBUF (bunpin s b) R
  | store {s : Kernel} {R : List Nat} {b : Nat} (d : Data) :
      ReachW NBUF s R → b ∈ R → (s.buf b).locked = true → ReachW NBUF (setData s b d) R

/-- Every buffer of the pool with valid content whose sleep lock is free holds the
contents of its disk block. -/
def Clean (NBUF : Nat) (s : Kernel) : Prop :=
  ∀ c, c < NBUF → (s.buf c).valid ≠ 0 → (s.buf c).locked = false →
    (s.buf c).data = s.disk (s.buf c).dev (s.buf c).blockno

/-- Sample state: `w1` after the holder of buffer 26 stored the byte 7 into its data. -/
def z2 : Kernel := setData w1 26 [7]

/-- Sample state: `z2` after `brelse` of buffer 26, without `bwrite`. -/
def z3 : Kernel := (brelse z2 26).stateD w0

/-- Sample state: `x4` after `brelse` of buffer 0: its `refcnt` wraps from 0 to
`2^32 - 1`. -/
def x5 : Kernel := (brelse x4 0).stateD w0

/-! ## The variant of `bget` without re-validation -/

/-- The variant of `bget` that leaves out its lines 112-133, the second hit scan and the
second free scan: after the first two scans have failed it releases the home lock, takes
`steal_lock` and the home lock again (lines 108-110) and goes on with the steal loop. -/
def bgetNoRescan (NBUF : Nat) (s : Kernel) (dev blockno : Nat) : Outcome Nat :=
  let id := ihash blockno
  let s1 := acquire s (Lock.bucket id)
  match scanKey s1 id dev blockno (walkFuel NBUF) (s1.next (Ptr.head id)) with
  | Scan.fault => Outcome.fault
  | Scan.found b => acquiresleep (release (incRef s1 b) (Lock.bucket id)) b
  | Scan.none =>
    match scanFree s1 id (walkFuel NBUF) (s1.prev (Ptr.head id)) with
    | Scan.fault => Outcome.fault
    | Scan.found b => acquiresleep (release (reassign s1 b dev blockno) (Lock.bucket id)) b
    | Scan.none =>
      let s2 := release s1 (Lock.bucket id)
      let s3 := acquire s2 Lock.steal
      let s4 := acquire s3 (Lock.bucket id)
      stealLoop NBUF dev blockno id NBUCKET (ihash (id + 1)) s4

/-- The variant of `bget` that goes from the first failed free scan (line 107) directly
to the steal loop (line 134), leaving out lines 108-133: the home lock stays held,
`steal_lock` is not taken, and there is no second hit scan and no second free scan. -/
def bgetDirect (NBUF : Nat) (s : Kernel) (dev blockno : Nat) : Outcome Nat :=
  let id := ihash blockno
  let s1 := acquire s (Lock.bucket id)
  match scanKey s1 id dev blockno (walkFuel NBUF) (s1.next (Ptr.head id)) with
  | Scan.fault => Outcome.fault
  | Scan.found b => acquiresleep (release (incRef s1 b) (Lock.bucket id)) b
  | Scan.none =>
    match scanFree s1 id (walkFuel NBUF) (s1.prev (Ptr.head id)) with
    | Scan.fault => Outcome.fault
    | Scan.found b => acquiresleep (release (reassign s1 b dev blockno) (Lock.bucket id)) b
    | Scan.none => stealLoop NBUF dev blockno id NBUCKET (ihash (id + 1)) s1

/-- Two calls end alike: in the same way, with the same buffer or message, and in the
same memory (buffers, pointers, disk, sleep-lock and disk events), spinlock events
apart. -/
def Outcome.Agree : Outcome Nat → Outcome Nat → Prop
  | Outcome.ret s1 a, Outcome.ret s2 b => a = b ∧ Sim s1 s2
  | Outcome.panic s1 m, Outcome.panic s2 n => m = n ∧ Sim s1 s2
  | Outcome.sleep s1 a, Outcome.sleep s2 b => a = b ∧ Sim s1 s2
  | Outcome.fault, Outcome.fault => True
  | _, _ => False

/-! ## Spinlocks held along the events of a call -/

/-- The spinlocks held after the event `e` when the locks `h` are held before it; the
list is in the order the locks were taken. -/
def lockStep (h : List Lock) : Event → List Lock
  | Event.acquire l => h ++ [l]
  | Event.release l => h.erase l
  | _ => h

/-- The spinlocks held after the events `es` when the locks `h` are held before them. -/
def locksAfter (h : List Lock) (es : List Event) : List Lock := es.foldl lockStep h

/-- The spinlocks a call holds after its events `es`; it starts holding none. -/
def heldLocks (es : List Event) : List Lock := locksAfter [] es

/-- The events logged between the memory `s` and the later memory `s1`. -/
def eventsSince (s s1 : Kernel) : List Event := s1.log.drop s.log.length

/-- The memory a call ends in, if it ends in one. -/
def Outcome.state? {α : Type} : Outcome α → Option Kernel
  | Outcome.ret s _ => some s
  | Outcome.panic s _ => some s
  | Outcome.sleep s _ => some s
  | Outcome.fault => none

/-- The events a call logged: `o` is its outcome when started in the memory `s`. -/
def Outcome.events {α : Type} (s : Kernel) (o : Outcome α) : List Event :=
  match o.state? with
  | some s1 => eventsSince s s1
  | none => []

/-- The events at which a caller can be suspended: `acquiresleep` and both directions of
`virtio_disk_rw`. -/
def Event.isBlocking : Event → Bool
  | Event.acquiresleep _ => true
  | Event.diskRead _ => true
  | Event.diskWrite _ => true
  | _ => false

/-- Every lock set on the way through the events `es`, from the lock set `h` on,
satisfies `Q`. -/
def Along (Q : List Lock → Prop) : List Lock → List Event → Prop
  | h, [] => Q h
  | h, e :: es => Q h ∧ Along Q (lockStep h e) es

/-- On the way through the events `es`, from the lock set `h` on, no spinlock is held at
a blocking event. -/
def Unblocked : List Lock → List Event → Prop
  | _, [] => True
  | h, e :: es => (e.isBlocking = true → h = []) ∧ Unblocked (lockStep h e) es

/-- The lock sets `bget` with home bucket `id` goes through: no lock, the home lock,
`steal_lock`, `steal_lock` and the home lock, or these two and the lock of one other
bucket. -/
def Disciplined (id : Nat) (h : List Lock) : Prop :=
  h = [] ∨ h = [Lock.bucket id] ∨ h = [Lock.steal] ∨ h = [Lock.steal, Lock.bucket id] ∨
    ∃ j, j < NBUCKET ∧ j ≠ id ∧ h = [Lock.steal, Lock.bucket id, Lock.bucket j]

/-- The bucket locks among the locks `h`. -/
def bucketsOf : List Lock → List Nat
  | [] => []
  | Lock.bucket i :: h => i :: bucketsOf h
  | Lock.steal :: h => bucketsOf h

/-- No spinlock is held at any blocking event of `es` nor after `es`: the events of a
call that holds no spinlock across a sleep or disk I/O and at its end. -/
def Calm (es : List Event) : Prop :=
  (∀ p e q, es = p ++ e :: q → e.isBlocking = true → heldLocks p = []) ∧ heldLocks es = []

/-! ## Callers that match their calls -/

/-- The states a single thread reaches when it matches its calls: as `Reach`, but every
`brelse(b)` ends a `bread` that returned `b` and has not been released yet, and every
`bunpin(b)` undoes a `bpin(b)` that has not been undone yet.  `H` lists the `bread` calls
not yet released, each as the buffer it returned with the `dev` and `blockno` asked for;
`P` lists the pins not yet undone; `R` holds the buffers `bread` has returned so far. -/
inductive ReachM (NBUF : Nat) :
    Kernel → List Nat → List (Nat × Nat × Nat) → List Nat → Prop where
  | init (disk : Nat → Nat → Data) : ReachM NBUF (binit NBUF (zeroed disk)) [] [] []
  | bread {s s1 : Kernel} {R : List Nat} {H : List (Nat × Nat × Nat)} {P : List Nat}
      {b : Nat} (dev blockno : Nat) :
      ReachM NBUF s R H P → bread NBUF s dev blockno = Outcome.ret s1 b →
      ReachM NBUF s1 (b :: R) ((b, dev, blockno) :: H) P
  | bwrite {s s1 : Kernel} {R : List Nat} {H : List (Nat × Nat × Nat)} {P : List Nat}
      {b : Nat} :
      ReachM NBUF s R H P → b ∈ R → bwrite s b = Outcome.ret s1 () → ReachM NBUF s1 R H P
  | brelse {s s1 : Kernel} {R : List Nat} {H : List (Nat × Nat × Nat)} {P : List Nat}
      {b dev blockno : Nat} :
      ReachM NBUF s R H P → (b, dev, blockno) ∈ H → brelse s b = Outcome.ret s1 () →
      ReachM NBUF s1 R (H.erase (b, dev, blockno)) P
  | bpin {s : Kernel} {R : List Nat} {H : List (Nat × Nat × Nat)} {P : List Nat} {b : Nat} :
      ReachM NBUF s R H P → b ∈ R → ReachM NBUF (bpin s b) R H (b :: P)
  | bunpin {s : Kernel} {R : List Nat} {H : List (Nat × Nat × Nat)} {P : List Nat}
      {b : Nat} :
      ReachM NBUF s R H P → b ∈ P → ReachM NBUF (bunpin s b) R H (P.erase b)
  | store {s : Kernel} {R : List Nat} {H : List (Nat × Nat × Nat)} {P : List Nat} {b : Nat}
      (d : Data) :
      ReachM NBUF s R H P → b ∈ R → (s.buf b).locked = true →
      ReachM NBUF (setData s b d) R H P

/-- Number of `bread` calls in `H`, not yet released, that returned buffer `b` under the
key it has in `s`. -/
def holders (s : Kernel) (H : List (Nat × Nat × Nat)) (b : Nat) : Nat :=
  H.countP (fun e => decide (e.1 = b ∧ e.2.1 = (s.buf b).dev ∧ e.2.2 = (s.buf b).blockno))

/-- Number of `bpin` calls on buffer `b` in `P`, not yet undone. -/
def pins (P : List Nat) (b : Nat) : Nat := P.count b

/-- The call `bpin(b)` repeated `n` times. -/
def bpinTimes : Nat → Kernel → Nat → Kernel
  | 0, s, _ => s
  | n + 1, s, b => bpinTimes n (bpin s b) b

/-! ## Pointer chains -/

@[simp] theorem upd_same {α β : Type} [DecidableEq α] (f : α → β) (a : α) (v : β) :
    upd f a v a = v := by simp [upd]

theorem upd_other {α β : Type} [DecidableEq α] (f : α → β) (a x : α) (v : β) (h : x ≠ a) :
    upd f a v x = f x := by simp [upd, h]

theorem NextOk.frame_next {f f' : Ptr → Ptr} : ∀ {ns : List Ptr}, NextOk f ns →
    (∀ a ∈ ns.dropLast, f' a = f a) → NextOk f' ns
  | [], _, _ => List.chain'_nil
  | [_], _, _ => List.chain'_singleton _
  | a :: b :: rest, h, hf => by
    unfold NextOk at h ⊢
    rw [List.chain'_cons] at h ⊢
    refine ⟨?_, NextOk.frame_next (show NextOk f (b :: rest) from h.2) ?_⟩
    · rw [hf a (by simp)]; exact h.1
    · intro x hx
      exact hf x (by simp [List.dropLast]; right; simpa using hx)

theorem PrevOk.frame_prev {g g' : Ptr → Ptr} : ∀ {ns : List Ptr}, PrevOk g ns →
    (∀ a ∈ ns.tail, g' a = g a) → PrevOk g' ns
  | [], _, _ => List.chain'_nil
  | [_], _, _ => List.chain'_singleton _
  | a :: b :: rest, h, hf => by
    unfold PrevOk at h ⊢
    rw [List.chain'_cons] at h ⊢
    refine ⟨?_, PrevOk.frame_prev (show PrevOk g (b :: rest) from h.2) ?_⟩
    · rw [hf b (by simp)]; exact h.1
    · intro x hx
      exact hf x (by simp; right; simpa using hx)

theorem NextOk.unlink_next {f : Ptr → Ptr} {A B : List Ptr} {x m y : Ptr}
    (h : NextOk f (A ++ x :: m :: y :: B)) (hxA : x ∉ A) (hxB : x ∉ (y :: B).dropLast) :
    NextOk (upd f x y) (A ++ x :: y :: B) := by
  unfold NextOk at h ⊢
  rw [List.chain'_split] at h ⊢
  obtain ⟨h1, h2⟩ := h
  rw [List.chain'_cons] at h2
  obtain ⟨_, h2⟩ := h2
  rw [List.chain'_cons] at h2
  obtain ⟨_, h3⟩ := h2
  constructor
  · refine NextOk.frame_next h1 ?_
    intro a ha
    rw [List.dropLast_concat] at ha
    exact upd_other _ _ _ _ (ne_of_mem_of_not_mem ha hxA)
  · rw [List.chain'_cons]
    refine ⟨upd_same _ _ _, NextOk.frame_next h3 ?_⟩
    intro a ha
    exact upd_other _ _ _ _ (ne_of_mem_of_not_mem ha hxB)

theorem PrevOk.unlink_prev {g : Ptr → Ptr} {A B : List Ptr} {x m y : Ptr}
    (h : PrevOk g (A ++ x :: m :: y :: B)) (hyB : y ∉ B) (hyA : y ∉ (A ++ [x]).tail) :
    PrevOk (upd g y x) (A ++ x :: y :: B) := by
  unfold PrevOk at h ⊢
  rw [List.chain'_split] at h ⊢
  obtain ⟨h1, h2⟩ := h
  rw [List.chain'_cons] at h2
  obtain ⟨_, h2⟩ := h2
  rw [List.chain'_cons] at h2
  obtain ⟨_, h3⟩ := h2
  constructor
  · refine PrevOk.frame_prev h1 ?_
    intro a ha
    exact upd_other _ _ _ _ (ne_of_mem_of_not_mem ha hyA)
  · rw [List.chain'_cons]
    refine ⟨upd_same _ _ _, PrevOk.frame_prev h3 ?_⟩
    intro a ha
    exact upd_other _ _ _ _ (ne_of_mem_of_not_mem ha hyB)

/-- The pointers around `m` in a linked cycle. -/
theorem NextOk.around_next {f : Ptr → Ptr} {A B : List Ptr} {x m y : Ptr}
    (h : NextOk f (A ++ x :: m :: y :: B)) : f x = m ∧ f m = y := by
  unfold NextOk at h
  rw [List.chain'_split, List.chain'_cons, List.chain'_cons] at h
  exact ⟨h.2.1, h.2.2.1⟩

theorem PrevOk.around_prev {g : Ptr → Ptr} {A B : List Ptr} {x m y : Ptr}
    (h : PrevOk g (A ++ x :: m :: y :: B)) : g m = x ∧ g y = m := by
  unfold PrevOk at h
  rw [List.chain'_split, List.chain'_cons, List.chain'_cons] at h
  exact ⟨h.2.1, h.2.2.1⟩

theorem NextOk.insert_next {f : Ptr → Ptr} {B : List Ptr} {h m y : Ptr}
    (hc : NextOk f (h :: y :: B)) (hmh : m ≠ h) (hh : h ∉ (y :: B).dropLast)
    (hm : m ∉ (y :: B).dropLast) :
    NextOk (upd (upd f m y) h m) (h :: m :: y :: B) := by
  unfold NextOk at hc ⊢
  rw [List.chain'_cons] at hc
  rw [List.chain'_cons, List.chain'_cons]
  refine ⟨upd_same _ _ _, ?_, NextOk.frame_next hc.2 ?_⟩
  · rw [upd_other _ _ _ _ hmh, upd_same]
  · intro a ha
    rw [upd_other _ _ _ _ (ne_of_mem_of_not_mem ha hh), upd_other _ _ _ _ (ne_of_mem_of_not_mem ha hm)]

theorem PrevOk.insert_prev {g : Ptr → Ptr} {B : List Ptr} {h m y : Ptr}
    (hc : PrevOk g (h :: y :: B)) (hym : y ≠ m) (hy : y ∉ B) (hm : m ∉ B) :
    PrevOk (upd (upd g m h) y m) (h :: m :: y :: B) := by
  unfold PrevOk at hc ⊢
  rw [List.chain'_cons] at hc
  rw [List.chain'_cons, List.chain'_cons]
  refine ⟨?_, upd_same _ _ _, PrevOk.frame_prev hc.2 ?_⟩
  · rw [upd_other _ _ _ _ hym.symm, upd_same]
  · intro a ha
    simp only [List.tail_cons] at ha
    rw [upd_other _ _ _ _ (ne_of_mem_of_not_mem ha hy), upd_other _ _ _ _ (ne_of_mem_of_not_mem ha hm)]

theorem mem_nodes {i : Nat} {l : List Nat} {a : Ptr} :
    a ∈ nodes i l ↔ a = Ptr.head i ∨ ∃ b ∈ l, a = Ptr.buf b := by
  simp only [nodes, List.mem_cons, List.mem_append, List.mem_map, List.mem_singleton,
    List.not_mem_nil, or_false]
  constructor
  · rintro (h | ⟨b, hb, rfl⟩ | h)
    · exact Or.inl h
    · exact Or.inr ⟨b, hb, rfl⟩
    · exact Or.inl h
  · rintro (h | ⟨b, hb, rfl⟩)
    · exact Or.inl h
    · exact Or.inr (Or.inl ⟨b, hb, rfl⟩)

theorem Cyc.frame {f g f' g' : Ptr → Ptr} {i : Nat} {l : List Nat} (h : Cyc f g i l)
    (hf : ∀ a ∈ nodes i l, f' a = f a) (hg : ∀ a ∈ nodes i l, g' a = g a) : Cyc f' g' i l :=
  ⟨NextOk.frame_next h.1 (fun a ha => hf a (List.dropLast_subset _ ha)),
   PrevOk.frame_prev h.2 (fun a ha => hg a (List.tail_subset _ ha))⟩

theorem buf_injective : Function.Injective Ptr.buf := fun _ _ h => Ptr.buf.inj h

theorem nodes_split (i : Nat) (l1 l2 : List Nat) (b : Nat) (hnd : (l1 ++ b :: l2).Nodup) :
    ∃ A x y B, nodes i (l1 ++ b :: l2) = A ++ x :: Ptr.buf b :: y :: B ∧
      nodes i (l1 ++ l2) = A ++ x :: y :: B ∧
      x ∉ A ∧ x ∉ (y :: B).dropLast ∧ y ∉ B ∧ y ∉ (A ++ [x]).tail ∧
      x ∈ nodes i (l1 ++ l2) ∧ y ∈ nodes i (l1 ++ l2) := by
  have hN1 : (Ptr.head i :: l1.map Ptr.buf) ≠ [] := by simp
  have hN1nd : (Ptr.head i :: l1.map Ptr.buf).Nodup := by
    rw [List.nodup_cons]
    refine ⟨by simp, (List.nodup_append.1 hnd).1.map buf_injective⟩
  have hN2nd : (l2.map Ptr.buf ++ [Ptr.head i]).Nodup := by
    rw [List.nodup_append]
    refine ⟨((List.nodup_cons.1 (List.nodup_append.1 hnd).2.1).2).map buf_injective, by simp, ?_⟩
    intro a ha ha'
    simp at ha ha'
    obtain ⟨c, _, rfl⟩ := ha
    cases ha'
  have hdis : ∀ a ∈ l1, a ∉ l2 := fun a ha ha' =>
    (List.nodup_append.1 hnd).2.2 ha (List.mem_cons_of_mem _ ha')
  obtain ⟨A, x, hAx⟩ : ∃ A x, Ptr.head i :: l1.map Ptr.buf = A ++ [x] :=
    ⟨_, _, (List.dropLast_append_getLast hN1).symm⟩
  obtain ⟨y, B, hyB⟩ : ∃ y B, l2.map Ptr.buf ++ [Ptr.head i] = y :: B := by
    cases l2 with
    | nil => exact ⟨_, _, rfl⟩
    | cons c l2 => exact ⟨_, _, rfl⟩
  have hxN1 : x ∈ Ptr.head i :: l1.map Ptr.buf := by rw [hAx]; simp
  have hyN2 : y ∈ l2.map Ptr.buf ++ [Ptr.head i] := by rw [hyB]; simp
  refine ⟨A, x, y, B, ?_, ?_, ?_, ?_, ?_, ?_, ?_, ?_⟩
  · calc nodes i (l1 ++ b :: l2)
        = (Ptr.head i :: l1.map Ptr.buf) ++ Ptr.buf b :: (l2.map Ptr.buf ++ [Ptr.head i]) := by
          simp [nodes]
      _ = A ++ x :: Ptr.buf b :: y :: B := by rw [hAx, hyB]; simp
  · calc nodes i (l1 ++ l2)
        = (Ptr.head i :: l1.map Ptr.buf) ++ (l2.map Ptr.buf ++ [Ptr.head i]) := by
          simp [nodes]
      _ = A ++ x :: y :: B := by rw [hAx, hyB]; simp
  · rw [hAx] at hN1nd
    intro hx
    exact (List.nodup_append.1 hN1nd).2.2 hx (List.mem_singleton_self x) 
  · rw [← hyB, List.dropLast_concat]
    intro hx
    simp only [List.mem_map] at hx
    obtain ⟨c, hc, rfl⟩ := hx
    simp only [List.mem_cons, List.mem_map] at hxN1
    rcases hxN1 with hcc | ⟨c', hc', hcc⟩
    · cases hcc
    · cases hcc
      exact hdis _ hc' hc
  · rw [hyB] at hN2nd
    exact (List.nodup_cons.1 hN2nd).1
  · rw [← hAx, List.tail_cons]
    intro hy
    simp only [List.mem_map] at hy
    obtain ⟨c, hc, rfl⟩ := hy
    simp only [List.mem_append, List.mem_map, List.mem_singleton] at hyN2
    rcases hyN2 with ⟨c', hc', hcc⟩ | hcc
    · cases hcc
      exact hdis _ hc hc'
    · cases hcc
  · rw [mem_nodes]
    simp only [List.mem_cons, List.mem_map] at hxN1
    rcases hxN1 with h | ⟨c, hc, rfl⟩
    · exact Or.inl h
    · exact Or.inr ⟨c, List.mem_append_left _ hc, rfl⟩
  · rw [mem_nodes]
    simp only [List.mem_append, List.mem_map, List.mem_singleton] at hyN2
    rcases hyN2 with ⟨c, hc, rfl⟩ | h
    · exact Or.inr ⟨c, List.mem_append_right _ hc, rfl⟩
    · exact Or.inl h

/-- Unlinking `b` from the cycle of bucket `i`. -/
theorem Cyc.unlink_cyc {f g : Ptr → Ptr} {i : Nat} {l1 l2 : List Nat} {b : Nat}
    (h : Cyc f g i (l1 ++ b :: l2)) (hnd : (l1 ++ b :: l2).Nodup) :
    Cyc (upd f (g (Ptr.buf b)) (f (Ptr.buf b))) (upd g (f (Ptr.buf b)) (g (Ptr.buf b))) i
        (l1 ++ l2) ∧
      g (Ptr.buf b) ∈ nodes i (l1 ++ l2) ∧ f (Ptr.buf b) ∈ nodes i (l1 ++ l2) := by
  obtain ⟨A, x, y, B, e1, e2, hxA, hxB, hyB, hyA, hx, hy⟩ := nodes_split i l1 l2 b hnd
  obtain ⟨hn, hp⟩ := h
  rw [e1] at hn hp
  have hfy : f (Ptr.buf b) = y := hn.around_next.2
  have hgx : g (Ptr.buf b) = x := hp.around_prev.1
  rw [hfy, hgx]
  refine ⟨⟨?_, ?_⟩, hx, hy⟩
  · rw [e2]; exact hn.unlink_next hxA hxB
  · rw [e2]; exact hp.unlink_prev hyB hyA

/-- Inserting `b` right behind the head of bucket `i`. -/
theorem Cyc.insert_cyc {f g : Ptr → Ptr} {i : Nat} {l : List Nat} {b : Nat}
    (h : Cyc f g i l) (hnd : l.Nodup) (hb : b ∉ l) :
    Cyc (upd (upd f (Ptr.buf b) (f (Ptr.head i))) (Ptr.head i) (Ptr.buf b))
        (upd (upd g (Ptr.buf b) (Ptr.head i)) (f (Ptr.head i)) (Ptr.buf b)) i (b :: l) ∧
      f (Ptr.head i) ∈ nodes i l ∧ f (Ptr.head i) ≠ Ptr.buf b := by
  obtain ⟨y, B, hyB⟩ : ∃ y B, l.map Ptr.buf ++ [Ptr.head i] = y :: B := by
    cases l with
    | nil => exact ⟨_, _, rfl⟩
    | cons c l => exact ⟨_, _, rfl⟩
  have hN2nd : (l.map Ptr.buf ++ [Ptr.head i]).Nodup := by
    rw [List.nodup_append]
    refine ⟨hnd.map buf_injective, by simp, ?_⟩
    intro a ha ha'
    simp at ha ha'
    obtain ⟨c, _, rfl⟩ := ha
    cases ha'
  have hyN2 : y ∈ l.map Ptr.buf ++ [Ptr.head i] := by rw [hyB]; simp
  have hbN2 : Ptr.buf b ∉ l.map Ptr.buf ++ [Ptr.head i] := by
    simp only [List.mem_append, List.mem_map, List.mem_singleton, not_or]
    refine ⟨?_, by simp⟩
    rintro ⟨c, hc, hcc⟩
    cases hcc
    exact hb hc
  have e1 : nodes i l = Ptr.head i :: y :: B := by simp [nodes, hyB]
  have e2 : nodes i (b :: l) = Ptr.head i :: Ptr.buf b :: y :: B := by
    simp [nodes, hyB]
  obtain ⟨hn, hp⟩ := h
  rw [e1] at hn hp
  have hfy : f (Ptr.head i) = y := by
    unfold NextOk at hn; rw [List.chain'_cons] at hn; exact hn.1
  have hdl : (y :: B).dropLast = l.map Ptr.buf := by
    rw [← hyB, List.dropLast_concat]
  have hyb : y ≠ Ptr.buf b := fun e => hbN2 (e ▸ hyN2)
  rw [hfy]
  refine ⟨⟨?_, ?_⟩, ?_, hyb⟩
  · rw [e2]
    refine hn.insert_next (by simp) ?_ ?_
    · rw [hdl]; simp
    · rw [hdl]
      intro hm
      exact hbN2 (List.mem_append_left _ hm)
  · rw [e2]
    refine hp.insert_prev hyb ?_ ?_
    · rw [hyB] at hN2nd
      exact (List.nodup_cons.1 hN2nd).1
    · intro hm
      apply hbN2
      rw [hyB]
      exact List.mem_cons_of_mem _ hm
  · rw [e1]; simp

theorem scanKey_chain (s : Kernel) (id dev blockno : Nat) :
    ∀ (l : List Nat) (p : Ptr) (fuel : Nat),
      NextOk s.next (p :: (l.map Ptr.buf ++ [Ptr.head id])) → l.length < fuel →
      scanKey s id dev blockno fuel (s.next p) = Scan.ofOption (l.find? (keyIs s dev blockno))
  | [], p, fuel, h, hf => by
    obtain ⟨f, rfl⟩ : ∃ f, fuel = f + 1 := ⟨fuel - 1, by simp at hf; omega⟩
    have hp : s.next p = Ptr.head id := by
      unfold NextOk at h; simp at h; exact h
    simp [scanKey, hp, Scan.ofOption]
  | b :: l, p, fuel, h, hf => by
    obtain ⟨f, rfl⟩ : ∃ f, fuel = f + 1 := ⟨fuel - 1, by simp at hf; omega⟩
    unfold NextOk at h
    simp only [List.map_cons, List.cons_append] at h
    rw [List.chain'_cons] at h
    have ih := scanKey_chain s id dev blockno l (Ptr.buf b) f h.2 (by simp at hf; omega)
    rw [h.1]
    simp only [scanKey, List.find?_cons, keyIs] at ih ⊢
    by_cases hk : (s.buf b).dev = dev ∧ (s.buf b).blockno = blockno
    · simp [hk, Scan.ofOption]
    · simp only [hk, ↓reduceIte, decide_False]
      simpa using ih

theorem scanFree_chain (s : Kernel) (id : Nat) :
    ∀ (l : List Nat) (q : Ptr) (fuel : Nat),
      PrevOk s.prev (Ptr.head id :: (l.map Ptr.buf ++ [q])) → l.length < fuel →
      scanFree s id fuel (s.prev q) = Scan.ofOption (l.reverse.find? (isFree s)) := by
  intro l
  induction l using List.reverseRecOn with
  | nil =>
    intro q fuel h hf
    obtain ⟨f, rfl⟩ : ∃ f, fuel = f + 1 := ⟨fuel - 1, by simp at hf; omega⟩
    have hp : s.prev q = Ptr.head id := by
      unfold PrevOk at h; simp at h; exact h
    simp [scanFree, hp, Scan.ofOption]
  | append_singleton l a ih =>
    intro q fuel h hf
    obtain ⟨f, rfl⟩ : ∃ f, fuel = f + 1 := ⟨fuel - 1, by simp at hf; omega⟩
    unfold PrevOk at h
    have e : Ptr.head id :: ((l ++ [a]).map Ptr.buf ++ [q])
        = (Ptr.head id :: l.map Ptr.buf) ++ Ptr.buf a :: [q] := by simp
    rw [e, List.chain'_split, List.chain'_cons] at h
    have h1 : PrevOk s.prev (Ptr.head id :: (l.map Ptr.buf ++ [Ptr.buf a])) := by
      simpa [PrevOk] using h.1
    have ih' := ih (Ptr.buf a) f h1 (by simp at hf; omega)
    rw [h.2.1]
    simp only [scanFree, List.reverse_append, List.reverse_cons, List.reverse_nil,
      List.nil_append, List.singleton_append, List.find?_cons, isFree] at ih' ⊢
    by_cases hk : (s.buf a).refcnt = 0
    · simp [hk, Scan.ofOption]
    · simp only [hk, ↓reduceIte, decide_False]
      simpa using ih'

theorem nodes_disjoint {i j : Nat} {l l' : List Nat} (hij : i ≠ j)
    (hd : ∀ b, b ∈ l → b ∉ l') {a : Ptr} (ha : a ∈ nodes i l) : a ∉ nodes j l' := by
  rw [mem_nodes] at ha ⊢
  rintro (h | ⟨c, hc, h⟩)
  · rcases ha with ha | ⟨b, _, ha⟩
    · rw [ha] at h; cases h; exact hij rfl
    · rw [ha] at h; cases h
  · rcases ha with ha | ⟨b, hb, ha⟩
    · rw [ha] at h; cases h
    · rw [ha] at h; cases h; exact hd _ hb hc

theorem Linked.unlink {f g : Ptr → Ptr} {L : Nat → List Nat} (h : Linked f g L) {i b : Nat}
    (hi : i < NBUCKET) (hb : b ∈ L i) :
    Linked (upd f (g (Ptr.buf b)) (f (Ptr.buf b))) (upd g (f (Ptr.buf b)) (g (Ptr.buf b)))
      (upd L i ((L i).erase b)) ∧
    ∀ j, j < NBUCKET → b ∉ upd L i ((L i).erase b) j := by
  obtain ⟨l1, l2, hl⟩ := List.append_of_mem hb
  have hnd := h.nodup i hi
  rw [hl] at hnd
  have hb1 : b ∉ l1 := fun hm =>
    (List.nodup_append.1 hnd).2.2 hm (List.mem_cons_self _ _)
  have he : (L i).erase b = l1 ++ l2 := by
    rw [hl, List.erase_append_right _ hb1, List.erase_cons_head]
  have hc := h.cyc i hi
  rw [hl] at hc
  obtain ⟨hc', hx, hy⟩ := hc.unlink_cyc hnd
  rw [← he] at hc' hx hy
  have hsub : ∀ c, c ∈ (L i).erase b → c ∈ L i := fun c hc => List.mem_of_mem_erase hc
  refine ⟨⟨?_, ?_, ?_⟩, ?_⟩
  · intro j hj
    by_cases hji : j = i
    · subst hji; rw [upd_same]; exact hc'
    · rw [upd_other _ _ _ _ hji]
      refine (h.cyc j hj).frame ?_ ?_
      · intro a ha
        refine upd_other _ _ _ _ (fun e => ?_)
        rw [e] at ha
        exact nodes_disjoint (Ne.symm hji)
          (fun c hc hc' => hji (h.disj j i c hj hi hc' (hsub c hc))) hx ha
      · intro a ha
        refine upd_other _ _ _ _ (fun e => ?_)
        rw [e] at ha
        exact nodes_disjoint (Ne.symm hji)
          (fun c hc hc' => hji (h.disj j i c hj hi hc' (hsub c hc))) hy ha
  · intro j hj
    by_cases hji : j = i
    · subst hji; rw [upd_same]; exact (h.nodup j hj).erase b
    · rw [upd_other _ _ _ _ hji]; exact h.nodup j hj
  · intro j k c hj hk hcj hck
    have hcj' : c ∈ L j := by
      by_cases hji : j = i
      · subst hji; rw [upd_same] at hcj; exact hsub c hcj
      · rw [upd_other _ _ _ _ hji] at hcj; exact hcj
    have hck' : c ∈ L k := by
      by_cases hki : k = i
      · subst hki; rw [upd_same] at hck; exact hsub c hck
      · rw [upd_other _ _ _ _ hki] at hck; exact hck
    exact h.disj j k c hj hk hcj' hck'
  · intro j hj
    by_cases hji : j = i
    · subst hji; rw [upd_same]
      exact fun hm => (List.Nodup.mem_erase_iff (h.nodup j hj)).1 hm |>.1 rfl
    · rw [upd_other _ _ _ _ hji]
      exact fun hm => hji (h.disj j i b hj hi hm hb)

theorem Linked.insert {f g : Ptr → Ptr} {L : Nat → List Nat} (h : Linked f g L) {i b : Nat}
    (hi : i < NBUCKET) (hb : ∀ j, j < NBUCKET → b ∉ L j) :
    Linked (upd (upd f (Ptr.buf b) (f (Ptr.head i))) (Ptr.head i) (Ptr.buf b))
      (upd (upd g (Ptr.buf b) (Ptr.head i)) (f (Ptr.head i)) (Ptr.buf b))
      (upd L i (b :: L i)) ∧ f (Ptr.head i) ≠ Ptr.buf b := by
  obtain ⟨hc', hy, hyb⟩ := (h.cyc i hi).insert_cyc (h.nodup i hi) (hb i hi)
  refine ⟨⟨?_, ?_, ?_⟩, hyb⟩
  · intro j hj
    by_cases hji : j = i
    · subst hji; rw [upd_same]; exact hc'
    · rw [upd_other _ _ _ _ hji]
      have hbj : Ptr.buf b ∉ nodes j (L j) := by
        rw [mem_nodes]
        rintro (e | ⟨c, hc, e⟩)
        · cases e
        · cases e; exact hb j hj hc
      have hhj : Ptr.head i ∉ nodes j (L j) := by
        rw [mem_nodes]
        rintro (e | ⟨c, hc, e⟩)
        · cases e; exact hji rfl
        · cases e
      refine (h.cyc j hj).frame ?_ ?_
      · intro a ha
        rw [upd_other _ _ _ _ (ne_of_mem_of_not_mem ha hhj),
          upd_other _ _ _ _ (ne_of_mem_of_not_mem ha hbj)]
      · intro a ha
        have hya : a ≠ f (Ptr.head i) := by
          intro e
          rw [e] at ha
          exact nodes_disjoint (Ne.symm hji)
            (fun c hc hc' => hji (h.disj j i c hj hi hc' hc)) hy ha
        rw [upd_other _ _ _ _ hya, upd_other _ _ _ _ (ne_of_mem_of_not_mem ha hbj)]
  · intro j hj
    by_cases hji : j = i
    · subst hji; rw [upd_same]; exact List.nodup_cons.2 ⟨hb j hj, h.nodup j hj⟩
    · rw [upd_other _ _ _ _ hji]; exact h.nodup j hj
  · intro j k c hj hk hcj hck
    by_cases hcb : c = b
    · subst hcb
      by_cases hji : j = i
      · by_cases hki : k = i
        · rw [hji, hki]
        · rw [upd_other _ _ _ _ hki] at hck; exact absurd hck (hb k hk)
      · rw [upd_other _ _ _ _ hji] at hcj; exact absurd hcj (hb j hj)
    · have hcj' : c ∈ L j := by
        by_cases hji : j = i
        · subst hji; rw [upd_same] at hcj
          exact (List.mem_cons.1 hcj).resolve_left hcb
        · rw [upd_other _ _ _ _ hji] at hcj; exact hcj
      have hck' : c ∈ L k := by
        by_cases hki : k = i
        · subst hki; rw [upd_same] at hck
          exact (List.mem_cons.1 hck).resolve_left hcb
        · rw [upd_other _ _ _ _ hki] at hck; exact hck
      exact h.disj j k c hj hk hcj' hck'

/-! ## The pointer stores in canonical form -/

theorem unlinkSteal_next (s : Kernel) (b : Nat) :
    (unlinkSteal s b).next = upd s.next (s.prev (Ptr.buf b)) (s.next (Ptr.buf b)) := rfl

theorem unlinkSteal_prev (s : Kernel) (b : Nat) :
    (unlinkSteal s b).prev = upd s.prev (s.next (Ptr.buf b)) (s.prev (Ptr.buf b)) := by
  funext x
  simp only [unlinkSteal, setPrev, setNext, upd]
  by_cases h : Ptr.buf b = s.prev (Ptr.buf b)
  · simp [← h]
  · simp [h]

theorem insertSteal_prev (s : Kernel) (b id : Nat) :
    (insertSteal s b id).prev
      = upd (upd s.prev (Ptr.buf b) (Ptr.head id)) (s.next (Ptr.head id)) (Ptr.buf b) := by
  funext x
  simp [insertSteal, setPrev, setNext, upd]

theorem insertSteal_next (s : Kernel) (b id : Nat) (h : s.next (Ptr.head id) ≠ Ptr.buf b) :
    (insertSteal s b id).next
      = upd (upd s.next (Ptr.buf b) (s.next (Ptr.head id))) (Ptr.head id) (Ptr.buf b) := by
  funext x
  simp [insertSteal, setPrev, setNext, upd, h.symm]

theorem moveToFront_next (s : Kernel) (b id : Nat) :
    (moveToFront s b id).next
      = upd (upd (upd s.next (s.prev (Ptr.buf b)) (s.next (Ptr.buf b))) (Ptr.buf b)
          (upd s.next (s.prev (Ptr.buf b)) (s.next (Ptr.buf b)) (Ptr.head id)))
          (Ptr.head id) (Ptr.buf b) := by
  funext x
  simp only [moveToFront, setPrev, setNext, upd]
  by_cases h : Ptr.buf b = s.next (Ptr.buf b)
  · simp [← h]
  · simp [h]

theorem moveToFront_prev (s : Kernel) (b id : Nat) :
    (moveToFront s b id).prev
      = upd (upd (upd s.prev (s.next (Ptr.buf b)) (s.prev (Ptr.buf b))) (Ptr.buf b)
          (Ptr.head id))
          (upd s.next (s.prev (Ptr.buf b)) (s.next (Ptr.buf b)) (Ptr.head id)) (Ptr.buf b) := by
  funext x
  simp only [moveToFront, setPrev, setNext, upd]
  by_cases h : Ptr.buf b = s.next (Ptr.buf b)
  · simp [← h]
  · simp [h]

/-- Unlinking `b` from bucket `i` and inserting it at the front of bucket `id`. -/
theorem Linked.move_linked {f g : Ptr → Ptr} {L : Nat → List Nat} (h : Linked f g L) {i id b : Nat}
    (hi : i < NBUCKET) (hid : id < NBUCKET) (hb : b ∈ L i) :
    Linked
      (upd (upd (upd f (g (Ptr.buf b)) (f (Ptr.buf b))) (Ptr.buf b)
        (upd f (g (Ptr.buf b)) (f (Ptr.buf b)) (Ptr.head id))) (Ptr.head id) (Ptr.buf b))
      (upd (upd (upd g (f (Ptr.buf b)) (g (Ptr.buf b))) (Ptr.buf b) (Ptr.head id))
        (upd f (g (Ptr.buf b)) (f (Ptr.buf b)) (Ptr.head id)) (Ptr.buf b))
      (moveL L i id b) ∧
    upd f (g (Ptr.buf b)) (f (Ptr.buf b)) (Ptr.head id) ≠ Ptr.buf b := by
  obtain ⟨h1, hnot⟩ := h.unlink hi hb
  exact h1.insert hid hnot

theorem mem_moveL {f g : Ptr → Ptr} {L : Nat → List Nat} (h : Linked f g L) {i id b : Nat}
    (hi : i < NBUCKET) (hb : b ∈ L i) (c j : Nat) (hj : j < NBUCKET) :
    c ∈ moveL L i id b j ↔ (c = b ∧ j = id) ∨ (c ≠ b ∧ c ∈ L j) := by
  have he : ∀ c, c ∈ (L i).erase b ↔ c ≠ b ∧ c ∈ L i := fun c => (h.nodup i hi).mem_erase_iff
  have hbj : ∀ k, k < NBUCKET → k ≠ i → b ∉ L k := fun k hk hki hm =>
    hki (h.disj k i b hk hi hm hb)
  unfold moveL
  by_cases hjd : j = id
  · subst hjd
    rw [upd_same, List.mem_cons]
    by_cases hji : j = i
    · subst hji
      rw [upd_same, he]
      constructor
      · rintro (h | h)
        · exact Or.inl ⟨h, rfl⟩
        · exact Or.inr h
      · rintro (h | h)
        · exact Or.inl h.1
        · exact Or.inr h
    · rw [upd_other _ _ _ _ hji]
      constructor
      · rintro (h | h)
        · exact Or.inl ⟨h, rfl⟩
        · refine Or.inr ⟨?_, h⟩
          rintro rfl
          exact hbj j hj hji h
      · rintro (h | h)
        · exact Or.inl h.1
        · exact Or.inr h.2
  · rw [upd_other _ _ _ _ hjd]
    by_cases hji : j = i
    · subst hji
      rw [upd_same, he]
      simp [hjd]
    · rw [upd_other _ _ _ _ hji]
      constructor
      · intro h
        refine Or.inr ⟨?_, h⟩
        rintro rfl
        exact hbj j hj hji h
      · rintro (h | h)
        · exact absurd h.2 hjd
        · exact h.2

theorem Abs.congr {NBUF : Nat} {s s1 : Kernel} {L : Nat → List Nat} (h : Abs NBUF s L)
    (hn : s1.next = s.next) (hp : s1.prev = s.prev) : Abs NBUF s1 L :=
  ⟨by rw [hn, hp]; exact h.linked, h.cover⟩

theorem ihash_lt (n : Nat) : ihash n < NBUCKET := Nat.mod_lt _ (by decide)

theorem Abs.mem_lt {NBUF : Nat} {s : Kernel} {L : Nat → List Nat} (h : Abs NBUF s L)
    {i b : Nat} (hi : i < NBUCKET) (hb : b ∈ L i) : b < NBUF :=
  (h.cover b).2 ⟨i, hi, hb⟩

theorem Abs.length_le {NBUF : Nat} {s : Kernel} {L : Nat → List Nat} (h : Abs NBUF s L)
    {i : Nat} (hi : i < NBUCKET) : (L i).length ≤ NBUF := by
  have hsub : (L i).toFinset ⊆ Finset.range NBUF := by
    intro b hb
    rw [List.mem_toFinset] at hb
    exact Finset.mem_range.2 (h.mem_lt hi hb)
  have := Finset.card_le_card hsub
  rwa [List.toFinset_card_of_nodup (h.linked.nodup i hi), Finset.card_range] at this

theorem Abs.length_lt {NBUF : Nat} {s : Kernel} {L : Nat → List Nat} (h : Abs NBUF s L)
    {i : Nat} (hi : i < NBUCKET) : (L i).length < walkFuel NBUF := by
  have := h.length_le hi
  unfold walkFuel
  omega

/-- The memory after `b` moved from bucket `i` to the front of bucket `id`. -/
theorem Abs.move {NBUF : Nat} {s s1 : Kernel} {L : Nat → List Nat} (h : Abs NBUF s L)
    {i id b : Nat} (hi : i < NBUCKET) (hid : id < NBUCKET) (hb : b ∈ L i)
    (hn : s1.next = upd (upd (upd s.next (s.prev (Ptr.buf b)) (s.next (Ptr.buf b))) (Ptr.buf b)
        (upd s.next (s.prev (Ptr.buf b)) (s.next (Ptr.buf b)) (Ptr.head id)))
        (Ptr.head id) (Ptr.buf b))
    (hp : s1.prev = upd (upd (upd s.prev (s.next (Ptr.buf b)) (s.prev (Ptr.buf b))) (Ptr.buf b)
        (Ptr.head id))
        (upd s.next (s.prev (Ptr.buf b)) (s.next (Ptr.buf b)) (Ptr.head id)) (Ptr.buf b)) :
    Abs NBUF s1 (moveL L i id b) := by
  refine ⟨?_, ?_⟩
  · rw [hn, hp]; exact (h.linked.move_linked hi hid hb).1
  · intro c
    rw [h.cover c]
    constructor
    · rintro ⟨j, hj, hc⟩
      by_cases hcb : c = b
      · exact ⟨id, hid, (mem_moveL h.linked hi hb c id hid).2 (Or.inl ⟨hcb, rfl⟩)⟩
      · exact ⟨j, hj, (mem_moveL h.linked hi hb c j hj).2 (Or.inr ⟨hcb, hc⟩)⟩
    · rintro ⟨j, hj, hc⟩
      rcases (mem_moveL h.linked hi hb c j hj).1 hc with ⟨rfl, _⟩ | ⟨_, hc'⟩
      · exact ⟨i, hi, hb⟩
      · exact ⟨j, hj, hc'⟩

theorem Abs.stolen {NBUF : Nat} {s : Kernel} {L : Nat → List Nat} (h : Abs NBUF s L)
    {i b : Nat} (dev blockno : Nat) (hi : i < NBUCKET) (hb : b ∈ L i) :
    Abs NBUF (stolen s b dev blockno) (moveL L i (ihash blockno) b) := by
  have hne := (h.linked.move_linked hi (ihash_lt blockno) hb).2
  refine h.move hi (ihash_lt blockno) hb ?_ ?_
  · unfold Bcache.stolen
    rw [insertSteal_next _ _ _ (by rw [unlinkSteal_next]; exact hne), unlinkSteal_next]
    rfl
  · unfold Bcache.stolen
    rw [insertSteal_prev, unlinkSteal_prev, unlinkSteal_next]
    rfl

/-! ## Spinlock events do not change the memory -/

theorem Sim.refl (s : Kernel) : Sim s s := ⟨rfl, rfl, rfl, rfl, rfl⟩

theorem Sim.symm {s1 s2 : Kernel} (h : Sim s1 s2) : Sim s2 s1 :=
  ⟨h.1.symm, h.2.1.symm, h.2.2.1.symm, h.2.2.2.1.symm, h.2.2.2.2.symm⟩

theorem Sim.trans {s1 s2 s3 : Kernel} (h : Sim s1 s2) (h' : Sim s2 s3) : Sim s1 s3 :=
  ⟨h.1.trans h'.1, h.2.1.trans h'.2.1, h.2.2.1.trans h'.2.2.1, h.2.2.2.1.trans h'.2.2.2.1,
    h.2.2.2.2.trans h'.2.2.2.2⟩

theorem ioLog_emit (s : Kernel) (e : Event) :
    ioLog (emit s e) = ioLog s ++ (if e.isSpin then [] else [e]) := by
  unfold ioLog emit
  simp only [List.filter_append]
  cases h : e.isSpin <;> simp [List.filter, h]

theorem Sim.acquire {s1 s2 : Kernel} (h : Sim s1 s2) (l : Lock) : Sim (acquire s1 l) s2 := by
  refine ⟨h.1, h.2.1, h.2.2.1, h.2.2.2.1, ?_⟩
  rw [Bcache.acquire, ioLog_emit]
  simpa [Event.isSpin] using h.2.2.2.2

theorem Sim.release {s1 s2 : Kernel} (h : Sim s1 s2) (l : Lock) : Sim (release s1 l) s2 := by
  refine ⟨h.1, h.2.1, h.2.2.1, h.2.2.2.1, ?_⟩
  rw [Bcache.release, ioLog_emit]
  simpa [Event.isSpin] using h.2.2.2.2

theorem Sim.abs {NBUF : Nat} {s1 s2 : Kernel} {L : Nat → List Nat} (h : Sim s1 s2)
    (ha : Abs NBUF s2 L) : Abs NBUF s1 L := ha.congr h.2.1 h.2.2.1

theorem Sim.setBuf {s1 s2 : Kernel} (h : Sim s1 s2) (b : Nat) (v : Buf) :
    Sim (setBuf s1 b v) (setBuf s2 b v) := by
  obtain ⟨hb, hn, hp, hd, hl⟩ := h
  refine ⟨?_, hn, hp, hd, hl⟩
  simp [Bcache.setBuf, hb]

theorem Sim.incRef {s1 s2 : Kernel} (h : Sim s1 s2) (b : Nat) :
    Sim (incRef s1 b) (incRef s2 b) := by
  unfold Bcache.incRef
  rw [h.1]
  exact h.setBuf _ _

theorem Sim.reassign {s1 s2 : Kernel} (h : Sim s1 s2) (b dev blockno : Nat) :
    Sim (reassign s1 b dev blockno) (reassign s2 b dev blockno) := by
  unfold Bcache.reassign
  rw [h.1]
  exact h.setBuf _ _

theorem Sim.setNext {s1 s2 : Kernel} (h : Sim s1 s2) (p q : Ptr) :
    Sim (setNext s1 p q) (setNext s2 p q) := by
  obtain ⟨hb, hn, hp, hd, hl⟩ := h
  refine ⟨hb, ?_, hp, hd, hl⟩
  simp [Bcache.setNext, hn]

theorem Sim.setPrev {s1 s2 : Kernel} (h : Sim s1 s2) (p q : Ptr) :
    Sim (setPrev s1 p q) (setPrev s2 p q) := by
  obtain ⟨hb, hn, hp, hd, hl⟩ := h
  refine ⟨hb, hn, ?_, hd, hl⟩
  simp [Bcache.setPrev, hp]

theorem Sim.unlinkSteal {s1 s2 : Kernel} (h : Sim s1 s2) (b : Nat) :
    Sim (unlinkSteal s1 b) (unlinkSteal s2 b) := by
  unfold Bcache.unlinkSteal
  simp only
  have h1 := h.setNext (s1.prev (Ptr.buf b)) (s1.next (Ptr.buf b))
  rw [h.2.1, h.2.2.1] at h1
  have h2 := h1.setPrev ((Bcache.setNext s1 (s2.prev (Ptr.buf b)) (s2.next (Ptr.buf b))).next
    (Ptr.buf b)) ((Bcache.setNext s1 (s2.prev (Ptr.buf b)) (s2.next (Ptr.buf b))).prev (Ptr.buf b))
  rw [h1.2.1, h1.2.2.1] at h2
  rw [h.2.1, h.2.2.1, h1.2.1, h1.2.2.1]
  exact h2

theorem Sim.insertSteal {s1 s2 : Kernel} (h : Sim s1 s2) (b id : Nat) :
    Sim (insertSteal s1 b id) (insertSteal s2 b id) := by
  obtain ⟨hb, hn, hp, hd, hl⟩ := h
  refine ⟨hb, ?_, ?_, hd, hl⟩
  · simp [Bcache.insertSteal, Bcache.setNext, Bcache.setPrev, hn, hp]
  · simp [Bcache.insertSteal, Bcache.setNext, Bcache.setPrev, hn, hp]

theorem Sim.stolen_sim {s1 s2 : Kernel} (h : Sim s1 s2) (b dev blockno : Nat) :
    Sim (stolen s1 b dev blockno) (stolen s2 b dev blockno) :=
  ((h.reassign b dev blockno).unlinkSteal b).insertSteal b _

theorem Sim.keyIs {s1 s2 : Kernel} (h : Sim s1 s2) (dev blockno : Nat) :
    keyIs s1 dev blockno = keyIs s2 dev blockno := by
  funext b; simp [Bcache.keyIs, h.1]

theorem Sim.isFree {s1 s2 : Kernel} (h : Sim s1 s2) : isFree s1 = isFree s2 := by
  funext b; simp [Bcache.isFree, h.1]

/-! ## The scans of `bget` on well-formed lists -/

theorem Abs.scanKey {NBUF : Nat} {s s1 : Kernel} {L : Nat → List Nat} (h : Abs NBUF s L)
    (hs : Sim s1 s) (id dev blockno : Nat) (hid : id < NBUCKET) :
    scanKey s1 id dev blockno (walkFuel NBUF) (s1.next (Ptr.head id))
      = Scan.ofOption ((L id).find? (keyIs s dev blockno)) := by
  have h1 := hs.abs h
  rw [scanKey_chain s1 id dev blockno (L id) (Ptr.head id) (walkFuel NBUF)
    (h1.linked.cyc id hid).1 (h.length_lt hid), hs.keyIs]

theorem Abs.scanFree {NBUF : Nat} {s s1 : Kernel} {L : Nat → List Nat} (h : Abs NBUF s L)
    (hs : Sim s1 s) (id : Nat) (hid : id < NBUCKET) :
    scanFree s1 id (walkFuel NBUF) (s1.prev (Ptr.head id))
      = Scan.ofOption (lruFree s (L id)) := by
  have h1 := hs.abs h
  rw [scanFree_chain s1 id (L id) (Ptr.head id) (walkFuel NBUF)
    (h1.linked.cyc id hid).2 (h.length_lt hid), hs.isFree]
  rfl

/-! ## What `bget` does on well-formed lists -/

theorem stealLoop_spec {NBUF : Nat} {s : Kernel} {L : Nat → List Nat} (h : Abs NBUF s L)
    (dev blockno : Nat) :
    ∀ (n t : Nat) (s1 : Kernel), t + n = 12 → Sim s1 s →
      StealPost s dev blockno
        (stealLoop NBUF dev blockno (ihash blockno) (n + 1) (ihash (ihash blockno + 1 + t)) s1)
        (((List.range' t n).map (fun t => ihash (ihash blockno + 1 + t))).findSome?
          (stealCand s L))
  | 0, t, s1, ht, hs => by
    have hid := ihash_lt blockno
    have hi : ihash (ihash blockno + 1 + t) = ihash blockno := by
      unfold ihash NBUCKET at *; omega
    simp only [stealLoop, hi, ↓reduceIte, List.range'_zero, List.map_nil, List.findSome?_nil,
      StealPost]
    exact ⟨s1, rfl, hs⟩
  | n + 1, t, s1, ht, hs => by
    have hid := ihash_lt blockno
    have hi : ihash (ihash blockno + 1 + t) ≠ ihash blockno := by
      unfold ihash NBUCKET at *; omega
    have hnext : ihash (ihash (ihash blockno + 1 + t) + 1) = ihash (ihash blockno + 1 + (t + 1)) := by
      unfold ihash NBUCKET at *; omega
    have hscan := h.scanFree (hs.acquire (Lock.bucket (ihash (ihash blockno + 1 + t))))
      (ihash (ihash blockno + 1 + t)) (ihash_lt _)
    have ih := stealLoop_spec h dev blockno n (t + 1)
      (release (acquire s1 (Lock.bucket (ihash (ihash blockno + 1 + t))))
        (Lock.bucket (ihash (ihash blockno + 1 + t))))
      (by omega) ((hs.acquire _).release _)
    rw [stealLoop]
    simp only [hi, ↓reduceIte, hscan, List.range'_succ, List.map_cons, List.findSome?_cons,
      stealCand]
    cases hl : lruFree s (L (ihash (ihash blockno + 1 + t))) with
    | none =>
      simp only [Scan.ofOption, Option.map_none', hnext]
      exact ih
    | some b =>
      simp only [Scan.ofOption, Option.map_some', StealPost]
      exact ⟨_, rfl, ((((((hs.acquire _).reassign b dev blockno).unlinkSteal b).release _).insertSteal
        b _).release _).release _⟩

theorem bget_spec {NBUF : Nat} {s : Kernel} {L : Nat → List Nat} (h : Abs NBUF s L)
    (dev blockno : Nat) :
    BgetPost s dev blockno (bget NBUF s dev blockno) (pick s L dev blockno) := by
  have hid := ihash_lt blockno
  have hs1 : Sim (acquire s (Lock.bucket (ihash blockno))) s := (Sim.refl s).acquire _
  have hs4 : Sim (acquire (acquire (release (acquire s (Lock.bucket (ihash blockno)))
      (Lock.bucket (ihash blockno))) Lock.steal) (Lock.bucket (ihash blockno))) s :=
    (((hs1.release _).acquire _).acquire _)
  have k1 := h.scanKey hs1 (ihash blockno) dev blockno hid
  have f1 := h.scanFree hs1 (ihash blockno) hid
  have k4 := h.scanKey hs4 (ihash blockno) dev blockno hid
  have f4 := h.scanFree hs4 (ihash blockno) hid
  unfold bget pick
  simp only [k1, f1, k4, f4]
  cases hk : (L (ihash blockno)).find? (keyIs s dev blockno) with
  | some b =>
    simp only [Scan.ofOption, BgetPost]
    exact ⟨_, rfl, (hs1.incRef b).release _⟩
  | none =>
    cases hf : lruFree s (L (ihash blockno)) with
    | some b =>
      simp only [Scan.ofOption, BgetPost]
      exact ⟨_, rfl, (hs1.reassign b dev blockno).release _⟩
    | none =>
      simp only [Scan.ofOption]
      have hl := stealLoop_spec h dev blockno 12 0 _ rfl hs4
      have ho : (List.range' 0 12).map (fun t => ihash (ihash blockno + 1 + t))
          = stealOrder (ihash blockno) := by
        unfold stealOrder NBUCKET
        rw [List.range_eq_range']
      rw [ho] at hl
      have hfuel : NBUCKET = 12 + 1 := rfl
      simp only [Nat.add_zero] at hl
      rw [hfuel]
      change StealPost s dev blockno _ ((stealOrder (ihash blockno)).findSome? (stealCand s L)) at hl
      cases hc : (stealOrder (ihash blockno)).findSome? (stealCand s L) with
      | none =>
        rw [hc] at hl
        have hc' : (stealOrder (ihash blockno)).findSome?
            (fun i => (lruFree s (L i)).map (fun b => (i, b))) = none := hc
        simp only [hc', BgetPost]
        exact hl
      | some p =>
        obtain ⟨i, b⟩ := p
        rw [hc] at hl
        have hc' : (stealOrder (ihash blockno)).findSome?
            (fun i => (lruFree s (L i)).map (fun b => (i, b))) = some (i, b) := hc
        simp only [hc', BgetPost]
        exact hl

/-! ## List facts used by the invariants -/

theorem find?_skip {p : Nat → Bool} {e : Nat} (he : p e = false) :
    ∀ l : List Nat, (l.filter (fun x => x != e)).find? p = l.find? p
  | [] => rfl
  | a :: l => by
    by_cases hae : a = e
    · subst hae
      simp [List.filter_cons, he, find?_skip he l]
    · have : (a != e) = true := by simpa using hae
      simp only [List.filter_cons, this, ↓reduceIte, List.find?_cons, find?_skip he l]

theorem find?_mono {p q : Nat → Bool} {c : Nat} :
    ∀ {l : List Nat}, l.find? p = some c → q c = true →
      (∀ x ∈ l, q x = true → p x = true) → l.find? q = some c
  | [], h, _, _ => by simp at h
  | a :: l, h, hc, hle => by
    rw [List.find?_cons_eq_some] at h
    rcases h with ⟨_, rfl⟩ | ⟨hpa, h⟩
    · simp [hc]
    · have hqa : q a = false := by
        cases hq : q a with
        | false => rfl
        | true =>
          have := hle a (List.mem_cons_self _ _) hq
          simp [this] at hpa
      rw [List.find?_cons, hqa]
      exact find?_mono h hc (fun x hx => hle x (List.mem_cons_of_mem _ hx))

theorem find?_unique {p : Nat → Bool} {e : Nat} :
    ∀ {l : List Nat}, e ∈ l → p e = true → (∀ x ∈ l, p x = true → x = e) →
      l.find? p = some e
  | [], he, _, _ => by simp at he
  | a :: l, he, hp, hu => by
    by_cases hpa : p a = true
    · have := hu a (List.mem_cons_self _ _) hpa
      subst this
      simp [hpa]
    · have hae : a ≠ e := fun h => hpa (h ▸ hp)
      have he' : e ∈ l := (List.mem_cons.1 he).resolve_left (Ne.symm hae)
      simp only [Bool.not_eq_true] at hpa
      rw [List.find?_cons, hpa]
      exact find?_unique he' hp (fun x hx => hu x (List.mem_cons_of_mem _ hx))

theorem filter_moveL {f g : Ptr → Ptr} {L : Nat → List Nat} (h : Linked f g L) {i id b : Nat}
    (hi : i < NBUCKET) (j : Nat) :
    (moveL L i id b j).filter (fun x => x != b) = (L j).filter (fun x => x != b) := by
  have he : ((L i).erase b).filter (fun x => x != b) = (L i).filter (fun x => x != b) := by
    rw [(h.nodup i hi).erase_eq_filter, List.filter_filter]
    simp
  have hu : ∀ k, (upd L i ((L i).erase b) k).filter (fun x => x != b)
      = (L k).filter (fun x => x != b) := by
    intro k
    by_cases hki : k = i
    · subst hki; rw [upd_same, he]
    · rw [upd_other _ _ _ _ hki]
  unfold moveL
  by_cases hj : j = id
  · subst hj
    rw [upd_same, List.filter_cons]
    simp [hu]
  · rw [upd_other _ _ _ _ hj, hu]

/-! ## Facts about the selection -/

theorem lruFree_some {s : Kernel} {l : List Nat} {b : Nat} (h : lruFree s l = some b) :
    b ∈ l ∧ (s.buf b).refcnt = 0 := by
  unfold lruFree at h
  refine ⟨List.mem_reverse.1 (List.mem_of_find?_eq_some h), ?_⟩
  have := List.find?_some h
  simpa [isFree] using this

theorem lruFree_none {s : Kernel} {l : List Nat} :
    lruFree s l = none ↔ ∀ b ∈ l, (s.buf b).refcnt ≠ 0 := by
  unfold lruFree
  simp [isFree]

theorem mem_stealOrder {id i : Nat} (hid : id < NBUCKET) :
    i ∈ stealOrder id ↔ i < NBUCKET ∧ i ≠ id := by
  unfold stealOrder
  simp only [List.mem_map, List.mem_range]
  unfold ihash NBUCKET at *
  constructor
  · rintro ⟨t, ht, rfl⟩
    omega
  · rintro ⟨h1, h2⟩
    refine ⟨(i + 13 - id - 1) % 13, ?_, ?_⟩ <;> omega

theorem pick_hit {s : Kernel} {L : Nat → List Nat} {dev blockno b : Nat}
    (h : pick s L dev blockno = Pick.hit b) :
    (L (ihash blockno)).find? (keyIs s dev blockno) = some b := by
  unfold pick at h
  split at h
  · next c hc => cases h; exact hc
  · split at h
    · cases h
    · split at h <;> cases h

theorem pick_evict {s : Kernel} {L : Nat → List Nat} {dev blockno b : Nat}
    (h : pick s L dev blockno = Pick.evict b) :
    (L (ihash blockno)).find? (keyIs s dev blockno) = none ∧
      lruFree s (L (ihash blockno)) = some b := by
  unfold pick at h
  split at h
  · cases h
  · next hk =>
    split at h
    · next c hc => cases h; exact ⟨hk, hc⟩
    · split at h <;> cases h

theorem pick_steal {s : Kernel} {L : Nat → List Nat} {dev blockno i b : Nat}
    (h : pick s L dev blockno = Pick.steal i b) :
    (L (ihash blockno)).find? (keyIs s dev blockno) = none ∧
      lruFree s (L (ihash blockno)) = none ∧
      (stealOrder (ihash blockno)).findSome? (stealCand s L) = some (i, b) := by
  unfold pick at h
  split at h
  · cases h
  · next hk =>
    split at h
    · cases h
    · next hf =>
      split at h
      · next i' b' hc => cases h; exact ⟨hk, hf, hc⟩
      · cases h

theorem pick_noBuffers {s : Kernel} {L : Nat → List Nat} {dev blockno : Nat}
    (h : pick s L dev blockno = Pick.noBuffers) :
    (L (ihash blockno)).find? (keyIs s dev blockno) = none ∧
      lruFree s (L (ihash blockno)) = none ∧
      (stealOrder (ihash blockno)).findSome? (stealCand s L) = none := by
  unfold pick at h
  split at h
  · cases h
  · next hk =>
    split at h
    · cases h
    · next hf =>
      split at h
      · cases h
      · next hc => exact ⟨hk, hf, hc⟩

theorem stealCand_some {s : Kernel} {L : Nat → List Nat} {j i b : Nat}
    (h : stealCand s L j = some (i, b)) : j = i ∧ lruFree s (L i) = some b := by
  unfold stealCand at h
  cases hl : lruFree s (L j) with
  | none => simp [hl] at h
  | some c =>
    simp only [hl, Option.map_some', Option.some.injEq, Prod.mk.injEq] at h
    obtain ⟨rfl, rfl⟩ := h
    exact ⟨rfl, hl⟩

/-- The donor of a steal: another bucket, and the buffer is its least recently used free one. -/
theorem pick_steal_donor {s : Kernel} {L : Nat → List Nat} {dev blockno i b : Nat}
    (h : pick s L dev blockno = Pick.steal i b) :
    i < NBUCKET ∧ i ≠ ihash blockno ∧ lruFree s (L i) = some b := by
  obtain ⟨_, _, hc⟩ := pick_steal h
  obtain ⟨l1, a, l2, hl, ha, _⟩ := List.findSome?_eq_some_iff.1 hc
  obtain ⟨rfl, hlru⟩ := stealCand_some ha
  have hm : a ∈ stealOrder (ihash blockno) := by rw [hl]; simp
  obtain ⟨h1, h2⟩ := (mem_stealOrder (ihash_lt blockno)).1 hm
  exact ⟨h1, h2, hlru⟩

/-- No buffers: every buffer of every bucket is referenced. -/
theorem pick_noBuffers_all {s : Kernel} {L : Nat → List Nat} {dev blockno : Nat}
    (h : pick s L dev blockno = Pick.noBuffers) :
    ∀ i, i < NBUCKET → ∀ b ∈ L i, (s.buf b).refcnt ≠ 0 := by
  obtain ⟨_, hf, hc⟩ := pick_noBuffers h
  intro i hi
  by_cases hid : i = ihash blockno
  · rw [hid]; exact lruFree_none.1 hf
  · have hm := (mem_stealOrder (ihash_lt blockno)).2 ⟨hi, hid⟩
    have := List.findSome?_eq_none_iff.1 hc i hm
    unfold stealCand at this
    simp only [Option.map_eq_none'] at this
    exact lruFree_none.1 this

/-! ## The list read off the pointers -/

theorem walk_chain (s : Kernel) (id : Nat) :
    ∀ (l : List Nat) (p : Ptr) (fuel : Nat),
      NextOk s.next (p :: (l.map Ptr.buf ++ [Ptr.head id])) → l.length < fuel →
      walk s id fuel (s.next p) = some l
  | [], p, fuel, h, hf => by
    obtain ⟨f, rfl⟩ : ∃ f, fuel = f + 1 := ⟨fuel - 1, by simp at hf; omega⟩
    have hp : s.next p = Ptr.head id := by
      unfold NextOk at h; simp at h; exact h
    simp [walk, hp]
  | b :: l, p, fuel, h, hf => by
    obtain ⟨f, rfl⟩ : ∃ f, fuel = f + 1 := ⟨fuel - 1, by simp at hf; omega⟩
    unfold NextOk at h
    simp only [List.map_cons, List.cons_append] at h
    rw [List.chain'_cons] at h
    have ih := walk_chain s id l (Ptr.buf b) f h.2 (by simp at hf; omega)
    rw [h.1]
    simp [walk, ih]

theorem Abs.bucketList {NBUF : Nat} {s : Kernel} {L : Nat → List Nat} (h : Abs NBUF s L)
    {i : Nat} (hi : i < NBUCKET) : bucketList NBUF s i = L i := by
  unfold Bcache.bucketList
  rw [walk_chain s i (L i) (Ptr.head i) (walkFuel NBUF) (h.linked.cyc i hi).1 (h.length_lt hi)]
  rfl

/-! ## `binit` -/

theorem initL_succ (n j : Nat) :
    initL (n + 1) j = if n % NBUCKET = j then n :: initL n j else initL n j := by
  unfold initL
  rw [List.range_succ, List.filter_append]
  by_cases h : n % NBUCKET = j
  · simp [h]
  · simp [h]

theorem initL_succ_upd (n : Nat) :
    initL (n + 1) = upd (initL n) (n % NBUCKET) (n :: initL n (n % NBUCKET)) := by
  funext j
  rw [initL_succ]
  by_cases h : n % NBUCKET = j
  · subst h; simp
  · rw [if_neg h, upd_other _ _ _ _ (Ne.symm h)]

theorem mem_initL {n j b : Nat} : b ∈ initL n j ↔ b < n ∧ b % NBUCKET = j := by
  simp [initL]

theorem binitBuf_next (s : Kernel) (b i : Nat) :
    (binitBuf s b i).next
      = upd (upd s.next (Ptr.buf b) (s.next (Ptr.head i))) (Ptr.head i) (Ptr.buf b) := rfl

theorem binitBuf_prev (s : Kernel) (b i : Nat) :
    (binitBuf s b i).prev
      = upd (upd s.prev (Ptr.buf b) (Ptr.head i)) (s.next (Ptr.head i)) (Ptr.buf b) := by
  funext x
  simp [binitBuf, setPrev, setNext, setBuf, upd]

theorem binitLoop_linked :
    ∀ (n b : Nat) (s : Kernel), Linked s.next s.prev (initL b) →
      Linked (binitLoop n b (b % NBUCKET) s).next (binitLoop n b (b % NBUCKET) s).prev
        (initL (b + n))
  | 0, _, _, h => h
  | n + 1, b, s, h => by
    have hi : b % NBUCKET < NBUCKET := Nat.mod_lt _ (by decide)
    have hnot : ∀ j, j < NBUCKET → b ∉ initL b j := fun j _ hm => by
      have := (mem_initL.1 hm).1
      omega
    have h1 := (h.insert hi hnot).1
    rw [← binitBuf_next, ← binitBuf_prev, ← initL_succ_upd] at h1
    have hnext : ihash (b % NBUCKET + 1) = (b + 1) % NBUCKET := by
      unfold ihash NBUCKET; omega
    have ih := binitLoop_linked n (b + 1) (binitBuf s b (b % NBUCKET)) h1
    rw [binitLoop, hnext]
    have e : b + (n + 1) = b + 1 + n := by omega
    rw [e]
    exact ih

theorem binitLoop_buf :
    ∀ (n b i : Nat) (s : Kernel), s.buf = (fun _ => Buf.zero) →
      (binitLoop n b i s).buf = (fun _ => Buf.zero)
  | 0, _, _, _, h => h
  | n + 1, b, i, s, h => by
    rw [binitLoop]
    refine binitLoop_buf n _ _ _ ?_
    funext x
    simp only [binitBuf, setBuf, setNext, setPrev, h]
    split <;> rfl

theorem binitLoop_disk :
    ∀ (n b i : Nat) (s : Kernel), (binitLoop n b i s).disk = s.disk
  | 0, _, _, _ => rfl
  | n + 1, b, i, s => by
    rw [binitLoop, binitLoop_disk n]
    rfl

theorem binitHeads_linked (s : Kernel) :
    Linked ((List.range NBUCKET).foldl binitHead s).next
      ((List.range NBUCKET).foldl binitHead s).prev (initL 0) := by
  have hgen : ∀ n, ∀ i, i < n →
      ((List.range n).foldl binitHead s).next (Ptr.head i) = Ptr.head i ∧
      ((List.range n).foldl binitHead s).prev (Ptr.head i) = Ptr.head i := by
    intro n
    induction n with
    | zero => intro i hi; omega
    | succ n ih =>
      intro i hi
      rw [List.range_succ, List.foldl_append]
      simp only [List.foldl_cons, List.foldl_nil, binitHead, setNext, setPrev]
      by_cases hin : i = n
      · subst hin; simp
      · have : Ptr.head i ≠ Ptr.head n := fun e => hin (Ptr.head.inj e)
        simp only [this, ↓reduceIte]
        exact ih i (by omega)
  refine ⟨?_, ?_, ?_⟩
  · intro i hi
    have := hgen NBUCKET i hi
    simp [Cyc, NextOk, PrevOk, nodes, initL, this.1, this.2]
  · intro i _; simp [initL]
  · intro i j b _ _ hb; simp [initL] at hb

theorem binit_buf (NBUF : Nat) (disk : Nat → Nat → Data) :
    (binit NBUF (zeroed disk)).buf = (fun _ => Buf.zero) := by
  unfold binit
  refine binitLoop_buf _ _ _ _ ?_
  have : ∀ (l : List Nat) (s : Kernel), (l.foldl binitHead s).buf = s.buf := by
    intro l
    induction l with
    | nil => intro s; rfl
    | cons a l ih => intro s; rw [List.foldl_cons, ih]; rfl
  rw [this]
  rfl

theorem binit_abs (NBUF : Nat) (disk : Nat → Nat → Data) :
    Abs NBUF (binit NBUF (zeroed disk)) (initL NBUF) := by
  have h := binitLoop_linked NBUF 0 _ (binitHeads_linked (zeroed disk))
  simp only [Nat.zero_add, Nat.zero_mod] at h
  refine ⟨h, ?_⟩
  intro b
  constructor
  · intro hb
    exact ⟨b % NBUCKET, Nat.mod_lt _ (by decide), mem_initL.2 ⟨hb, rfl⟩⟩
  · rintro ⟨i, _, hm⟩
    exact (mem_initL.1 hm).1

theorem binit_inv (NBUF : Nat) (disk : Nat → Nat → Data) :
    Inv NBUF (binit NBUF (zeroed disk)) [] (initL NBUF) := by
  refine ⟨binit_abs NBUF disk, ?_, ?_, ?_, ?_⟩
  · intro c _ hv
    rw [binit_buf] at hv
    exact absurd rfl hv
  · intro b hb; cases hb
  · intro c _; rw [binit_buf]; rfl
  · intro c; rw [binit_buf]; exact Nat.zero_le 1

/-! ## `bget` and `bread` in terms of the selection -/

theorem acquiresleep_eq (s : Kernel) (b : Nat) :
    acquiresleep s b = if (s.buf b).locked then Outcome.sleep s b else Outcome.ret (held s b) b :=
  rfl

theorem Sim.held {s1 s2 : Kernel} (h : Sim s1 s2) (b : Nat) : Sim (held s1 b) (held s2 b) := by
  have h1 := h.setBuf b { s1.buf b with locked := true }
  unfold Bcache.held
  rw [← h.1]
  refine ⟨h1.1, h1.2.1, h1.2.2.1, h1.2.2.2.1, ?_⟩
  rw [ioLog_emit, ioLog_emit]
  exact congrArg (· ++ _) h1.2.2.2.2

theorem Sim.filled {s1 s2 : Kernel} (h : Sim s1 s2) (b : Nat) :
    Sim (filled s1 b) (filled s2 b) := by
  unfold Bcache.filled
  rw [h.1]
  split
  · unfold virtio_disk_rw
    simp only [Bool.false_eq_true, ↓reduceIte]
    obtain ⟨hb, hn, hp, hd, hl⟩ := h
    refine ⟨?_, hn, hp, hd, ?_⟩
    · simp [Bcache.setBuf, emit, hb, hd]
    · have e1 : ∀ (s : Kernel) (v w : Buf) (e : Event),
          ioLog (Bcache.setBuf (emit (Bcache.setBuf s b v) e) b w) = ioLog (emit s e) :=
        fun _ _ _ _ => rfl
      rw [e1, e1, ioLog_emit, ioLog_emit, hl]
  · exact h

theorem bget_selected {NBUF : Nat} {s : Kernel} {L : Nat → List Nat} (h : Abs NBUF s L)
    (dev blockno : Nat) :
    ∃ s1, Sim s1 (selected s dev blockno (pick s L dev blockno)) ∧
      bget NBUF s dev blockno =
        match (pick s L dev blockno).buf? with
        | none => Outcome.panic s1 "bget: no buffers"
        | some b => acquiresleep s1 b := by
  have hp := bget_spec h dev blockno
  cases hk : pick s L dev blockno with
  | hit b =>
    rw [hk] at hp
    obtain ⟨s1, h1, h2⟩ := hp
    exact ⟨s1, h2, h1⟩
  | evict b =>
    rw [hk] at hp
    obtain ⟨s1, h1, h2⟩ := hp
    exact ⟨s1, h2, h1⟩
  | steal i b =>
    rw [hk] at hp
    obtain ⟨s1, h1, h2⟩ := hp
    exact ⟨s1, h2, h1⟩
  | noBuffers =>
    rw [hk] at hp
    obtain ⟨s1, h1, h2⟩ := hp
    exact ⟨s1, h2, h1⟩

theorem selected_locked (s : Kernel) (dev blockno : Nat) (p : Pick) (b : Nat) :
    ((selected s dev blockno p).buf b).locked = (s.buf b).locked := by
  cases p <;>
    simp only [selected, stolen, incRef, reassign, insertSteal, unlinkSteal, setBuf, setNext,
      setPrev] <;>
    split <;> simp_all

/-- The three ways `bget` ends on well-formed lists. -/
theorem bget_outcome {NBUF : Nat} {s : Kernel} {L : Nat → List Nat} (h : Abs NBUF s L)
    (dev blockno : Nat) :
    ∃ s1, Sim s1 (selected s dev blockno (pick s L dev blockno)) ∧
      bget NBUF s dev blockno =
        match (pick s L dev blockno).buf? with
        | none => Outcome.panic s1 "bget: no buffers"
        | some b => if (s.buf b).locked then Outcome.sleep s1 b else Outcome.ret (held s1 b) b := by
  obtain ⟨s1, hs, he⟩ := bget_selected h dev blockno
  refine ⟨s1, hs, ?_⟩
  rw [he]
  cases (pick s L dev blockno).buf? with
  | none => rfl
  | some b =>
    simp only [acquiresleep_eq]
    rw [hs.1, selected_locked]

theorem bread_eq (NBUF : Nat) (s : Kernel) (dev blockno : Nat) :
    bread NBUF s dev blockno =
      match bget NBUF s dev blockno with
      | Outcome.ret s1 b => Outcome.ret (filled s1 b) b
      | o => o := by
  unfold bread filled
  cases bget NBUF s dev blockno with
  | ret s1 b => simp only; split <;> rfl
  | panic s1 m => rfl
  | sleep s1 b => rfl
  | fault => rfl

/-- The three ways `bread` ends on well-formed lists. -/
theorem bread_outcome {NBUF : Nat} {s : Kernel} {L : Nat → List Nat} (h : Abs NBUF s L)
    (dev blockno : Nat) :
    match (pick s L dev blockno).buf? with
    | none => ∃ s1, Sim s1 s ∧ bread NBUF s dev blockno = Outcome.panic s1 "bget: no buffers"
    | some b =>
      if (s.buf b).locked then
        ∃ s1, Sim s1 (selected s dev blockno (pick s L dev blockno)) ∧
          bread NBUF s dev blockno = Outcome.sleep s1 b
      else
        ∃ s1, Sim s1 (filled (held (selected s dev blockno (pick s L dev blockno)) b) b) ∧
          bread NBUF s dev blockno = Outcome.ret s1 b := by
  obtain ⟨s1, hs, he⟩ := bget_outcome h dev blockno
  rw [bread_eq, he]
  cases hb : (pick s L dev blockno).buf? with
  | none =>
    have : pick s L dev blockno = Pick.noBuffers := by
      cases hp : pick s L dev blockno <;> simp [hp, Pick.buf?] at hb
      rfl
    rw [this] at hs
    exact ⟨s1, hs, rfl⟩
  | some b =>
    simp only
    split
    · exact ⟨s1, hs, rfl⟩
    · exact ⟨_, (hs.held b).filled b, rfl⟩

/-! ## The memory after `bread`, field by field -/

theorem filled_next (s : Kernel) (b : Nat) : (filled s b).next = s.next := by
  unfold filled; split <;> rfl

theorem filled_prev (s : Kernel) (b : Nat) : (filled s b).prev = s.prev := by
  unfold filled; split <;> rfl

theorem filled_disk (s : Kernel) (b : Nat) : (filled s b).disk = s.disk := by
  unfold filled; split <;> rfl

theorem filled_buf_other (s : Kernel) (b c : Nat) (h : c ≠ b) :
    (filled s b).buf c = s.buf c := by
  unfold filled virtio_disk_rw
  split
  · simp [setBuf, emit, h]
  · rfl

theorem filled_buf_self (s : Kernel) (b : Nat) :
    (filled s b).buf b =
      if (s.buf b).valid = 0 then
        { s.buf b with data := s.disk (s.buf b).dev (s.buf b).blockno, valid := 1 }
      else s.buf b := by
  unfold filled virtio_disk_rw
  split
  · simp [setBuf, emit]
  · rfl

theorem held_buf_other (s : Kernel) (b c : Nat) (h : c ≠ b) : (held s b).buf c = s.buf c := by
  simp [held, setBuf, emit, h]

theorem held_buf_self (s : Kernel) (b : Nat) :
    (held s b).buf b = { s.buf b with locked := true } := by
  simp [held, setBuf, emit]

theorem selected_disk (s : Kernel) (dev blockno : Nat) (p : Pick) :
    (selected s dev blockno p).disk = s.disk := by
  cases p <;> rfl

theorem selected_buf_other (s : Kernel) (dev blockno : Nat) {p : Pick} {b : Nat}
    (hp : p.buf? = some b) (c : Nat) (h : c ≠ b) :
    (selected s dev blockno p).buf c = s.buf c := by
  cases p <;> simp only [Pick.buf?, Option.some.injEq] at hp <;>
    first
    | (subst hp
       simp [selected, stolen, incRef, reassign, insertSteal, unlinkSteal, setBuf, setNext,
         setPrev, h])
    | cases hp

theorem selected_buf_hit (s : Kernel) (dev blockno b : Nat) :
    (selected s dev blockno (Pick.hit b)).buf b
      = { s.buf b with refcnt := inc32 (s.buf b).refcnt } := by
  simp [selected, incRef, setBuf]

theorem selected_buf_evict (s : Kernel) (dev blockno b : Nat) :
    (selected s dev blockno (Pick.evict b)).buf b
      = { s.buf b with dev := dev, blockno := blockno, valid := 0, refcnt := 1 } := by
  simp [selected, reassign, setBuf]

theorem selected_buf_steal (s : Kernel) (dev blockno i b : Nat) :
    (selected s dev blockno (Pick.steal i b)).buf b
      = { s.buf b with dev := dev, blockno := blockno, valid := 0, refcnt := 1 } := by
  simp [selected, stolen, reassign, insertSteal, unlinkSteal, setBuf, setNext, setPrev]

/-- The lists after the selection describe the pointers after the selection. -/
theorem Abs.selected {NBUF : Nat} {s : Kernel} {L : Nat → List Nat} (h : Abs NBUF s L)
    (dev blockno : Nat) :
    Abs NBUF (selected s dev blockno (pick s L dev blockno))
      (listsAfter L (ihash blockno) (pick s L dev blockno)) := by
  cases hp : pick s L dev blockno with
  | hit b => exact h.congr rfl rfl
  | evict b => exact h.congr rfl rfl
  | noBuffers => exact h
  | steal i b =>
    obtain ⟨hi, _, hl⟩ := pick_steal_donor hp
    exact h.stolen dev blockno hi (lruFree_some hl).1

/-- The selected buffer is in one of the lists. -/
theorem pick_buf_mem {s : Kernel} {L : Nat → List Nat}
    {dev blockno b : Nat} (hp : (pick s L dev blockno).buf? = some b) :
    ∃ i, i < NBUCKET ∧ b ∈ L i := by
  cases hk : pick s L dev blockno with
  | hit c =>
    rw [hk] at hp; cases hp
    exact ⟨_, ihash_lt blockno, List.mem_of_find?_eq_some (pick_hit hk)⟩
  | evict c =>
    rw [hk] at hp; cases hp
    exact ⟨_, ihash_lt blockno, (lruFree_some (pick_evict hk).2).1⟩
  | steal i c =>
    rw [hk] at hp; cases hp
    obtain ⟨hi, _, hl⟩ := pick_steal_donor hk
    exact ⟨i, hi, (lruFree_some hl).1⟩
  | noBuffers => rw [hk] at hp; cases hp

theorem filter_listsAfter {NBUF : Nat} {s : Kernel} {L : Nat → List Nat} (h : Abs NBUF s L)
    {dev blockno b : Nat} (hp : (pick s L dev blockno).buf? = some b) (j : Nat) :
    (listsAfter L (ihash blockno) (pick s L dev blockno) j).filter (fun x => x != b)
      = (L j).filter (fun x => x != b) := by
  cases hk : pick s L dev blockno with
  | hit c => rfl
  | evict c => rfl
  | noBuffers => rfl
  | steal i c =>
    rw [hk] at hp; cases hp
    exact filter_moveL h.linked (pick_steal_donor hk).1 j

/-! ## The invariant is kept by every call -/

theorem Inv.sim {NBUF : Nat} {s1 s2 : Kernel} {R : List Nat} {L : Nat → List Nat}
    (hs : Sim s1 s2) (h : Inv NBUF s2 R L) : Inv NBUF s1 R L := by
  refine ⟨hs.abs h.abs, ?_, ?_, ?_, ?_⟩
  · intro c hc hv
    rw [hs.1] at hv ⊢
    rw [hs.keyIs]
    exact h.key c hc hv
  · intro b hb; rw [hs.1]; exact h.ret b hb
  · intro c; rw [hs.1]; exact h.fresh c
  · intro c; rw [hs.1]; exact h.bool c

/-- Two buffers with valid content and the same key are the same buffer. -/
theorem Inv.unique {NBUF : Nat} {s : Kernel} {R : List Nat} {L : Nat → List Nat}
    (h : Inv NBUF s R L) {b c : Nat} (hb : b < NBUF) (hc : c < NBUF)
    (hvb : (s.buf b).valid ≠ 0) (hvc : (s.buf c).valid ≠ 0)
    (hdev : (s.buf b).dev = (s.buf c).dev) (hblk : (s.buf b).blockno = (s.buf c).blockno) :
    b = c := by
  have h1 := h.key b hb hvb
  have h2 := h.key c hc hvc
  rw [hdev, hblk, h2] at h1
  exact (Option.some.inj h1).symm

/-- A buffer with valid content is in the list of its home bucket. -/
theorem Inv.home {NBUF : Nat} {s : Kernel} {R : List Nat} {L : Nat → List Nat}
    (h : Inv NBUF s R L) {c : Nat} (hc : c < NBUF) (hv : (s.buf c).valid ≠ 0) :
    c ∈ L (ihash (s.buf c).blockno) :=
  List.mem_of_find?_eq_some (h.key c hc hv)

/-- Buffer `b` gets the key `(dev, blockno)` and valid content, possibly moving to the
front of another list; no other buffer with valid content has that key. -/
theorem Inv.rekey {NBUF : Nat} {s s1 : Kernel} {R : List Nat} {L L1 : Nat → List Nat}
    (h : Inv NBUF s R L) (b dev blockno : Nat) (hb : b < NBUF)
    (habs : Abs NBUF s1 L1)
    (hfilt : ∀ j, (L1 j).filter (fun x => x != b) = (L j).filter (fun x => x != b))
    (hother : ∀ c, c ≠ b → s1.buf c = s.buf c)
    (hdev : (s1.buf b).dev = dev) (hblk : (s1.buf b).blockno = blockno)
    (hv0 : (s1.buf b).valid ≠ 0) (hv1 : (s1.buf b).valid ≤ 1)
    (hfound : (L1 (ihash blockno)).find? (keyIs s1 dev blockno) = some b)
    (hmiss : ∀ c, c ≠ b → c < NBUF → (s.buf c).valid ≠ 0 →
      ¬ ((s.buf c).dev = dev ∧ (s.buf c).blockno = blockno)) :
    Inv NBUF s1 (b :: R) L1 := by
  refine ⟨habs, ?_, ?_, ?_, ?_⟩
  · intro c hc hv
    by_cases hcb : c = b
    · subst hcb
      rw [hdev, hblk]
      exact hfound
    · rw [hother c hcb] at hv ⊢
      have hk := h.key c hc hv
      have hne := hmiss c hcb hc hv
      have hqb : keyIs s1 (s.buf c).dev (s.buf c).blockno b = false := by
        simp only [keyIs, hdev, hblk, decide_eq_false_iff_not]
        rintro ⟨e1, e2⟩
        exact hne ⟨e1.symm, e2.symm⟩
      have hqx : ∀ x, x ≠ b → keyIs s1 (s.buf c).dev (s.buf c).blockno x
          = keyIs s (s.buf c).dev (s.buf c).blockno x := by
        intro x hx
        simp only [keyIs, hother x hx]
      rw [← find?_skip hqb, hfilt, find?_skip hqb]
      refine find?_mono hk ?_ ?_
      · rw [hqx c hcb]; exact List.find?_some hk
      · intro x _ hx
        by_cases hxb : x = b
        · rw [hxb, hqb] at hx; cases hx
        · rwa [hqx x hxb] at hx
  · intro r hr
    by_cases hrb : r = b
    · subst hrb; exact ⟨hb, hv0⟩
    · rw [hother r hrb]
      exact h.ret r ((List.mem_cons.1 hr).resolve_left hrb)
  · intro c hv
    by_cases hcb : c = b
    · subst hcb; exact absurd hv hv0
    · rw [hother c hcb] at hv ⊢; exact h.fresh c hv
  · intro c
    by_cases hcb : c = b
    · subst hcb; exact hv1
    · rw [hother c hcb]; exact h.bool c

theorem keyIs_congr {s s1 : Kernel} (h : ∀ c, (s1.buf c).dev = (s.buf c).dev ∧
    (s1.buf c).blockno = (s.buf c).blockno) (dev blockno : Nat) :
    keyIs s1 dev blockno = keyIs s dev blockno := by
  funext c
  simp only [keyIs, (h c).1, (h c).2]

/-- A call that changes neither a pointer nor a key nor a `valid` flag. -/
theorem Inv.same {NBUF : Nat} {s s1 : Kernel} {R : List Nat} {L : Nat → List Nat}
    (h : Inv NBUF s R L) (hn : s1.next = s.next) (hp : s1.prev = s.prev)
    (hk : ∀ c, (s1.buf c).dev = (s.buf c).dev ∧ (s1.buf c).blockno = (s.buf c).blockno)
    (hv : ∀ c, (s1.buf c).valid = (s.buf c).valid)
    (hr : ∀ c, (s.buf c).valid = 0 → (s1.buf c).refcnt = 0) : Inv NBUF s1 R L := by
  refine ⟨h.abs.congr hn hp, ?_, ?_, ?_, ?_⟩
  · intro c hc hvc
    rw [hv] at hvc
    rw [(hk c).1, (hk c).2, keyIs_congr hk]
    exact h.key c hc hvc
  · intro b hb; rw [hv]; exact h.ret b hb
  · intro c hvc; rw [hv] at hvc; exact hr c hvc
  · intro c; rw [hv]; exact h.bool c

/-- The invariant after buffer `b`, with valid content, moved to the front of its list. -/
theorem Inv.front {NBUF : Nat} {s s1 : Kernel} {R : List Nat} {L : Nat → List Nat}
    (h : Inv NBUF s R L) {b : Nat} (hb : b < NBUF) (hvb : (s.buf b).valid ≠ 0)
    (habs : Abs NBUF s1 (moveL L (ihash (s.buf b).blockno) (ihash (s.buf b).blockno) b))
    (hk : ∀ c, (s1.buf c).dev = (s.buf c).dev ∧ (s1.buf c).blockno = (s.buf c).blockno)
    (hv : ∀ c, (s1.buf c).valid = (s.buf c).valid)
    (hr : ∀ c, (s.buf c).valid = 0 → (s1.buf c).refcnt = 0) :
    Inv NBUF s1 R (moveL L (ihash (s.buf b).blockno) (ihash (s.buf b).blockno) b) := by
  have hi := ihash_lt (s.buf b).blockno
  refine ⟨habs, ?_, ?_, ?_, ?_⟩
  · intro c hc hvc
    rw [hv] at hvc
    rw [(hk c).1, (hk c).2, keyIs_congr hk]
    have hkc := h.key c hc hvc
    by_cases hcb : c = b
    · subst hcb
      unfold moveL
      rw [upd_same]
      exact List.find?_cons_of_pos _ (List.find?_some hkc)
    · have hqb : keyIs s (s.buf c).dev (s.buf c).blockno b = false := by
        simp only [keyIs, decide_eq_false_iff_not]
        rintro ⟨e1, e2⟩
        exact hcb (h.unique hb hc hvb hvc e1 e2).symm
      rw [← find?_skip hqb, filter_moveL h.abs.linked hi, find?_skip hqb]
      exact hkc
  · intro r hr'; rw [hv]; exact h.ret r hr'
  · intro c hvc; rw [hv] at hvc; exact hr c hvc
  · intro c; rw [hv]; exact h.bool c

theorem post_buf_hit (s : Kernel) (dev blockno b : Nat) :
    (filled (held (selected s dev blockno (Pick.hit b)) b) b).buf b =
      { s.buf b with
        refcnt := inc32 (s.buf b).refcnt, locked := true,
        valid := if (s.buf b).valid = 0 then 1 else (s.buf b).valid,
        data := if (s.buf b).valid = 0 then s.disk (s.buf b).dev (s.buf b).blockno
                else (s.buf b).data } := by
  rw [filled_buf_self, held_buf_self, selected_buf_hit]
  by_cases hv : (s.buf b).valid = 0
  · simp [hv, held, emit, setBuf, selected, incRef]
  · simp [hv]

theorem post_buf_evict (s : Kernel) (dev blockno b : Nat) :
    (filled (held (selected s dev blockno (Pick.evict b)) b) b).buf b =
      { valid := 1, dev := dev, blockno := blockno, locked := true, refcnt := 1,
        data := s.disk dev blockno } := by
  rw [filled_buf_self, held_buf_self, selected_buf_evict]
  simp [held, emit, setBuf, selected, reassign]

theorem post_buf_steal (s : Kernel) (dev blockno i b : Nat) :
    (filled (held (selected s dev blockno (Pick.steal i b)) b) b).buf b =
      { valid := 1, dev := dev, blockno := blockno, locked := true, refcnt := 1,
        data := s.disk dev blockno } := by
  rw [filled_buf_self, held_buf_self, selected_buf_steal]
  have hd : (held (selected s dev blockno (Pick.steal i b)) b).disk = s.disk := rfl
  simp [hd]

theorem Inv.bread {NBUF : Nat} {s s1 : Kernel} {R : List Nat} {L : Nat → List Nat}
    (h : Inv NBUF s R L) {dev blockno b : Nat}
    (hr : bread NBUF s dev blockno = Outcome.ret s1 b) :
    Inv NBUF s1 (b :: R) (listsAfter L (ihash blockno) (pick s L dev blockno)) := by
  have ho := bread_outcome h.abs dev blockno
  cases hp : (pick s L dev blockno).buf? with
  | none =>
    rw [hp] at ho
    obtain ⟨s2, _, he⟩ := ho
    rw [he] at hr; cases hr
  | some b0 =>
    rw [hp] at ho
    simp only at ho
    split at ho
    · obtain ⟨s2, _, he⟩ := ho
      rw [he] at hr; cases hr
    · obtain ⟨s2, hs, he⟩ := ho
      rw [he] at hr
      cases hr
      refine Inv.sim hs ?_
      obtain ⟨i, hi, hbi⟩ := pick_buf_mem hp
      have hb : b < NBUF := h.abs.mem_lt hi hbi
      have habs := h.abs.selected dev blockno
      have hother : ∀ c, c ≠ b →
          (filled (held (selected s dev blockno (pick s L dev blockno)) b) b).buf c = s.buf c := by
        intro c hc
        rw [filled_buf_other _ _ _ hc, held_buf_other _ _ _ hc, selected_buf_other _ _ _ hp _ hc]
      cases hk : pick s L dev blockno with
      | noBuffers => rw [hk] at hp; cases hp
      | hit c =>
        rw [hk] at hp hother habs
        simp only [Pick.buf?, Option.some.injEq] at hp
        subst hp
        have hself := post_buf_hit s dev blockno c
        have hfind := pick_hit hk
        have hkey := List.find?_some hfind
        simp only [keyIs, decide_eq_true_eq] at hkey
        have hkeys : ∀ x, ((filled (held (selected s dev blockno (Pick.hit c)) c) c).buf x).dev
              = (s.buf x).dev ∧
            ((filled (held (selected s dev blockno (Pick.hit c)) c) c).buf x).blockno
              = (s.buf x).blockno := by
          intro x
          by_cases hxc : x = c
          · subst hxc; rw [hself]; exact ⟨rfl, rfl⟩
          · rw [hother x hxc]; exact ⟨rfl, rfl⟩
        refine h.rekey c dev blockno hb (habs.congr (by rw [filled_next]; rfl) (by rw [filled_prev]; rfl))
          (fun j => rfl) hother ?_ ?_ ?_ ?_ ?_ ?_
        · rw [(hkeys c).1]; exact hkey.1
        · rw [(hkeys c).2]; exact hkey.2
        · rw [hself]
          show (if (s.buf c).valid = 0 then 1 else (s.buf c).valid) ≠ 0
          split
          · simp
          · assumption
        · rw [hself]
          show (if (s.buf c).valid = 0 then 1 else (s.buf c).valid) ≤ 1
          split
          · simp
          · exact h.bool c
        · rw [keyIs_congr hkeys]; exact hfind
        · intro x hxc hx hvx hkx
          have := h.key x hx hvx
          rw [hkx.1, hkx.2, hfind] at this
          exact hxc (Option.some.inj this).symm
      | evict c =>
        rw [hk] at hp hother habs
        simp only [Pick.buf?, Option.some.injEq] at hp
        subst hp
        have hself := post_buf_evict s dev blockno c
        obtain ⟨hnone, hlru⟩ := pick_evict hk
        refine h.rekey c dev blockno hb (habs.congr (by rw [filled_next]; rfl) (by rw [filled_prev]; rfl))
          (fun j => rfl) hother ?_ ?_ ?_ ?_ ?_ ?_
        · rw [hself]
        · rw [hself]
        · rw [hself]; simp
        · rw [hself]
        · refine find?_unique (lruFree_some hlru).1 ?_ ?_
          · simp [keyIs, hself]
          · intro x hx hkx
            by_contra hxb
            have hx' := List.find?_eq_none.1 hnone x hx
            simp only [keyIs, hother x hxb] at hkx hx'
            exact hx' hkx
        · intro x hxc hx hvx hkx
          have := h.key x hx hvx
          rw [hkx.1, hkx.2, hnone] at this
          cases this
      | steal i0 c =>
        rw [hk] at hp hother habs
        simp only [Pick.buf?, Option.some.injEq] at hp
        subst hp
        have hself := post_buf_steal s dev blockno i0 c
        obtain ⟨hnone, _, _⟩ := pick_steal hk
        obtain ⟨hi0, _, _⟩ := pick_steal_donor hk
        refine h.rekey c dev blockno hb (habs.congr (by rw [filled_next]; rfl) (by rw [filled_prev]; rfl))
          (fun j => filter_moveL h.abs.linked hi0 j) hother ?_ ?_ ?_ ?_ ?_ ?_
        · rw [hself]
        · rw [hself]
        · rw [hself]; simp
        · rw [hself]
        · simp only [listsAfter, moveL, upd_same]
          refine List.find?_cons_of_pos _ ?_
          simp [keyIs, hself]
        · intro x hxc hx hvx hkx
          have := h.key x hx hvx
          rw [hkx.1, hkx.2, hnone] at this
          cases this

theorem bwrite_ret {s s1 : Kernel} {b : Nat} (h : bwrite s b = Outcome.ret s1 ()) :
    (s.buf b).locked = true ∧ s1 = virtio_disk_rw s b true := by
  unfold bwrite holdingsleep at h
  split at h
  · cases h
  · next hl =>
    cases h
    exact ⟨by simpa using hl, rfl⟩

theorem Inv.bwrite {NBUF : Nat} {s s1 : Kernel} {R : List Nat} {L : Nat → List Nat}
    (h : Inv NBUF s R L) {b : Nat} (hr : bwrite s b = Outcome.ret s1 ()) : Inv NBUF s1 R L := by
  obtain ⟨_, rfl⟩ := bwrite_ret hr
  exact h.same rfl rfl (fun _ => ⟨rfl, rfl⟩) (fun _ => rfl) (fun c hc => h.fresh c hc)

theorem relState_buf (s : Kernel) (b : Nat) :
    (relState s b).buf
      = upd s.buf b { s.buf b with locked := false, refcnt := dec32 (s.buf b).refcnt } := by
  funext x
  by_cases hx : x = b
  · subst hx; simp [relState, acquire, decRef, releasesleep, emit, setBuf, upd]
  · simp [relState, acquire, decRef, releasesleep, emit, setBuf, upd, hx]

theorem relState_ioLog (s : Kernel) (b : Nat) :
    ioLog (relState s b) = ioLog s ++ [Event.releasesleep b] := by
  change ioLog (emit (emit (setBuf s b _) (Event.releasesleep b)) _) = _
  rw [ioLog_emit, ioLog_emit]
  simp only [Event.isSpin, ↓reduceIte, List.append_nil, Bool.false_eq_true]
  rfl

theorem brelse_eq (s : Kernel) (b : Nat) :
    brelse s b =
      if (s.buf b).locked = false then Outcome.panic s "brelse"
      else Outcome.ret (release
        (if dec32 (s.buf b).refcnt = 0 then
          moveToFront (relState s b) b (ihash (s.buf b).blockno)
         else relState s b) (Lock.bucket (ihash (s.buf b).blockno))) () := by
  have hb : ((releasesleep s b).buf b).blockno = (s.buf b).blockno := by
    simp [releasesleep, emit, setBuf]
  have hr : ((relState s b).buf b).refcnt = dec32 (s.buf b).refcnt := by
    rw [relState_buf, upd_same]
  unfold brelse holdingsleep
  simp only [hb]
  change (if (s.buf b).locked = false then _ else
    Outcome.ret (release (if ((relState s b).buf b).refcnt = 0 then
      moveToFront (relState s b) b _ else relState s b) _) ()) = _
  rw [hr]

theorem brelse_ret {s s1 : Kernel} {b : Nat} (h : brelse s b = Outcome.ret s1 ()) :
    (s.buf b).locked = true ∧
    s1.buf = upd s.buf b { s.buf b with locked := false, refcnt := dec32 (s.buf b).refcnt } ∧
    s1.disk = s.disk ∧
    (dec32 (s.buf b).refcnt = 0 →
      s1.next = (moveToFront s b (ihash (s.buf b).blockno)).next ∧
      s1.prev = (moveToFront s b (ihash (s.buf b).blockno)).prev) ∧
    (dec32 (s.buf b).refcnt ≠ 0 → s1.next = s.next ∧ s1.prev = s.prev) ∧
    ioLog s1 = ioLog s ++ [Event.releasesleep b] := by
  rw [brelse_eq] at h
  split at h
  · cases h
  · next hl =>
    have h1 := (Outcome.ret.inj h).1
    subst h1
    by_cases hz : dec32 (s.buf b).refcnt = 0
    · simp only [if_pos hz]
      refine ⟨by simpa using hl, ?_, rfl, fun _ => ⟨?_, ?_⟩, fun h => absurd hz h, ?_⟩
      · rw [← relState_buf]; rfl
      · show (moveToFront (relState s b) b _).next = _
        rw [moveToFront_next, moveToFront_next]; rfl
      · show (moveToFront (relState s b) b _).prev = _
        rw [moveToFront_prev, moveToFront_prev]; rfl
      · rw [release, ioLog_emit]
        simp only [Event.isSpin, ↓reduceIte, List.append_nil]
        rw [← relState_ioLog]
        rfl
    · simp only [if_neg hz]
      refine ⟨by simpa using hl, ?_, rfl, fun h => absurd h hz, fun _ => ⟨rfl, rfl⟩, ?_⟩
      · rw [← relState_buf]; rfl
      · rw [release, ioLog_emit]
        simp only [Event.isSpin, ↓reduceIte, List.append_nil]
        rw [← relState_ioLog]

theorem Inv.brelse {NBUF : Nat} {s s1 : Kernel} {R : List Nat} {L : Nat → List Nat}
    (h : Inv NBUF s R L) {b : Nat} (hb : b ∈ R) (hr : brelse s b = Outcome.ret s1 ()) :
    Inv NBUF s1 R (if dec32 (s.buf b).refcnt = 0
      then moveL L (ihash (s.buf b).blockno) (ihash (s.buf b).blockno) b else L) := by
  obtain ⟨_, hbuf, _, hptr0, hptr1, _⟩ := brelse_ret hr
  obtain ⟨hbn, hbv⟩ := h.ret b hb
  have hk : ∀ c, (s1.buf c).dev = (s.buf c).dev ∧ (s1.buf c).blockno = (s.buf c).blockno := by
    intro c
    rw [hbuf]
    by_cases hc : c = b
    · subst hc; rw [upd_same]; exact ⟨rfl, rfl⟩
    · rw [upd_other _ _ _ _ hc]; exact ⟨rfl, rfl⟩
  have hv : ∀ c, (s1.buf c).valid = (s.buf c).valid := by
    intro c
    rw [hbuf]
    by_cases hc : c = b
    · subst hc; rw [upd_same]
    · rw [upd_other _ _ _ _ hc]
  have hrf : ∀ c, (s.buf c).valid = 0 → (s1.buf c).refcnt = 0 := by
    intro c hvc
    have hc : c ≠ b := fun e => hbv (e ▸ hvc)
    rw [hbuf, upd_other _ _ _ _ hc]
    exact h.fresh c hvc
  by_cases hz : dec32 (s.buf b).refcnt = 0
  · rw [if_pos hz]
    refine h.front hbn hbv ?_ hk hv hrf
    refine h.abs.move (ihash_lt _) (ihash_lt _) (h.home hbn hbv) ?_ ?_
    · rw [(hptr0 hz).1, moveToFront_next]
    · rw [(hptr0 hz).2, moveToFront_prev]
  · rw [if_neg hz]
    exact h.same (hptr1 hz).1 (hptr1 hz).2 hk hv hrf

theorem Inv.bpin {NBUF : Nat} {s : Kernel} {R : List Nat} {L : Nat → List Nat}
    (h : Inv NBUF s R L) {b : Nat} (hb : b ∈ R) : Inv NBUF (bpin s b) R L := by
  obtain ⟨_, hbv⟩ := h.ret b hb
  refine h.same rfl rfl ?_ ?_ ?_
  · intro c
    by_cases hc : c = b <;> simp [Bcache.bpin, release, acquire, incRef, emit, setBuf, hc]
  · intro c
    by_cases hc : c = b <;> simp [Bcache.bpin, release, acquire, incRef, emit, setBuf, hc]
  · intro c hvc
    have hc : c ≠ b := fun e => hbv (e ▸ hvc)
    simp only [Bcache.bpin, release, acquire, incRef, emit, setBuf, hc, ↓reduceIte]
    exact h.fresh c hvc

theorem Inv.bunpin {NBUF : Nat} {s : Kernel} {R : List Nat} {L : Nat → List Nat}
    (h : Inv NBUF s R L) {b : Nat} (hb : b ∈ R) : Inv NBUF (bunpin s b) R L := by
  obtain ⟨_, hbv⟩ := h.ret b hb
  refine h.same rfl rfl ?_ ?_ ?_
  · intro c
    by_cases hc : c = b <;> simp [Bcache.bunpin, release, acquire, decRef, emit, setBuf, hc]
  · intro c
    by_cases hc : c = b <;> simp [Bcache.bunpin, release, acquire, decRef, emit, setBuf, hc]
  · intro c hvc
    have hc : c ≠ b := fun e => hbv (e ▸ hvc)
    simp only [Bcache.bunpin, release, acquire, decRef, emit, setBuf, hc, ↓reduceIte]
    exact h.fresh c hvc

theorem Inv.store {NBUF : Nat} {s : Kernel} {R : List Nat} {L : Nat → List Nat}
    (h : Inv NBUF s R L) {b : Nat} (hb : b ∈ R) (d : Data) : Inv NBUF (setData s b d) R L := by
  obtain ⟨_, hbv⟩ := h.ret b hb
  refine h.same rfl rfl ?_ ?_ ?_
  · intro c
    by_cases hc : c = b <;> simp [setData, setBuf, hc]
  · intro c
    by_cases hc : c = b <;> simp [setData, setBuf, hc]
  · intro c hvc
    have hc : c ≠ b := fun e => hbv (e ▸ hvc)
    simp only [setData, setBuf, hc, ↓reduceIte]
    exact h.fresh c hvc

/-- Every reachable state satisfies the invariant for some bucket lists. -/
theorem Reach.inv {NBUF : Nat} {s : Kernel} {R : List Nat} (h : Reach NBUF s R) :
    ∃ L, Inv NBUF s R L := by
  induction h with
  | init disk => exact ⟨_, binit_inv NBUF disk⟩
  | bread dev blockno _ hr ih =>
    obtain ⟨L, hL⟩ := ih
    exact ⟨_, hL.bread hr⟩
  | bwrite _ _ hr ih =>
    obtain ⟨L, hL⟩ := ih
    exact ⟨_, hL.bwrite hr⟩
  | brelse _ hb hr ih =>
    obtain ⟨L, hL⟩ := ih
    exact ⟨_, hL.brelse hb hr⟩
  | bpin _ hb ih =>
    obtain ⟨L, hL⟩ := ih
    exact ⟨_, hL.bpin hb⟩
  | bunpin _ hb ih =>
    obtain ⟨L, hL⟩ := ih
    exact ⟨_, hL.bunpin hb⟩
  | store d _ hb _ ih =>
    obtain ⟨L, hL⟩ := ih
    exact ⟨_, hL.store hb d⟩

/-! ## Sample states -/

theorem w0_reach : Reach 30 w0 [] := Reach.init wDisk

theorem w1_bread : bread 30 w0 0 0 = Outcome.ret w1 26 := by rfl

theorem w1_reach : Reach 30 w1 [26] := Reach.bread 0 0 w0_reach w1_bread

theorem w2_bread : bread 30 w1 0 1 = Outcome.ret w2 1 := by rfl

theorem w2_reach : Reach 30 w2 [1, 26] := Reach.bread 0 1 w1_reach w2_bread

/-! ## Consequences of `Cyc` -/

theorem chain_inverse {f g : Ptr → Ptr} : ∀ {ns : List Ptr}, NextOk f ns → PrevOk g ns →
    (∀ p ∈ ns.dropLast, g (f p) = p) ∧ (∀ p ∈ ns.tail, f (g p) = p)
  | [], _, _ => ⟨by simp, by simp⟩
  | [_], _, _ => ⟨by simp, by simp⟩
  | a :: b :: rest, hn, hp => by
    unfold NextOk at hn
    unfold PrevOk at hp
    rw [List.chain'_cons] at hn hp
    obtain ⟨ih1, ih2⟩ := chain_inverse (show NextOk f (b :: rest) from hn.2) (show PrevOk g (b :: rest) from hp.2)
    constructor
    · intro p hm
      simp only [List.dropLast_cons₂, List.mem_cons] at hm
      rcases hm with rfl | hm
      · rw [hn.1, hp.1]
      · exact ih1 p hm
    · intro p hm
      simp only [List.tail_cons, List.mem_cons] at hm
      rcases hm with rfl | hm
      · rw [hp.1, hn.1]
      · exact ih2 p (by simpa using hm)

theorem Cyc.inverse {f g : Ptr → Ptr} {i : Nat} {l : List Nat} (h : Cyc f g i l) :
    ∀ p ∈ nodes i l, g (f p) = p ∧ f (g p) = p := by
  obtain ⟨h1, h2⟩ := chain_inverse h.1 h.2
  intro p hp
  have hd : p ∈ (nodes i l).dropLast := by
    have : (nodes i l).dropLast = Ptr.head i :: l.map Ptr.buf := by
      unfold nodes
      rw [← List.cons_append, List.dropLast_concat]
    rw [this]
    rcases mem_nodes.1 hp with rfl | ⟨b, hb, rfl⟩
    · simp
    · simp [hb]
  have ht : p ∈ (nodes i l).tail := by
    rcases mem_nodes.1 hp with rfl | ⟨b, hb, rfl⟩
    · simp [nodes]
    · simp [nodes, hb]
  exact ⟨h1 p hd, h2 p ht⟩

theorem Inv.valid_of_cached {NBUF : Nat} {s : Kernel} {R : List Nat} {L : Nat → List Nat}
    (h : Inv NBUF s R L) {b : Nat} (hc : cached s b) : (s.buf b).valid ≠ 0 := by
  intro hv
  rcases hc with hc | hc
  · rw [h.fresh b hv] at hc; exact absurd hc (by decide)
  · rw [hv] at hc; cases hc

/-! ## The claims -/

/-- C1 (single-slot invariant): in every state reachable from `binit` by calls of `bread`,
`bwrite`, `brelse`, `bpin` and `bunpin`, two distinct buffers that are in use
(`refcnt > 0`) or hold valid content (`valid = 1`) never carry the same key
`(dev, blockno)`. -/
theorem single_slot (NBUF : Nat) (s : Kernel) (h : Reachable NBUF s) (b1 b2 : Nat)
    (h1 : b1 < NBUF) (h2 : b2 < NBUF) (hne : b1 ≠ b2) (hc1 : cached s b1) (hc2 : cached s b2) :
    ¬ ((s.buf b1).dev = (s.buf b2).dev ∧ (s.buf b1).blockno = (s.buf b2).blockno) := by
  obtain ⟨R, hR⟩ := h
  obtain ⟨L, hL⟩ := hR.inv
  rintro ⟨hd, hb⟩
  exact hne (hL.unique h1 h2 (hL.valid_of_cached hc1) (hL.valid_of_cached hc2) hd hb)

/-- Witness of C1: after `bread(0, 0)` and `bread(0, 1)` on a pool of 30 buffers, buffers
26 and 1 are both in use and their keys differ. -/
theorem single_slot_witness :
    (cached w2 26 ∧ cached w2 1) ∧
      ¬ ((w2.buf 26).dev = (w2.buf 1).dev ∧ (w2.buf 26).blockno = (w2.buf 1).blockno) :=
  ⟨⟨Or.inl (by decide), Or.inl (by decide)⟩,
   single_slot 30 w2 ⟨_, w2_reach⟩ 26 1 (by decide) (by decide) (by decide)
    (Or.inl (by decide)) (Or.inl (by decide))⟩

/-- C2 (list-membership invariant): in every reachable state each of the `NBUF` buffers is
in the list of exactly one of the `NBUCKET` buckets, exactly once, and every bucket list
is a circular doubly linked list through its head: following `next` from the head visits
the list and comes back to the head, `prev` leads back the same way, and `next` and
`prev` are inverse to each other on the head and the buffers of the list. -/
theorem list_membership (NBUF : Nat) (s : Kernel) (h : Reachable NBUF s) :
    (∀ b, b < NBUF → ∃! i, i < NBUCKET ∧ b ∈ bucketList NBUF s i) ∧
    (∀ i, i < NBUCKET →
      (bucketList NBUF s i).Nodup ∧ (∀ b ∈ bucketList NBUF s i, b < NBUF) ∧
      Cyc s.next s.prev i (bucketList NBUF s i) ∧
      ∀ p ∈ nodes i (bucketList NBUF s i), s.prev (s.next p) = p ∧ s.next (s.prev p) = p) := by
  obtain ⟨R, hR⟩ := h
  obtain ⟨L, hL⟩ := hR.inv
  have hbl : ∀ i, i < NBUCKET → bucketList NBUF s i = L i := fun i hi => hL.abs.bucketList hi
  constructor
  · intro b hb
    obtain ⟨i, hi, hm⟩ := (hL.abs.cover b).1 hb
    refine ⟨i, ⟨hi, by rw [hbl i hi]; exact hm⟩, ?_⟩
    rintro j ⟨hj, hmj⟩
    rw [hbl j hj] at hmj
    exact hL.abs.linked.disj j i b hj hi hmj hm
  · intro i hi
    rw [hbl i hi]
    exact ⟨hL.abs.linked.nodup i hi, fun b hb => hL.abs.mem_lt hi hb, hL.abs.linked.cyc i hi,
      (hL.abs.linked.cyc i hi).inverse⟩

/-- Witness of C2: the state after `bread(0, 0)` and `bread(0, 1)` on a pool of 30
buffers. -/
theorem list_membership_witness :
    (∀ b, b < 30 → ∃! i, i < NBUCKET ∧ b ∈ bucketList 30 w2 i) ∧
    (∀ i, i < NBUCKET →
      (bucketList 30 w2 i).Nodup ∧ (∀ b ∈ bucketList 30 w2 i, b < 30) ∧
      Cyc w2.next w2.prev i (bucketList 30 w2 i) ∧
      ∀ p ∈ nodes i (bucketList 30 w2 i), w2.prev (w2.next p) = p ∧ w2.next (w2.prev p) = p) :=
  list_membership 30 w2 ⟨_, w2_reach⟩

/-- C3 (home-partition invariant): in every reachable state every buffer that holds a
cached block (`refcnt > 0` or `valid = 1`) is in the list of bucket
`ihash(blockno) = blockno % NBUCKET`; so for every buffer `bread` has returned, the bucket
that `brelse`, `bpin` and `bunpin` compute from `b->blockno` is the one whose list holds
the buffer. -/
theorem home_partition (NBUF : Nat) (s : Kernel) (R : List Nat) (h : Reach NBUF s R) :
    (∀ b, b < NBUF → cached s b →
      ihash (s.buf b).blockno = (s.buf b).blockno % NBUCKET ∧
      b ∈ bucketList NBUF s (ihash (s.buf b).blockno)) ∧
    (∀ b ∈ R, b ∈ bucketList NBUF s (ihash (s.buf b).blockno)) := by
  obtain ⟨L, hL⟩ := h.inv
  constructor
  · intro b hb hc
    rw [hL.abs.bucketList (ihash_lt _)]
    exact ⟨rfl, hL.home hb (hL.valid_of_cached hc)⟩
  · intro b hb
    rw [hL.abs.bucketList (ihash_lt _)]
    exact hL.home (hL.ret b hb).1 (hL.ret b hb).2

/-- Witness of C3: the state after `bread(0, 0)` and `bread(0, 1)` on a pool of 30 buffers,
where `bread` has returned buffers 26 and 1. -/
theorem home_partition_witness :
    (∀ b, b < 30 → cached w2 b →
      ihash (w2.buf b).blockno = (w2.buf b).blockno % NBUCKET ∧
      b ∈ bucketList 30 w2 (ihash (w2.buf b).blockno)) ∧
    (∀ b ∈ [1, 26], b ∈ bucketList 30 w2 (ihash (w2.buf b).blockno)) :=
  home_partition 30 w2 [1, 26] w2_reach

/-! ## Fetch and release on a bucket of free buffers -/

theorem lruFree_all_free {s : Kernel} {l : List Nat} (h : ∀ b ∈ l, (s.buf b).refcnt = 0) :
    lruFree s l = l.getLast? := by
  unfold lruFree
  rw [← List.head?_reverse]
  cases hr : l.reverse with
  | nil => rfl
  | cons a t =>
    have ha : a ∈ l := by
      rw [← List.mem_reverse, hr]; exact List.mem_cons_self _ _
    simp [isFree, h a ha]

/-- On a non-empty home list of free buffers `bget` takes the first buffer with the key,
else the last buffer of the list. -/
theorem pick_free {s : Kernel} {L : Nat → List Nat} (dev n : Nat)
    (hne : L (ihash n) ≠ []) (hfree : ∀ b ∈ L (ihash n), (s.buf b).refcnt = 0) :
    (∃ v, (L (ihash n)).find? (keyIs s dev n) = some v ∧ pick s L dev n = Pick.hit v) ∨
    (∃ v, (L (ihash n)).find? (keyIs s dev n) = none ∧ (L (ihash n)).getLast? = some v ∧
      pick s L dev n = Pick.evict v) := by
  cases hk : (L (ihash n)).find? (keyIs s dev n) with
  | some v =>
    left
    exact ⟨v, rfl, by simp [pick, hk]⟩
  | none =>
    right
    have hl := lruFree_all_free hfree
    obtain ⟨v, hv⟩ : ∃ v, (L (ihash n)).getLast? = some v := by
      cases hg : (L (ihash n)).getLast? with
      | none => exact absurd (List.getLast?_eq_none_iff.1 hg) hne
      | some v => exact ⟨v, rfl⟩
    refine ⟨v, rfl, hv, ?_⟩
    rw [hv] at hl
    simp [pick, hk, hl]

theorem fetchRelease_free {NBUF : Nat} {s : Kernel} {L : Nat → List Nat} (h : Abs NBUF s L)
    (dev n : Nat) (hne : L (ihash n) ≠ [])
    (hfree : ∀ b ∈ L (ihash n), (s.buf b).refcnt = 0) :
    ∃ v, v ∈ L (ihash n) ∧
      ((L (ihash n)).find? (keyIs s dev n) = some v ∨
        ((L (ihash n)).find? (keyIs s dev n) = none ∧ (L (ihash n)).getLast? = some v)) ∧
      ((s.buf v).locked = true → ∃ s2, fetchRelease NBUF s dev n = Outcome.sleep s2 v) ∧
      ((s.buf v).locked = false →
        ∃ s2, fetchRelease NBUF s dev n = Outcome.ret s2 () ∧
          Abs NBUF s2 (moveL L (ihash n) (ihash n) v) ∧
          (∀ c, c ≠ v → s2.buf c = s.buf c) ∧
          (s2.buf v).dev = dev ∧ (s2.buf v).blockno = n ∧ (s2.buf v).refcnt = 0 ∧
          (s2.buf v).locked = false) := by
  -- the selection and the facts about the selected buffer
  obtain ⟨v, hp, hvmem, hcase, hpost⟩ : ∃ v, (pick s L dev n).buf? = some v ∧
      v ∈ L (ihash n) ∧
      ((L (ihash n)).find? (keyIs s dev n) = some v ∨
        ((L (ihash n)).find? (keyIs s dev n) = none ∧ (L (ihash n)).getLast? = some v)) ∧
      (selected s dev n (pick s L dev n)).next = s.next ∧
      (selected s dev n (pick s L dev n)).prev = s.prev ∧
      ((filled (held (selected s dev n (pick s L dev n)) v) v).buf v).dev = dev ∧
      ((filled (held (selected s dev n (pick s L dev n)) v) v).buf v).blockno = n ∧
      ((filled (held (selected s dev n (pick s L dev n)) v) v).buf v).refcnt = 1 ∧
      ((filled (held (selected s dev n (pick s L dev n)) v) v).buf v).locked = true := by
    rcases pick_free dev n hne hfree with ⟨v, hk, hp⟩ | ⟨v, hk, hl, hp⟩
    · have hvm := List.mem_of_find?_eq_some hk
      have hkey := List.find?_some hk
      simp only [keyIs, decide_eq_true_eq] at hkey
      refine ⟨v, by rw [hp]; rfl, hvm, Or.inl hk, ?_⟩
      rw [hp, post_buf_hit]
      refine ⟨rfl, rfl, hkey.1, hkey.2, ?_, rfl⟩
      show inc32 (s.buf v).refcnt = 1
      rw [hfree v hvm]
      rfl
    · have hvm : v ∈ L (ihash n) := List.mem_of_getLast?_eq_some hl
      refine ⟨v, by rw [hp]; rfl, hvm, Or.inr ⟨hk, hl⟩, ?_⟩
      rw [hp, post_buf_evict]
      exact ⟨rfl, rfl, rfl, rfl, rfl, rfl⟩
  obtain ⟨hsn, hsp, hdev, hblk, hrc, hlk⟩ := hpost
  have ho := bread_outcome h dev n
  rw [hp] at ho
  simp only at ho
  refine ⟨v, hvmem, hcase, ?_, ?_⟩
  · intro hlocked
    rw [if_pos hlocked] at ho
    obtain ⟨s1, _, hb⟩ := ho
    exact ⟨s1, by unfold fetchRelease; rw [hb]⟩
  intro hunl
  rw [if_neg (by rw [hunl]; simp)] at ho
  obtain ⟨s1, hs, hb⟩ := ho
  have hbuf1 : s1.buf v = (filled (held (selected s dev n (pick s L dev n)) v) v).buf v := by
    rw [hs.1]
  have habs1 : Abs NBUF s1 L :=
    h.congr (by rw [hs.2.1, filled_next]; exact hsn) (by rw [hs.2.2.1, filled_prev]; exact hsp)
  have hlocked : (s1.buf v).locked = true := by rw [hbuf1]; exact hlk
  have hz : dec32 (s1.buf v).refcnt = 0 := by rw [hbuf1, hrc]; rfl
  have hbn : (s1.buf v).blockno = n := by rw [hbuf1]; exact hblk
  have hrel := brelse_eq s1 v
  rw [if_neg (by rw [hlocked]; simp), if_pos hz] at hrel
  obtain ⟨s2, hrel⟩ : ∃ s2, brelse s1 v = Outcome.ret s2 () := ⟨_, hrel⟩
  obtain ⟨_, hbuf2, _, hptr, _, _⟩ := brelse_ret hrel
  have hptr' := hptr hz
  rw [hbn] at hptr'
  refine ⟨s2, ?_, ?_, ?_, ?_, ?_, ?_, ?_⟩
  · unfold fetchRelease
    rw [hb]
    exact hrel
  · refine habs1.move (ihash_lt n) (ihash_lt n) hvmem ?_ ?_
    · rw [hptr'.1, moveToFront_next]
    · rw [hptr'.2, moveToFront_prev]
  · intro c hc
    rw [hbuf2, upd_other _ _ _ _ hc, hs.1, filled_buf_other _ _ _ hc, held_buf_other _ _ _ hc,
      selected_buf_other _ _ _ hp _ hc]
  · rw [hbuf2, upd_same]; show (s1.buf v).dev = dev; rw [hbuf1]; exact hdev
  · rw [hbuf2, upd_same]; exact hbn
  · rw [hbuf2, upd_same]; exact hz
  · rw [hbuf2, upd_same]

/-! ## The recency order of a bucket under fetch and release -/

theorem take_erase_of_not_mem {h : Nat} :
    ∀ (l : List Nat) (m : Nat), h ∉ l.take m → (l.erase h).take m = l.take m
  | [], _, _ => by simp
  | _ :: _, 0, _ => by simp
  | a :: t, m + 1, hm => by
    rw [List.take_succ_cons, List.mem_cons, not_or] at hm
    have hah : ¬ (a == h) = true := by
      simpa using (Ne.symm hm.1)
    rw [List.erase_cons_tail hah, List.take_succ_cons, List.take_succ_cons,
      take_erase_of_not_mem t m hm.2]

theorem getLast_not_mem_take {l : List Nat} {v m : Nat} (hnd : l.Nodup)
    (hl : l.getLast? = some v) (hm : m < l.length) : v ∉ l.take m := by
  have e := List.dropLast_append_getLast? v hl
  have hlen : m ≤ l.dropLast.length := by
    rw [List.length_dropLast]; omega
  rw [← e, List.take_append_of_le_length hlen]
  rw [← e] at hnd
  intro hv
  exact (List.nodup_append.1 hnd).2.2 (List.mem_of_mem_take hv) (List.mem_singleton_self v)

theorem take_min_length {α : Type} (l : List α) (a : Nat) :
    l.take a = l.take (min a l.length) := by
  rw [List.take_eq_take]
  simp

/-- The buffer a fetch selects is not among the first `min |P| (k - 1)` buffers of the
list when these hold the keys of the blocks `P` fetched before. -/
theorem lru_step_notin {s : Kernel} {l : List Nat} {P : List Nat} {dev n v k : Nat}
    (hlen : l.length = k + 1) (hnd : l.Nodup) (hnP : n ∉ P)
    (hcase : l.find? (keyIs s dev n) = some v ∨
      (l.find? (keyIs s dev n) = none ∧ l.getLast? = some v))
    (hkeys : (l.map (keyOf s)).take P.length
      = ((P.reverse).map (fun n => (dev, n))).take (k + 1)) :
    v ∉ l.take (min P.length k) ∧
      (l.map (keyOf s)).take (min P.length k)
        = ((P.reverse).map (fun n => (dev, n))).take (min P.length k) := by
  have hfirst : ((l.map (keyOf s)).take (min P.length k))
      = ((P.reverse).map (fun n => (dev, n))).take (min P.length k) := by
    have h1 : (l.map (keyOf s)).take (min P.length k)
        = ((l.map (keyOf s)).take P.length).take (min P.length k) := by
      rw [List.take_take]
      congr 1
      omega
    rw [h1, hkeys, List.take_take]
    congr 1
    omega
  refine ⟨?_, hfirst⟩
  rcases hcase with hhit | ⟨_, hlast⟩
  · intro hm
    have hkey := List.find?_some hhit
    simp only [keyIs, decide_eq_true_eq] at hkey
    have : keyOf s v ∈ (l.map (keyOf s)).take (min P.length k) := by
      rw [← List.map_take]
      exact List.mem_map_of_mem _ hm
    rw [hfirst] at this
    have := List.mem_of_mem_take this
    simp only [keyOf, hkey.1, hkey.2, List.mem_map, List.mem_reverse, Prod.mk.injEq,
      true_and, exists_eq_right] at this
    exact hnP this
  · exact getLast_not_mem_take hnd hlast (by omega)

theorem lru_step_keys {s s2 : Kernel} {l : List Nat} {P : List Nat} {dev n v k : Nat}
    (hlen : l.length = k + 1) (hnd : l.Nodup) (hv : v ∈ l) (hnP : n ∉ P)
    (hcase : l.find? (keyIs s dev n) = some v ∨
      (l.find? (keyIs s dev n) = none ∧ l.getLast? = some v))
    (hother : ∀ c, c ≠ v → s2.buf c = s.buf c)
    (hdev : (s2.buf v).dev = dev) (hblk : (s2.buf v).blockno = n)
    (hkeys : (l.map (keyOf s)).take P.length
      = ((P.reverse).map (fun n => (dev, n))).take (k + 1)) :
    ((v :: l.erase v).map (keyOf s2)).take (P ++ [n]).length
      = (((P ++ [n]).reverse).map (fun n => (dev, n))).take (k + 1) := by
  have herase_len : (l.erase v).length = k := by
    rw [List.length_erase_of_mem hv, hlen]; rfl
  have hnot : v ∉ l.erase v := fun hm => (hnd.mem_erase_iff.1 hm).1 rfl
  have hmap : (l.erase v).map (keyOf s2) = (l.erase v).map (keyOf s) := by
    refine List.map_congr_left (fun c hc => ?_)
    have hcv : c ≠ v := fun e => hnot (e ▸ hc)
    simp only [keyOf, hother c hcv]
  have hRlen : ((P.reverse).map (fun n => (dev, n))).length = P.length := by simp
  obtain ⟨hvnot, hfirst⟩ := lru_step_notin hlen hnd hnP hcase hkeys
  have hgoal : ((l.erase v).map (keyOf s)).take P.length
      = ((P.reverse).map (fun n => (dev, n))).take k := by
    rw [take_min_length ((l.erase v).map (keyOf s)) P.length, List.length_map, herase_len,
      ← List.map_take, take_erase_of_not_mem l _ hvnot, List.map_take, hfirst,
      take_min_length _ k, hRlen, Nat.min_comm]
  simp only [List.map_cons, List.length_append, List.length_singleton, List.take_succ_cons,
    List.reverse_append, List.reverse_cons, List.reverse_nil, List.nil_append,
    List.singleton_append, hmap, hgoal]
  simp only [keyOf, hdev, hblk]

/-- The first `|P|` buffers of the list after a fetch are the fetched buffer and buffers
that were among the first `|P|` before. -/
theorem lru_step_take {l : List Nat} {P : List Nat} {v k x : Nat}
    (hlen : l.length = k + 1) (hv : v ∈ l) (hvnot : v ∉ l.take (min P.length k))
    (hx : x ∈ (l.erase v).take P.length) : x ∈ l.take P.length := by
  have herase_len : (l.erase v).length = k := by
    rw [List.length_erase_of_mem hv, hlen]; rfl
  rw [take_min_length (l.erase v) P.length, herase_len, take_erase_of_not_mem l _ hvnot] at hx
  have e : l.take (min P.length k) = (l.take P.length).take (min P.length k) := by
    rw [List.take_take]
    congr 1
    omega
  rw [e] at hx
  exact List.mem_of_mem_take hx

theorem lru_run {NBUF : Nat} (dev i k : Nat) :
    ∀ (blocks P : List Nat) (s : Kernel) (L : Nat → List Nat),
      Abs NBUF s L → (L i).length = k + 1 →
      (∀ b ∈ L i, (s.buf b).refcnt = 0) →
      (∀ b ∈ (L i).take P.length, (s.buf b).locked = false) →
      (P ++ blocks).Nodup → (∀ n ∈ blocks, ihash n = i) →
      ((L i).map (keyOf s)).take P.length
        = ((P.reverse).map (fun n => (dev, n))).take (k + 1) →
      ((∀ b ∈ L i, (s.buf b).locked = false) →
        ∃ s1, fetchReleaseAll NBUF dev blocks s = Outcome.ret s1 ()) ∧
      (∀ s1, fetchReleaseAll NBUF dev blocks s = Outcome.ret s1 () →
        ∃ L1, Abs NBUF s1 L1 ∧ (L1 i).length = k + 1 ∧
          (∀ b ∈ L1 i, (s1.buf b).refcnt = 0) ∧
          (∀ b ∈ (L1 i).take (P ++ blocks).length, (s1.buf b).locked = false) ∧
          ((L1 i).map (keyOf s1)).take (P ++ blocks).length
            = (((P ++ blocks).reverse).map (fun n => (dev, n))).take (k + 1))
  | [], P, s, L, habs, hlen, hfree, hunl, _, _, hkeys => by
    refine ⟨fun _ => ⟨s, rfl⟩, ?_⟩
    intro s1 hrun
    have e : s = s1 := (Outcome.ret.inj hrun).1
    subst e
    exact ⟨L, habs, hlen, hfree, by simpa using hunl, by simpa using hkeys⟩
  | n :: ns, P, s, L, habs, hlen, hfree, hunl, hnd, hhash, hkeys => by
    have hi : ihash n = i := hhash n (List.mem_cons_self _ _)
    have hne : L (ihash n) ≠ [] := by
      rw [hi]; intro e; rw [e] at hlen; simp at hlen
    obtain ⟨v, hv, hcase, hsleep, hret⟩ :=
      fetchRelease_free habs dev n hne (by rw [hi]; exact hfree)
    rw [hi] at hv hcase hret
    have hndl := habs.linked.nodup i (by rw [← hi]; exact ihash_lt n)
    have hLi : moveL L i i v i = v :: (L i).erase v := by
      simp [moveL, upd_same]
    have hnP : n ∉ P := fun hm =>
      (List.nodup_append.1 hnd).2.2 hm (List.mem_cons_self _ _)
    have hnot : v ∉ (L i).erase v := fun hm => (hndl.mem_erase_iff.1 hm).1 rfl
    obtain ⟨hvnot, _⟩ := lru_step_notin hlen hndl hnP hcase hkeys
    -- what a returning fetch leaves behind
    have hstep : ∀ s2, Abs NBUF s2 (moveL L i i v) → (∀ c, c ≠ v → s2.buf c = s.buf c) →
        (s2.buf v).dev = dev → (s2.buf v).blockno = n → (s2.buf v).refcnt = 0 →
        (s2.buf v).locked = false →
        (moveL L i i v i).length = k + 1 ∧
        (∀ b ∈ moveL L i i v i, (s2.buf b).refcnt = 0) ∧
        (∀ b ∈ (moveL L i i v i).take (P ++ [n]).length, (s2.buf b).locked = false) ∧
        ((moveL L i i v i).map (keyOf s2)).take (P ++ [n]).length
          = (((P ++ [n]).reverse).map (fun n => (dev, n))).take (k + 1) := by
      intro s2 _ hother hdev hblk hrc hlk
      refine ⟨?_, ?_, ?_, ?_⟩
      · rw [hLi, List.length_cons, List.length_erase_of_mem hv, hlen]; rfl
      · intro b hb
        rw [hLi, List.mem_cons] at hb
        rcases hb with rfl | hb
        · exact hrc
        · have hbv : b ≠ v := fun e => hnot (e ▸ hb)
          rw [hother b hbv]
          exact hfree b (List.mem_of_mem_erase hb)
      · intro b hb
        rw [hLi, List.length_append, List.length_singleton, List.take_succ_cons,
          List.mem_cons] at hb
        rcases hb with rfl | hb
        · exact hlk
        · have hbe : b ∈ (L i).erase v := List.mem_of_mem_take hb
          have hbv : b ≠ v := fun e => hnot (e ▸ hbe)
          rw [hother b hbv]
          exact hunl b (lru_step_take hlen hv hvnot hb)
      · rw [hLi]
        exact lru_step_keys hlen hndl hv hnP hcase hother hdev hblk hkeys
    have hnd2 : ((P ++ [n]) ++ ns).Nodup := by simpa using hnd
    have hhash2 : ∀ m ∈ ns, ihash m = i := fun m hm => hhash m (List.mem_cons_of_mem _ hm)
    constructor
    · intro hall
      obtain ⟨s2, hfr, habs2, hother, hdev, hblk, hrc, hlk⟩ := hret (hall v hv)
      obtain ⟨h1, h2, h3, h4⟩ := hstep s2 habs2 hother hdev hblk hrc hlk
      have hall2 : ∀ b ∈ moveL L i i v i, (s2.buf b).locked = false := by
        intro b hb
        rw [hLi, List.mem_cons] at hb
        rcases hb with rfl | hb
        · exact hlk
        · have hbv : b ≠ v := fun e => hnot (e ▸ hb)
          rw [hother b hbv]
          exact hall b (List.mem_of_mem_erase hb)
      obtain ⟨s1, hrun⟩ :=
        (lru_run dev i k ns (P ++ [n]) s2 (moveL L i i v) habs2 h1 h2 h3 hnd2 hhash2 h4).1 hall2
      exact ⟨s1, by simp only [fetchReleaseAll, hfr]; exact hrun⟩
    · intro s1 hrun
      by_cases hlocked : (s.buf v).locked = true
      · obtain ⟨s2, hfr⟩ := hsleep hlocked
        simp only [fetchReleaseAll, hfr] at hrun
        cases hrun
      · obtain ⟨s2, hfr, habs2, hother, hdev, hblk, hrc, hlk⟩ := hret (by simpa using hlocked)
        obtain ⟨h1, h2, h3, h4⟩ := hstep s2 habs2 hother hdev hblk hrc hlk
        simp only [fetchReleaseAll, hfr] at hrun
        obtain ⟨L1, g1, g2, g3, g4, g5⟩ :=
          (lru_run dev i k ns (P ++ [n]) s2 (moveL L i i v) habs2 h1 h2 h3 hnd2 hhash2 h4).2
            s1 hrun
        exact ⟨L1, g1, g2, g3, by simpa using g4, by simpa using g5⟩

/-- C4 (LRU ordering): take a reachable state, a bucket `i` whose list holds exactly `k`
buffers, all with `refcnt = 0`, and `k + 1` distinct block numbers `b1, b2, ...` of one
device that all hash to `i`.  After `bread` followed by `brelse` on these blocks in
order, a further `bread` of `b1` returns the buffer `v` that was holding `b2`, gives it
the key `(dev, b1)`, and changes the key of no other buffer.  The `k + 1` fetches and
releases all return when the sleep locks of the `k` buffers are free. -/
theorem lru_order (NBUF : Nat) (s : Kernel) (h : Reachable NBUF s) (dev i k b1 b2 : Nat)
    (rest : List Nat) (hi : i < NBUCKET)
    (hlen : (bucketList NBUF s i).length = k)
    (hfree : ∀ b ∈ bucketList NBUF s i, (s.buf b).refcnt = 0)
    (hcount : (b1 :: b2 :: rest).length = k + 1) (hnd : (b1 :: b2 :: rest).Nodup)
    (hhash : ∀ n ∈ b1 :: b2 :: rest, ihash n = i) :
    ((∀ b ∈ bucketList NBUF s i, (s.buf b).locked = false) →
      ∃ s1, fetchReleaseAll NBUF dev (b1 :: b2 :: rest) s = Outcome.ret s1 ()) ∧
    (∀ s1, fetchReleaseAll NBUF dev (b1 :: b2 :: rest) s = Outcome.ret s1 () →
      ∃ s2 v, bread NBUF s1 dev b1 = Outcome.ret s2 v ∧
        keyOf s1 v = (dev, b2) ∧ keyOf s2 v = (dev, b1) ∧
        ∀ c, c ≠ v → keyOf s2 c = keyOf s1 c) := by
  obtain ⟨R, hR⟩ := h
  obtain ⟨L, hL⟩ := hR.inv
  have hbl := hL.abs.bucketList hi
  rw [hbl] at hlen hfree ⊢
  have hrl : rest.length + 1 = k := by simpa using hcount
  obtain ⟨k', rfl⟩ : ∃ k', k = k' + 1 := ⟨rest.length, hrl.symm⟩
  have hrun := lru_run dev i k' (b1 :: b2 :: rest) [] s L hL.abs hlen hfree (by simp)
    (by simpa using hnd) hhash (by simp)
  refine ⟨hrun.1, ?_⟩
  intro s1 hs1
  obtain ⟨L1, habs1, hlen1, hfree1, hunl1, hkeys1⟩ := hrun.2 s1 hs1
  have hfull : (L1 i).take ([] ++ b1 :: b2 :: rest).length = L1 i := by
    apply List.take_of_length_le
    simp only [List.nil_append, List.length_cons]
    omega
  rw [hfull] at hunl1
  -- the keys of the list are `b(k+1), ..., b2`
  have hkeys : (L1 i).map (keyOf s1) = (rest.reverse ++ [b2]).map (fun n => (dev, n)) := by
    have e1 : ((L1 i).map (keyOf s1)).take ([] ++ b1 :: b2 :: rest).length
        = (L1 i).map (keyOf s1) := by
      rw [← List.map_take, hfull]
    rw [e1] at hkeys1
    rw [hkeys1]
    simp only [List.nil_append, List.reverse_cons, List.append_assoc, List.singleton_append,
      List.map_append, List.map_cons, List.map_nil, List.map_reverse]
    have e2 : (List.map (fun n => (dev, n)) rest).reverse ++ [(dev, b2), (dev, b1)]
        = ((List.map (fun n => (dev, n)) rest).reverse ++ [(dev, b2)]) ++ [(dev, b1)] := by
      simp
    rw [e2, List.take_append_of_le_length (by simp; omega)]
    apply List.take_of_length_le
    simp
    omega
  -- the last buffer of the list holds `b2`
  obtain ⟨v, hlast⟩ : ∃ v, (L1 i).getLast? = some v := by
    cases hg : (L1 i).getLast? with
    | none =>
      have := List.getLast?_eq_none_iff.1 hg
      rw [this] at hlen1; simp at hlen1
    | some v => exact ⟨v, rfl⟩
  have hvmem : v ∈ L1 i := List.mem_of_getLast?_eq_some hlast
  have hkv : keyOf s1 v = (dev, b2) := by
    have e := List.dropLast_append_getLast? v hlast
    rw [← e, List.map_append, List.map_singleton] at hkeys
    have := congrArg List.getLast? hkeys
    simpa using this
  -- no buffer of the list holds `b1`
  have hmiss : (L1 i).find? (keyIs s1 dev b1) = none := by
    rw [List.find?_eq_none]
    intro x hx hkx
    simp only [keyIs, decide_eq_true_eq] at hkx
    have : keyOf s1 x ∈ (L1 i).map (keyOf s1) := List.mem_map_of_mem _ hx
    rw [hkeys] at this
    simp only [keyOf, hkx.1, hkx.2, List.mem_map, List.mem_append, List.mem_reverse,
      List.mem_singleton, Prod.mk.injEq, true_and, exists_eq_right] at this
    have hb1 := (List.nodup_cons.1 hnd).1
    rcases this with hm | hm
    · exact hb1 (List.mem_cons_of_mem _ hm)
    · exact hb1 (hm ▸ List.mem_cons_self _ _)
  have hi1 : ihash b1 = i := hhash b1 (List.mem_cons_self _ _)
  have hpick : pick s1 L1 dev b1 = Pick.evict v := by
    have hl := lruFree_all_free (s := s1) hfree1
    rw [hlast] at hl
    simp [pick, hi1, hmiss, hl]
  have ho := bread_outcome habs1 dev b1
  rw [hpick] at ho
  simp only [Pick.buf?, hunl1 v hvmem, Bool.false_eq_true, ↓reduceIte] at ho
  obtain ⟨s2, hs, hb⟩ := ho
  refine ⟨s2, v, hb, hkv, ?_, ?_⟩
  · simp only [keyOf, hs.1, post_buf_evict]
  · intro c hc
    simp only [keyOf, hs.1, filled_buf_other _ _ _ hc, held_buf_other _ _ _ hc]
    rw [selected_buf_other s1 dev b1 (show (Pick.evict v).buf? = some v from rfl) c hc]

/-- Witness of C4: bucket 0 right after `binit` with 30 buffers holds `k = 3` buffers;
the blocks are 13, 26, 39, 52 of device 0. -/
theorem lru_order_witness :
    ((∀ b ∈ bucketList 30 w0 0, (w0.buf b).locked = false) →
      ∃ s1, fetchReleaseAll 30 0 [13, 26, 39, 52] w0 = Outcome.ret s1 ()) ∧
    (∀ s1, fetchReleaseAll 30 0 [13, 26, 39, 52] w0 = Outcome.ret s1 () →
      ∃ s2 v, bread 30 s1 0 13 = Outcome.ret s2 v ∧
        keyOf s1 v = (0, 26) ∧ keyOf s2 v = (0, 13) ∧
        ∀ c, c ≠ v → keyOf s2 c = keyOf s1 c) :=
  lru_order 30 w0 ⟨_, w0_reach⟩ 0 0 3 13 26 [39, 52] (by decide) (by decide) (by decide)
    (by decide) (by decide) (by decide)

/-! ## What a returning `bread` leaves behind -/

theorem bread_ret {NBUF : Nat} {s s1 : Kernel} {L : Nat → List Nat} (h : Abs NBUF s L)
    {dev blockno b : Nat} (hr : bread NBUF s dev blockno = Outcome.ret s1 b) :
    (pick s L dev blockno).buf? = some b ∧ (s.buf b).locked = false ∧
      Sim s1 (filled (held (selected s dev blockno (pick s L dev blockno)) b) b) := by
  have ho := bread_outcome h dev blockno
  cases hp : (pick s L dev blockno).buf? with
  | none =>
    rw [hp] at ho
    obtain ⟨s2, _, he⟩ := ho
    rw [he] at hr; cases hr
  | some b0 =>
    rw [hp] at ho
    simp only at ho
    by_cases hl : (s.buf b0).locked = true
    · rw [if_pos hl] at ho
      obtain ⟨s2, _, he⟩ := ho
      rw [he] at hr; cases hr
    · rw [if_neg hl] at ho
      obtain ⟨s2, hs, he⟩ := ho
      rw [he] at hr
      cases hr
      exact ⟨rfl, by simpa using hl, hs⟩

theorem bread_ret_other {NBUF : Nat} {s s1 : Kernel} {L : Nat → List Nat} (h : Abs NBUF s L)
    {dev blockno b : Nat} (hr : bread NBUF s dev blockno = Outcome.ret s1 b)
    (c : Nat) (hc : c ≠ b) : s1.buf c = s.buf c := by
  obtain ⟨hp, _, hs⟩ := bread_ret h hr
  rw [hs.1, filled_buf_other _ _ _ hc, held_buf_other _ _ _ hc, selected_buf_other _ _ _ hp _ hc]

theorem bread_ret_disk {NBUF : Nat} {s s1 : Kernel} {L : Nat → List Nat} (h : Abs NBUF s L)
    {dev blockno b : Nat} (hr : bread NBUF s dev blockno = Outcome.ret s1 b) :
    s1.disk = s.disk := by
  obtain ⟨_, _, hs⟩ := bread_ret h hr
  rw [hs.2.2.2.1, filled_disk]
  exact selected_disk s dev blockno _

/-- A hit on a buffer with valid content: only `refcnt` and the sleep lock change, and
nothing is read from the disk. -/
theorem bread_hit_valid {NBUF : Nat} {s : Kernel} {L : Nat → List Nat} (h : Abs NBUF s L)
    {dev blockno b : Nat} (hf : (L (ihash blockno)).find? (keyIs s dev blockno) = some b)
    (hv : (s.buf b).valid ≠ 0) (hl : (s.buf b).locked = false) :
    ∃ s1, bread NBUF s dev blockno = Outcome.ret s1 b ∧
      s1.buf b = { s.buf b with refcnt := inc32 (s.buf b).refcnt, locked := true } ∧
      (∀ c, c ≠ b → s1.buf c = s.buf c) ∧ s1.next = s.next ∧ s1.prev = s.prev ∧
      s1.disk = s.disk ∧ ioLog s1 = ioLog s ++ [Event.acquiresleep b] := by
  have hp : pick s L dev blockno = Pick.hit b := by simp [pick, hf]
  have ho := bread_outcome h dev blockno
  rw [hp] at ho
  simp only [Pick.buf?, hl, Bool.false_eq_true, ↓reduceIte] at ho
  obtain ⟨s1, hs, hb⟩ := ho
  refine ⟨s1, hb, ?_, ?_, ?_, ?_, ?_, ?_⟩
  · rw [hs.1, post_buf_hit]
    simp [hv]
  · intro c hc
    exact bread_ret_other h hb c hc
  · rw [hs.2.1, filled_next]; rfl
  · rw [hs.2.2.1, filled_prev]; rfl
  · exact bread_ret_disk h hb
  · rw [hs.2.2.2.2]
    have hfill : filled (held (selected s dev blockno (Pick.hit b)) b) b
        = held (selected s dev blockno (Pick.hit b)) b := by
      unfold filled
      rw [if_neg]
      rw [held_buf_self, selected_buf_hit]
      exact hv
    rw [hfill, held, ioLog_emit]
    rfl

theorem diskReads_ioLog (s : Kernel) : diskReads s = (ioLog s).countP Event.isRead := by
  unfold diskReads ioLog
  induction s.log with
  | nil => rfl
  | cons e l ih =>
    cases e <;> simp [List.filter_cons, List.countP_cons, Event.isSpin, Event.isRead, ih]

/-- The buffer `bread` returns carries the requested key, valid content and the sleep
lock. -/
theorem bread_ret_self {NBUF : Nat} {s s1 : Kernel} {L : Nat → List Nat} (h : Abs NBUF s L)
    {dev blockno b : Nat} (hr : bread NBUF s dev blockno = Outcome.ret s1 b) :
    (s1.buf b).dev = dev ∧ (s1.buf b).blockno = blockno ∧ (s1.buf b).locked = true ∧
      (s1.buf b).valid ≠ 0 ∧ ((s.buf b).valid ≤ 1 → (s1.buf b).valid = 1) := by
  obtain ⟨hp, _, hs⟩ := bread_ret h hr
  rw [hs.1]
  cases hk : pick s L dev blockno with
  | noBuffers => rw [hk] at hp; cases hp
  | hit c =>
    rw [hk] at hp
    simp only [Pick.buf?, Option.some.injEq] at hp
    subst hp
    have hkey := List.find?_some (pick_hit hk)
    simp only [keyIs, decide_eq_true_eq] at hkey
    rw [post_buf_hit]
    refine ⟨hkey.1, hkey.2, rfl, ?_, ?_⟩
    · show (if (s.buf c).valid = 0 then 1 else (s.buf c).valid) ≠ 0
      by_cases hv : (s.buf c).valid = 0
      · rw [if_pos hv]; decide
      · rw [if_neg hv]; exact hv
    · intro hle
      show (if (s.buf c).valid = 0 then 1 else (s.buf c).valid) = 1
      by_cases hv : (s.buf c).valid = 0
      · rw [if_pos hv]
      · rw [if_neg hv]; omega
  | evict c =>
    rw [hk] at hp
    simp only [Pick.buf?, Option.some.injEq] at hp
    subst hp
    rw [post_buf_evict]
    exact ⟨rfl, rfl, rfl, Nat.succ_ne_zero 0, fun _ => rfl⟩
  | steal i c =>
    rw [hk] at hp
    simp only [Pick.buf?, Option.some.injEq] at hp
    subst hp
    rw [post_buf_steal]
    exact ⟨rfl, rfl, rfl, Nat.succ_ne_zero 0, fun _ => rfl⟩

theorem bpin_buf (s : Kernel) (c b : Nat) :
    ((bpin s c).buf b).dev = (s.buf b).dev ∧ ((bpin s c).buf b).blockno = (s.buf b).blockno ∧
      ((bpin s c).buf b).valid = (s.buf b).valid ∧ ((bpin s c).buf b).data = (s.buf b).data ∧
      ((bpin s c).buf b).locked = (s.buf b).locked := by
  by_cases hcb : b = c
  · subst hcb; simp [Bcache.bpin, release, acquire, incRef, emit, setBuf]
  · simp [Bcache.bpin, release, acquire, incRef, emit, setBuf, hcb]

theorem bunpin_buf (s : Kernel) (c b : Nat) :
    ((bunpin s c).buf b).dev = (s.buf b).dev ∧
      ((bunpin s c).buf b).blockno = (s.buf b).blockno ∧
      ((bunpin s c).buf b).valid = (s.buf b).valid ∧
      ((bunpin s c).buf b).data = (s.buf b).data ∧
      ((bunpin s c).buf b).locked = (s.buf b).locked := by
  by_cases hcb : b = c
  · subst hcb; simp [Bcache.bunpin, release, acquire, decRef, emit, setBuf]
  · simp [Bcache.bunpin, release, acquire, decRef, emit, setBuf, hcb]

/-- Calls that leave `b` alone keep the state reachable and keep the key, the `valid`
flag, the data and the sleep lock of `b`. -/
theorem Quiet.keeps {NBUF : Nat} {b : Nat} {s s1 : Kernel} {R R1 : List Nat}
    (hq : Quiet NBUF b s R s1 R1) (hr : Reach NBUF s R) :
    Reach NBUF s1 R1 ∧ (s1.buf b).dev = (s.buf b).dev ∧
      (s1.buf b).blockno = (s.buf b).blockno ∧ (s1.buf b).valid = (s.buf b).valid ∧
      (s1.buf b).data = (s.buf b).data ∧ (s1.buf b).locked = (s.buf b).locked := by
  induction hq with
  | refl => exact ⟨hr, rfl, rfl, rfl, rfl, rfl⟩
  | bread dev blockno _ hb hc ih =>
    obtain ⟨hr1, h1, h2, h3, h4, h5⟩ := ih
    obtain ⟨L, hL⟩ := hr1.inv
    have := bread_ret_other hL.abs hb _ (Ne.symm hc)
    refine ⟨Reach.bread dev blockno hr1 hb, ?_, ?_, ?_, ?_, ?_⟩ <;> rw [this] <;> assumption
  | bwrite _ hc _ hw ih =>
    obtain ⟨hr1, h1, h2, h3, h4, h5⟩ := ih
    obtain ⟨_, rfl⟩ := bwrite_ret hw
    exact ⟨Reach.bwrite hr1 hc hw, h1, h2, h3, h4, h5⟩
  | brelse _ hc hne hw ih =>
    obtain ⟨hr1, h1, h2, h3, h4, h5⟩ := ih
    obtain ⟨_, hbuf, _⟩ := brelse_ret hw
    have e := congrFun hbuf b
    rw [upd_other _ _ _ _ (Ne.symm hne)] at e
    refine ⟨Reach.brelse hr1 hc hw, ?_, ?_, ?_, ?_, ?_⟩ <;> rw [e] <;> assumption
  | bpin _ hc ih =>
    obtain ⟨hr1, h1, h2, h3, h4, h5⟩ := ih
    obtain ⟨e1, e2, e3, e4, e5⟩ := bpin_buf _ _ b
    exact ⟨Reach.bpin hr1 hc, e1.trans h1, e2.trans h2, e3.trans h3, e4.trans h4, e5.trans h5⟩
  | bunpin _ hc ih =>
    obtain ⟨hr1, h1, h2, h3, h4, h5⟩ := ih
    obtain ⟨e1, e2, e3, e4, e5⟩ := bunpin_buf _ _ b
    exact ⟨Reach.bunpin hr1 hc, e1.trans h1, e2.trans h2, e3.trans h3, e4.trans h4,
      e5.trans h5⟩
  | store d _ hc hne hl ih =>
    obtain ⟨hr1, h1, h2, h3, h4, h5⟩ := ih
    have e : ∀ (s2 : Kernel) (c : Nat), c ≠ b → (setData s2 c d).buf b = s2.buf b :=
      fun s2 c hcb => by simp [setData, setBuf, Ne.symm hcb]
    refine ⟨Reach.store d hr1 hc hl, ?_, ?_, ?_, ?_, ?_⟩ <;> rw [e _ _ hne] <;> assumption

/-- C5 (round trip): in a reachable state let `bread(dev, blockno)` return buffer `b`; the
caller stores any content `d` into `b->data`, calls `bwrite(b)` and `brelse(b)` (both
return).  After any further calls that leave `b` alone (no `bread` that returns `b`, so
no miss reassigns it), the next `bread(dev, blockno)` returns the same buffer `b` with
data `d`; it finds the buffer with `valid = 1` and performs no disk read. -/
theorem round_trip (NBUF : Nat) (s : Kernel) (R : List Nat) (h : Reach NBUF s R)
    (dev blockno b : Nat) (s1 : Kernel) (d : Data)
    (hb : bread NBUF s dev blockno = Outcome.ret s1 b) :
    ∃ s3 s4, bwrite (setData s1 b d) b = Outcome.ret s3 () ∧
      brelse s3 b = Outcome.ret s4 () ∧
      ∀ s5 R5, Quiet NBUF b s4 (b :: R) s5 R5 →
        ∃ s6, bread NBUF s5 dev blockno = Outcome.ret s6 b ∧ (s6.buf b).data = d ∧
          (s5.buf b).valid = 1 ∧ diskReads s6 = diskReads s5 := by
  obtain ⟨L, hL⟩ := h.inv
  obtain ⟨hdev, hblk, hlk, _, hv1⟩ := bread_ret_self hL.abs hb
  have hval := hv1 (hL.bool b)
  have hr1 : Reach NBUF s1 (b :: R) := Reach.bread dev blockno h hb
  have hmem : b ∈ b :: R := List.mem_cons_self _ _
  have hr2 : Reach NBUF (setData s1 b d) (b :: R) := Reach.store d hr1 hmem hlk
  have hbuf2 : (setData s1 b d).buf b = { s1.buf b with data := d } := by
    simp [setData, setBuf]
  have hlk2 : ((setData s1 b d).buf b).locked = true := by rw [hbuf2]; exact hlk
  have hw : bwrite (setData s1 b d) b
      = Outcome.ret (virtio_disk_rw (setData s1 b d) b true) () := by
    unfold bwrite holdingsleep
    rw [if_neg (by rw [hlk2]; simp)]
  have hr3 := Reach.bwrite hr2 hmem hw
  have hbuf3 : (virtio_disk_rw (setData s1 b d) b true).buf b = { s1.buf b with data := d } :=
    hbuf2
  have hrel := brelse_eq (virtio_disk_rw (setData s1 b d) b true) b
  rw [if_neg (by rw [hbuf3]; simp [hlk])] at hrel
  obtain ⟨s4, hrel⟩ : ∃ s4, brelse (virtio_disk_rw (setData s1 b d) b true) b
      = Outcome.ret s4 () := ⟨_, hrel⟩
  obtain ⟨_, hbuf4, _⟩ := brelse_ret hrel
  have hr4 := Reach.brelse hr3 hmem hrel
  have hb4 : s4.buf b =
      { s1.buf b with data := d, locked := false, refcnt := dec32 (s1.buf b).refcnt } := by
    rw [hbuf4, upd_same, hbuf3]
  refine ⟨_, s4, hw, hrel, ?_⟩
  intro s5 R5 hq
  obtain ⟨hr5, f1, f2, f3, f4, f5⟩ := hq.keeps hr4
  rw [hb4] at f1 f2 f3 f4 f5
  simp only at f1 f2 f3 f4 f5
  obtain ⟨L5, hL5⟩ := hr5.inv
  obtain ⟨hbn, _⟩ := (hr1.inv.choose_spec).ret b hmem
  have hv5 : (s5.buf b).valid ≠ 0 := by rw [f3, hval]; decide
  have hkey := hL5.key b hbn hv5
  rw [f1, f2, hdev, hblk] at hkey
  obtain ⟨s6, hb6, hbuf6, _, _, _, _, hio⟩ := bread_hit_valid hL5.abs hkey hv5 f5
  refine ⟨s6, hb6, ?_, by rw [f3, hval], ?_⟩
  · rw [hbuf6]; exact f4
  · rw [diskReads_ioLog, diskReads_ioLog, hio]
    simp [Event.isRead]

/-- Witness of C5: `bread(0, 0)` right after `binit` with 30 buffers returns buffer 26;
the content stored is the single byte 7. -/
theorem round_trip_witness :
    ∃ s3 s4, bwrite (setData w1 26 [7]) 26 = Outcome.ret s3 () ∧
      brelse s3 26 = Outcome.ret s4 () ∧
      ∀ s5 R5, Quiet 30 26 s4 [26] s5 R5 →
        ∃ s6, bread 30 s5 0 0 = Outcome.ret s6 26 ∧ (s6.buf 26).data = [7] ∧
          (s5.buf 26).valid = 1 ∧ diskReads s6 = diskReads s5 :=
  round_trip 30 w0 [] w0_reach 0 0 26 w1 [7] w1_bread

/-! ## Steal -/

theorem x4_reach : Reach 30 x4 [0, 25, 12] := by
  have h1 : bread 30 w0 0 12 = Outcome.ret x1 12 := by rfl
  have h2 : bread 30 x1 0 25 = Outcome.ret x2 25 := by rfl
  have h3 : bread 30 x2 0 13 = Outcome.ret x3 0 := by rfl
  exact Reach.bunpin
    (Reach.bread 0 13 (Reach.bread 0 25 (Reach.bread 0 12 w0_reach h1) h2) h3)
    (List.mem_cons_self _ _)

/-- The selection is a steal when the home list has neither the key nor a free buffer and
another bucket has a free buffer. -/
theorem pick_steal_of {s : Kernel} {L : Nat → List Nat} {dev blockno : Nat}
    (hmiss : (L (ihash blockno)).find? (keyIs s dev blockno) = none)
    (hfull : ∀ b ∈ L (ihash blockno), (s.buf b).refcnt ≠ 0)
    (hfree : ∃ j, j < NBUCKET ∧ j ≠ ihash blockno ∧ ∃ c ∈ L j, (s.buf c).refcnt = 0) :
    ∃ i b, pick s L dev blockno = Pick.steal i b := by
  have hl : lruFree s (L (ihash blockno)) = none := lruFree_none.2 hfull
  cases hc : (stealOrder (ihash blockno)).findSome? (stealCand s L) with
  | none =>
    exfalso
    obtain ⟨j, hj, hne, c, hcm, hcz⟩ := hfree
    have hm := (mem_stealOrder (ihash_lt blockno)).2 ⟨hj, hne⟩
    have := List.findSome?_eq_none_iff.1 hc j hm
    unfold stealCand at this
    simp only [Option.map_eq_none'] at this
    exact lruFree_none.1 this c hcm hcz
  | some p =>
    obtain ⟨i, b⟩ := p
    have hc' : (stealOrder (ihash blockno)).findSome?
        (fun i => (lruFree s (L i)).map (fun b => (i, b))) = some (i, b) := hc
    exact ⟨i, b, by simp [pick, hmiss, hl, hc']⟩

theorem moveL_home {L : Nat → List Nat} {i id b : Nat} (h : i ≠ id) :
    moveL L i id b id = b :: L id := by
  unfold moveL
  rw [upd_same, upd_other _ _ _ _ (Ne.symm h)]

theorem moveL_donor {L : Nat → List Nat} {i id b : Nat} (h : i ≠ id) :
    moveL L i id b i = (L i).erase b := by
  unfold moveL
  rw [upd_other _ _ _ _ h, upd_same]

theorem moveL_other {L : Nat → List Nat} {i id b j : Nat} (h1 : j ≠ i) (h2 : j ≠ id) :
    moveL L i id b j = L j := by
  unfold moveL
  rw [upd_other _ _ _ _ h2, upd_other _ _ _ _ h1]

theorem held_abs {NBUF : Nat} {s : Kernel} {L : Nat → List Nat} (h : Abs NBUF s L) (b : Nat) :
    Abs NBUF (held s b) L := h.congr rfl rfl

/-- C6 (steal correctness), as the code has it: in a reachable state let no buffer of
the home list of `(dev, blockno)` carry that key, let every buffer of the home list have
`refcnt > 0`, and let some other bucket hold a buffer with `refcnt = 0`.  Then `bget`
does not panic: it selects a buffer `b` with `refcnt = 0` from the list of another
bucket `i`, gives it the requested `dev` and `blockno`, `valid = 0` and `refcnt = 1`,
makes it the first element of the home list and takes it out of the list of `i`; the
other elements of both lists, all other lists and all other buffers are unchanged.
`bget` returns `b` if the sleep lock of `b` is free, and sleeps in `acquiresleep` if it
is held. -/
theorem steal_correct (NBUF : Nat) (s : Kernel) (h : Reachable NBUF s) (dev blockno : Nat)
    (hmiss : (bucketList NBUF s (ihash blockno)).find? (keyIs s dev blockno) = none)
    (hfull : ∀ b ∈ bucketList NBUF s (ihash blockno), 0 < (s.buf b).refcnt)
    (hfree : ∃ j, j < NBUCKET ∧ j ≠ ihash blockno ∧
      ∃ c ∈ bucketList NBUF s j, (s.buf c).refcnt = 0) :
    ∃ i b s1, i < NBUCKET ∧ i ≠ ihash blockno ∧ b ∈ bucketList NBUF s i ∧
      (s.buf b).refcnt = 0 ∧
      bget NBUF s dev blockno
        = (if (s.buf b).locked then Outcome.sleep s1 b else Outcome.ret s1 b) ∧
      (s1.buf b).dev = dev ∧ (s1.buf b).blockno = blockno ∧ (s1.buf b).valid = 0 ∧
      (s1.buf b).refcnt = 1 ∧
      (∀ c, c ≠ b → s1.buf c = s.buf c) ∧
      bucketList NBUF s1 (ihash blockno) = b :: bucketList NBUF s (ihash blockno) ∧
      bucketList NBUF s1 i = (bucketList NBUF s i).erase b ∧
      (∀ j, j < NBUCKET → j ≠ i → j ≠ ihash blockno →
        bucketList NBUF s1 j = bucketList NBUF s j) := by
  obtain ⟨R, hR⟩ := h
  obtain ⟨L, hL⟩ := hR.inv
  have hbl : ∀ j, j < NBUCKET → bucketList NBUF s j = L j := fun j hj => hL.abs.bucketList hj
  have hid := ihash_lt blockno
  rw [hbl _ hid] at hmiss hfull
  obtain ⟨i, b, hp⟩ := pick_steal_of hmiss (fun c hc => Nat.pos_iff_ne_zero.1 (hfull c hc))
    (by
      obtain ⟨j, hj, hne, c, hc, hz⟩ := hfree
      exact ⟨j, hj, hne, c, by rw [← hbl j hj]; exact hc, hz⟩)
  obtain ⟨hi, hne, hlru⟩ := pick_steal_donor hp
  obtain ⟨hbm, hbz⟩ := lruFree_some hlru
  obtain ⟨s1, hs, hb⟩ := bget_outcome hL.abs dev blockno
  have habs := hL.abs.selected dev blockno
  rw [hp] at hs hb habs
  simp only [Pick.buf?, listsAfter] at hb habs
  have habs1 : Abs NBUF s1 (moveL L i (ihash blockno) b) := hs.abs habs
  have hself := selected_buf_steal s dev blockno i b
  have hoth : ∀ c, c ≠ b → (selected s dev blockno (Pick.steal i b)).buf c = s.buf c :=
    fun c hc => selected_buf_other s dev blockno
      (show (Pick.steal i b).buf? = some b from rfl) c hc
  by_cases hlk : (s.buf b).locked = true
  · refine ⟨i, b, s1, hi, hne, by rw [hbl i hi]; exact hbm, hbz, ?_, ?_, ?_, ?_, ?_, ?_, ?_,
      ?_, ?_⟩
    · rw [hb, if_pos hlk, if_pos hlk]
    · rw [hs.1, hself]
    · rw [hs.1, hself]
    · rw [hs.1, hself]
    · rw [hs.1, hself]
    · intro c hc; rw [hs.1]; exact hoth c hc
    · rw [habs1.bucketList hid, hbl _ hid, moveL_home hne]
    · rw [habs1.bucketList hi, hbl _ hi, moveL_donor hne]
    · intro j hj h1 h2
      rw [habs1.bucketList hj, hbl _ hj, moveL_other h1 h2]
  · have habs2 := held_abs habs1 b
    refine ⟨i, b, held s1 b, hi, hne, by rw [hbl i hi]; exact hbm, hbz, ?_, ?_, ?_, ?_, ?_,
      ?_, ?_, ?_, ?_⟩
    · rw [hb, if_neg hlk, if_neg hlk]
    · rw [held_buf_self, hs.1, hself]
    · rw [held_buf_self, hs.1, hself]
    · rw [held_buf_self, hs.1, hself]
    · rw [held_buf_self, hs.1, hself]
    · intro c hc; rw [held_buf_other _ _ _ hc, hs.1]; exact hoth c hc
    · rw [habs2.bucketList hid, hbl _ hid, moveL_home hne]
    · rw [habs2.bucketList hi, hbl _ hi, moveL_donor hne]
    · intro j hj h1 h2
      rw [habs2.bucketList hj, hbl _ hj, moveL_other h1 h2]

theorem x2_reach : Reach 30 x2 [25, 12] := by
  have h1 : bread 30 w0 0 12 = Outcome.ret x1 12 := by rfl
  have h2 : bread 30 x1 0 25 = Outcome.ret x2 25 := by rfl
  exact Reach.bread 0 25 (Reach.bread 0 12 w0_reach h1) h2

theorem not_ret_of_isSleep {α : Type} {o : Outcome α} (h : o.isSleep = true) :
    ¬ ∃ s1 a, o = Outcome.ret s1 a := by
  rintro ⟨s1, a, rfl⟩
  cases h

/-- Witness of C6: with 30 buffers, after `bread(0, 12)` and `bread(0, 25)` both buffers
of bucket 12 are in use; `bget(0, 38)` steals from bucket 0. -/
theorem steal_correct_witness :
    ∃ i b s1, i < NBUCKET ∧ i ≠ ihash 38 ∧ b ∈ bucketList 30 x2 i ∧
      (x2.buf b).refcnt = 0 ∧
      bget 30 x2 0 38
        = (if (x2.buf b).locked then Outcome.sleep s1 b else Outcome.ret s1 b) ∧
      (s1.buf b).dev = 0 ∧ (s1.buf b).blockno = 38 ∧ (s1.buf b).valid = 0 ∧
      (s1.buf b).refcnt = 1 ∧
      (∀ c, c ≠ b → s1.buf c = x2.buf c) ∧
      bucketList 30 s1 (ihash 38) = b :: bucketList 30 x2 (ihash 38) ∧
      bucketList 30 s1 i = (bucketList 30 x2 i).erase b ∧
      (∀ j, j < NBUCKET → j ≠ i → j ≠ ihash 38 →
        bucketList 30 s1 j = bucketList 30 x2 j) :=
  steal_correct 30 x2 ⟨_, x2_reach⟩ 0 38 (by decide) (by decide)
    ⟨0, by decide, by decide, 0, by decide, by decide⟩

/-- Counterexample to C6 as stated: with 30 buffers, after `bread(0, 12)`, `bread(0, 25)`,
`bread(0, 13)` (which returns buffer 0) and `bunpin` of buffer 0, the state is reachable,
the key `(0, 38)` is not in its home list (bucket 12), both buffers of bucket 12 are in
use and bucket 0 holds buffer 0 with `refcnt = 0`; yet `bget(0, 38)` does not return: it
steals buffer 0, whose sleep lock is still held, and sleeps in `acquiresleep`. -/
theorem steal_correct_counterexample :
    Reachable 30 x4 ∧
    (bucketList 30 x4 (ihash 38)).find? (keyIs x4 0 38) = none ∧
    (∀ b ∈ bucketList 30 x4 (ihash 38), 0 < (x4.buf b).refcnt) ∧
    (∃ j, j < NBUCKET ∧ j ≠ ihash 38 ∧ ∃ c ∈ bucketList 30 x4 j, (x4.buf c).refcnt = 0) ∧
    (bget 30 x4 0 38).isSleep = true ∧
    ¬ ∃ s1 b, bget 30 x4 0 38 = Outcome.ret s1 b :=
  ⟨⟨_, x4_reach⟩, by decide, by decide, ⟨0, by decide, by decide, 0, by decide, by decide⟩,
    by decide, not_ret_of_isSleep (by decide)⟩

/-! ## Pin protection and exhaustion -/

/-- On a miss in the home list the selection is an eviction, a steal or none. -/
theorem pick_of_miss {s : Kernel} {L : Nat → List Nat} {dev blockno : Nat}
    (hmiss : (L (ihash blockno)).find? (keyIs s dev blockno) = none) :
    (∃ b, pick s L dev blockno = Pick.evict b) ∨
    (∃ i b, pick s L dev blockno = Pick.steal i b) ∨
    pick s L dev blockno = Pick.noBuffers := by
  cases hp : pick s L dev blockno with
  | hit b => rw [pick_hit hp] at hmiss; cases hmiss
  | evict b => exact Or.inl ⟨b, rfl⟩
  | steal i b => exact Or.inr (Or.inl ⟨i, b, rfl⟩)
  | noBuffers => exact Or.inr (Or.inr rfl)

/-- On a miss the selected buffer is unreferenced and sits in one of the lists. -/
theorem pick_miss_free {s : Kernel} {L : Nat → List Nat} {dev blockno b : Nat}
    (hmiss : (L (ihash blockno)).find? (keyIs s dev blockno) = none)
    (hp : (pick s L dev blockno).buf? = some b) : (s.buf b).refcnt = 0 := by
  rcases pick_of_miss hmiss with ⟨c, hk⟩ | ⟨i, c, hk⟩ | hk
  · rw [hk] at hp
    simp only [Pick.buf?, Option.some.injEq] at hp
    subst hp
    exact (lruFree_some (pick_evict hk).2).2
  · rw [hk] at hp
    simp only [Pick.buf?, Option.some.injEq] at hp
    subst hp
    exact (lruFree_some (pick_steal_donor hk).2.2).2
  · rw [hk] at hp; cases hp

theorem mem_listsAfter {NBUF : Nat} {s : Kernel} {L : Nat → List Nat} (h : Abs NBUF s L)
    {dev blockno b : Nat} (hp : (pick s L dev blockno).buf? = some b) (c j : Nat)
    (hj : j < NBUCKET) (hc : c ≠ b) :
    c ∈ listsAfter L (ihash blockno) (pick s L dev blockno) j ↔ c ∈ L j := by
  cases hk : pick s L dev blockno with
  | hit _ => rfl
  | evict _ => rfl
  | noBuffers => rfl
  | steal i b0 =>
    rw [hk] at hp
    simp only [Pick.buf?, Option.some.injEq] at hp
    subst hp
    obtain ⟨hi, _, hl⟩ := pick_steal_donor hk
    simp only [listsAfter]
    rw [mem_moveL h.linked hi (lruFree_some hl).1 c j hj]
    constructor
    · rintro (⟨e, _⟩ | ⟨_, hm⟩)
      · exact absurd e hc
      · exact hm
    · exact fun hm => Or.inr ⟨hc, hm⟩

/-- C7 (pin protection): in a reachable state let no buffer of the home list carry the
key `(dev, blockno)`.  Then `bget` either panics with every buffer untouched, or it
reassigns a buffer `b` that had `refcnt = 0` before the call (whether it is taken by
local eviction or by a steal, and whether `bget` then returns or sleeps on the sleep lock
of `b`); every buffer that had `refcnt > 0` keeps all its fields (`dev`, `blockno`,
`valid`, `refcnt`, data) and stays in the list of the same bucket. -/
theorem pin_protection (NBUF : Nat) (s : Kernel) (h : Reachable NBUF s) (dev blockno : Nat)
    (hmiss : (bucketList NBUF s (ihash blockno)).find? (keyIs s dev blockno) = none) :
    (∃ s1, bget NBUF s dev blockno = Outcome.panic s1 "bget: no buffers" ∧ s1.buf = s.buf ∧
      ∀ j, j < NBUCKET → bucketList NBUF s1 j = bucketList NBUF s j) ∨
    (∃ s1 b, (bget NBUF s dev blockno = Outcome.ret s1 b ∨
        bget NBUF s dev blockno = Outcome.sleep s1 b) ∧
      (s.buf b).refcnt = 0 ∧ (s1.buf b).dev = dev ∧ (s1.buf b).blockno = blockno ∧
      ∀ c, 0 < (s.buf c).refcnt →
        s1.buf c = s.buf c ∧
        ∀ j, j < NBUCKET → (c ∈ bucketList NBUF s1 j ↔ c ∈ bucketList NBUF s j)) := by
  obtain ⟨R, hR⟩ := h
  obtain ⟨L, hL⟩ := hR.inv
  have hbl : ∀ j, j < NBUCKET → bucketList NBUF s j = L j := fun j hj => hL.abs.bucketList hj
  rw [hbl _ (ihash_lt blockno)] at hmiss
  obtain ⟨s1, hs, hb⟩ := bget_outcome hL.abs dev blockno
  have habs1 : Abs NBUF s1 (listsAfter L (ihash blockno) (pick s L dev blockno)) :=
    hs.abs (hL.abs.selected dev blockno)
  cases hp : (pick s L dev blockno).buf? with
  | none =>
    left
    have hk : pick s L dev blockno = Pick.noBuffers := by
      cases hk : pick s L dev blockno <;> simp [hk, Pick.buf?] at hp
      rfl
    rw [hp] at hb
    rw [hk] at hs habs1
    refine ⟨s1, hb, hs.1, fun j hj => ?_⟩
    rw [habs1.bucketList hj, hbl j hj]
    rfl
  | some b =>
    right
    rw [hp] at hb
    simp only at hb
    have hz := pick_miss_free hmiss hp
    have hkey : ((selected s dev blockno (pick s L dev blockno)).buf b).dev = dev ∧
        ((selected s dev blockno (pick s L dev blockno)).buf b).blockno = blockno := by
      rcases pick_of_miss hmiss with ⟨c, hk⟩ | ⟨i, c, hk⟩ | hk
      · rw [hk] at hp ⊢
        simp only [Pick.buf?, Option.some.injEq] at hp
        subst hp
        rw [selected_buf_evict]
        exact ⟨rfl, rfl⟩
      · rw [hk] at hp ⊢
        simp only [Pick.buf?, Option.some.injEq] at hp
        subst hp
        rw [selected_buf_steal]
        exact ⟨rfl, rfl⟩
      · rw [hk] at hp; cases hp
    have hpin : ∀ c, 0 < (s.buf c).refcnt → c ≠ b := by
      intro c hc e
      rw [e, hz] at hc
      exact absurd hc (by decide)
    by_cases hlk : (s.buf b).locked = true
    · rw [if_pos hlk] at hb
      refine ⟨s1, b, Or.inr hb, hz, by rw [hs.1]; exact hkey.1, by rw [hs.1]; exact hkey.2, ?_⟩
      intro c hc
      refine ⟨by rw [hs.1]; exact selected_buf_other s dev blockno hp c (hpin c hc), ?_⟩
      intro j hj
      rw [habs1.bucketList hj, hbl j hj]
      exact mem_listsAfter hL.abs hp c j hj (hpin c hc)
    · rw [if_neg hlk] at hb
      refine ⟨held s1 b, b, Or.inl hb, hz, ?_, ?_, ?_⟩
      · rw [held_buf_self, hs.1]; exact hkey.1
      · rw [held_buf_self, hs.1]; exact hkey.2
      intro c hc
      refine ⟨?_, ?_⟩
      · rw [held_buf_other _ _ _ (hpin c hc), hs.1]
        exact selected_buf_other s dev blockno hp c (hpin c hc)
      · intro j hj
        rw [(held_abs habs1 b).bucketList hj, hbl j hj]
        exact mem_listsAfter hL.abs hp c j hj (hpin c hc)

/-- Witness of C7: with 30 buffers, after `bread(0, 12)` and `bread(0, 25)`, the key
`(0, 38)` is not in its home list. -/
theorem pin_protection_witness :
    (∃ s1, bget 30 x2 0 38 = Outcome.panic s1 "bget: no buffers" ∧ s1.buf = x2.buf ∧
      ∀ j, j < NBUCKET → bucketList 30 s1 j = bucketList 30 x2 j) ∨
    (∃ s1 b, (bget 30 x2 0 38 = Outcome.ret s1 b ∨ bget 30 x2 0 38 = Outcome.sleep s1 b) ∧
      (x2.buf b).refcnt = 0 ∧ (s1.buf b).dev = 0 ∧ (s1.buf b).blockno = 38 ∧
      ∀ c, 0 < (x2.buf c).refcnt →
        s1.buf c = x2.buf c ∧
        ∀ j, j < NBUCKET → (c ∈ bucketList 30 s1 j ↔ c ∈ bucketList 30 x2 j)) :=
  pin_protection 30 x2 ⟨_, x2_reach⟩ 0 38 (by decide)

/-- The selection is `noBuffers` exactly when the home list lacks the key and every
buffer of the pool is referenced. -/
theorem pick_noBuffers_iff {NBUF : Nat} {s : Kernel} {L : Nat → List Nat} (h : Abs NBUF s L)
    (dev blockno : Nat) :
    pick s L dev blockno = Pick.noBuffers ↔
      ((L (ihash blockno)).find? (keyIs s dev blockno) = none ∧
        ∀ b, b < NBUF → 0 < (s.buf b).refcnt) := by
  constructor
  · intro hp
    refine ⟨(pick_noBuffers hp).1, fun b hb => ?_⟩
    obtain ⟨i, hi, hm⟩ := (h.cover b).1 hb
    exact Nat.pos_of_ne_zero (pick_noBuffers_all hp i hi b hm)
  · rintro ⟨hmiss, hall⟩
    rcases pick_of_miss hmiss with ⟨b, hk⟩ | ⟨i, b, hk⟩ | hk
    · obtain ⟨hm, hz⟩ := lruFree_some (pick_evict hk).2
      have := hall b (h.mem_lt (ihash_lt blockno) hm)
      omega
    · obtain ⟨hi, _, hl⟩ := pick_steal_donor hk
      obtain ⟨hm, hz⟩ := lruFree_some hl
      have := hall b (h.mem_lt hi hm)
      omega
    · exact hk

theorem buf?_none_iff (p : Pick) : p.buf? = none ↔ p = Pick.noBuffers := by
  cases p <;> simp [Pick.buf?]

/-- C8 (exhaustion is the only failure of checkout), as the code has it: in every
reachable state and for every key, `bget` ends in `panic("bget: no buffers")` if and only
if no buffer of the home list has the key and every one of the `NBUF` buffers has
`refcnt > 0`, and so does `bread`.  In every other case neither call panics: `bget`
selects a buffer `b` of the pool, and both calls return `b` if the sleep lock of `b` is
free and sleep in `acquiresleep` if it is held. -/
theorem exhaustion (NBUF : Nat) (s : Kernel) (h : Reachable NBUF s) (dev blockno : Nat) :
    ((∃ s1, bget NBUF s dev blockno = Outcome.panic s1 "bget: no buffers") ↔
      ((bucketList NBUF s (ihash blockno)).find? (keyIs s dev blockno) = none ∧
        ∀ b, b < NBUF → 0 < (s.buf b).refcnt)) ∧
    ((∃ s1, bread NBUF s dev blockno = Outcome.panic s1 "bget: no buffers") ↔
      ((bucketList NBUF s (ihash blockno)).find? (keyIs s dev blockno) = none ∧
        ∀ b, b < NBUF → 0 < (s.buf b).refcnt)) ∧
    (¬ ((bucketList NBUF s (ihash blockno)).find? (keyIs s dev blockno) = none ∧
        ∀ b, b < NBUF → 0 < (s.buf b).refcnt) →
      ∃ b, b < NBUF ∧
        ((s.buf b).locked = false →
          ∃ s1 s2, bget NBUF s dev blockno = Outcome.ret s1 b ∧
            bread NBUF s dev blockno = Outcome.ret s2 b) ∧
        ((s.buf b).locked = true →
          ∃ s1, bget NBUF s dev blockno = Outcome.sleep s1 b ∧
            bread NBUF s dev blockno = Outcome.sleep s1 b)) := by
  obtain ⟨R, hR⟩ := h
  obtain ⟨L, hL⟩ := hR.inv
  rw [hL.abs.bucketList (ihash_lt blockno), ← pick_noBuffers_iff hL.abs dev blockno]
  obtain ⟨s1, hs, hb⟩ := bget_outcome hL.abs dev blockno
  have hbr := bread_eq NBUF s dev blockno
  cases hp : (pick s L dev blockno).buf? with
  | none =>
    have hk := (buf?_none_iff _).1 hp
    rw [hp] at hb
    simp only at hb
    rw [hb] at hbr
    exact ⟨⟨fun _ => hk, fun _ => ⟨s1, hb⟩⟩, ⟨fun _ => hk, fun _ => ⟨s1, hbr⟩⟩,
      fun hn => absurd hk hn⟩
  | some b =>
    have hk : pick s L dev blockno ≠ Pick.noBuffers := by
      intro e; rw [e] at hp; cases hp
    rw [hp] at hb
    simp only at hb
    obtain ⟨i, hi, hm⟩ := pick_buf_mem hp
    refine ⟨⟨?_, fun e => absurd e hk⟩, ⟨?_, fun e => absurd e hk⟩, fun _ => ?_⟩
    · rintro ⟨s2, h2⟩
      rw [h2] at hb
      by_cases hlk : (s.buf b).locked = true
      · rw [if_pos hlk] at hb; cases hb
      · rw [if_neg hlk] at hb; cases hb
    · rintro ⟨s2, h2⟩
      rw [h2, hb] at hbr
      by_cases hlk : (s.buf b).locked = true
      · rw [if_pos hlk] at hbr; cases hbr
      · rw [if_neg hlk] at hbr; cases hbr
    · refine ⟨b, hL.abs.mem_lt hi hm, ?_, ?_⟩
      · intro hlk
        rw [if_neg (by rw [hlk]; simp)] at hb
        rw [hb] at hbr
        exact ⟨_, _, hb, hbr⟩
      · intro hlk
        rw [if_pos hlk] at hb
        rw [hb] at hbr
        exact ⟨_, hb, hbr⟩

/-- Counterexample to C8 as stated: with 30 buffers, after `bread(0, 0)` has returned
buffer 26, the state is reachable, the key `(0, 0)` is cached (buffer 26, in its home
list, in use and valid) and buffer 0 has `refcnt = 0`; yet a second `bread(0, 0)` does
not return a buffer: `bget` finds buffer 26, whose sleep lock is held, and sleeps in
`acquiresleep`. -/
theorem exhaustion_counterexample :
    Reachable 30 w1 ∧
    (26 ∈ bucketList 30 w1 (ihash 0) ∧ keyOf w1 26 = (0, 0) ∧ cached w1 26) ∧
    (w1.buf 0).refcnt = 0 ∧
    (bget 30 w1 0 0).isSleep = true ∧ (bread 30 w1 0 0).isSleep = true ∧
    (¬ ∃ s1 b, bget 30 w1 0 0 = Outcome.ret s1 b) ∧
    (¬ ∃ s1 b, bread 30 w1 0 0 = Outcome.ret s1 b) :=
  ⟨⟨_, w1_reach⟩, ⟨by decide, by decide, Or.inl (by decide)⟩, by decide, by decide,
    by decide, not_ret_of_isSleep (by decide), not_ret_of_isSleep (by decide)⟩

/-- Witness of C8: the state after `bread(0, 0)` on a pool of 30 buffers, key `(0, 13)`. -/
theorem exhaustion_witness :
    ((∃ s1, bget 30 w1 0 13 = Outcome.panic s1 "bget: no buffers") ↔
      ((bucketList 30 w1 (ihash 13)).find? (keyIs w1 0 13) = none ∧
        ∀ b, b < 30 → 0 < (w1.buf b).refcnt)) ∧
    ((∃ s1, bread 30 w1 0 13 = Outcome.panic s1 "bget: no buffers") ↔
      ((bucketList 30 w1 (ihash 13)).find? (keyIs w1 0 13) = none ∧
        ∀ b, b < 30 → 0 < (w1.buf b).refcnt)) ∧
    (¬ ((bucketList 30 w1 (ihash 13)).find? (keyIs w1 0 13) = none ∧
        ∀ b, b < 30 → 0 < (w1.buf b).refcnt) →
      ∃ b, b < 30 ∧
        ((w1.buf b).locked = false →
          ∃ s1 s2, bget 30 w1 0 13 = Outcome.ret s1 b ∧
            bread 30 w1 0 13 = Outcome.ret s2 b) ∧
        ((w1.buf b).locked = true →
          ∃ s1, bget 30 w1 0 13 = Outcome.sleep s1 b ∧
            bread 30 w1 0 13 = Outcome.sleep s1 b)) :=
  exhaustion 30 w1 ⟨_, w1_reach⟩ 0 13

/-! ## The postcondition of `bread` -/

theorem inc32_lt (x : Nat) : inc32 x < 4294967296 := Nat.mod_lt _ (by decide)

theorem dec32_lt (x : Nat) : dec32 x < 4294967296 := Nat.mod_lt _ (by decide)

/-- The reference count of the buffer `bread` returns: incremented on a hit, 1 otherwise. -/
theorem bread_ret_refcnt {NBUF : Nat} {s s1 : Kernel} {L : Nat → List Nat} (h : Abs NBUF s L)
    {dev blockno b : Nat} (hr : bread NBUF s dev blockno = Outcome.ret s1 b) :
    ((L (ihash blockno)).find? (keyIs s dev blockno) = some b ∧
        (s1.buf b).refcnt = inc32 (s.buf b).refcnt) ∨
    ((L (ihash blockno)).find? (keyIs s dev blockno) = none ∧ (s1.buf b).refcnt = 1) := by
  obtain ⟨hp, _, hs⟩ := bread_ret h hr
  rw [hs.1]
  cases hk : pick s L dev blockno with
  | noBuffers => rw [hk] at hp; cases hp
  | hit c =>
    rw [hk] at hp
    simp only [Pick.buf?, Option.some.injEq] at hp
    subst hp
    rw [post_buf_hit]
    exact Or.inl ⟨pick_hit hk, rfl⟩
  | evict c =>
    rw [hk] at hp
    simp only [Pick.buf?, Option.some.injEq] at hp
    subst hp
    rw [post_buf_evict]
    exact Or.inr ⟨(pick_evict hk).1, rfl⟩
  | steal i c =>
    rw [hk] at hp
    simp only [Pick.buf?, Option.some.injEq] at hp
    subst hp
    rw [post_buf_steal]
    exact Or.inr ⟨(pick_steal hk).1, rfl⟩

/-- In every reachable state every reference count is a 32-bit value. -/
theorem Reach.refcnt_lt {NBUF : Nat} {s : Kernel} {R : List Nat} (h : Reach NBUF s R) :
    ∀ c, (s.buf c).refcnt < 4294967296 := by
  induction h with
  | init disk => intro c; rw [binit_buf]; exact Nat.zero_lt_succ _
  | @bread s s1 R b dev blockno hr hb ih =>
    obtain ⟨L, hL⟩ := hr.inv
    intro c
    by_cases hc : c = b
    · subst hc
      rcases bread_ret_refcnt hL.abs hb with ⟨_, e⟩ | ⟨_, e⟩
      · rw [e]; exact inc32_lt _
      · rw [e]; show (1 : Nat) < 4294967296; decide
    · rw [bread_ret_other hL.abs hb c hc]; exact ih c
  | bwrite _ _ hw ih =>
    obtain ⟨_, rfl⟩ := bwrite_ret hw
    exact ih
  | @brelse s s1 R b _ _ hw ih =>
    obtain ⟨_, hbuf, _⟩ := brelse_ret hw
    intro c
    rw [hbuf]
    by_cases hc : c = b
    · subst hc; rw [upd_same]; exact dec32_lt _
    · rw [upd_other _ _ _ _ hc]; exact ih c
  | @bpin s R b _ _ ih =>
    intro c
    by_cases hc : c = b
    · subst hc
      simp only [Bcache.bpin, release, acquire, incRef, emit, setBuf, ↓reduceIte]
      exact inc32_lt _
    · simp only [Bcache.bpin, release, acquire, incRef, emit, setBuf, hc, ↓reduceIte]
      exact ih c
  | @bunpin s R b _ _ ih =>
    intro c
    by_cases hc : c = b
    · subst hc
      simp only [Bcache.bunpin, release, acquire, decRef, emit, setBuf, ↓reduceIte]
      exact dec32_lt _
    · simp only [Bcache.bunpin, release, acquire, decRef, emit, setBuf, hc, ↓reduceIte]
      exact ih c
  | @store s R b d _ _ _ ih =>
    intro c
    by_cases hc : c = b
    · subst hc
      simp only [setData, setBuf, ↓reduceIte]
      exact ih c
    · simp only [setData, setBuf, hc, ↓reduceIte]
      exact ih c

/-- What a returning `bget` leaves behind. -/
theorem bget_ret {NBUF : Nat} {s sg : Kernel} {L : Nat → List Nat} (h : Abs NBUF s L)
    {dev blockno b : Nat} (hr : bget NBUF s dev blockno = Outcome.ret sg b) :
    (pick s L dev blockno).buf? = some b ∧ (s.buf b).locked = false ∧
      Sim sg (held (selected s dev blockno (pick s L dev blockno)) b) := by
  obtain ⟨s1, hs, hb⟩ := bget_outcome h dev blockno
  rw [hr] at hb
  cases hp : (pick s L dev blockno).buf? with
  | none => rw [hp] at hb; cases hb
  | some b0 =>
    rw [hp] at hb
    simp only at hb
    by_cases hlk : (s.buf b0).locked = true
    · rw [if_pos hlk] at hb; cases hb
    · rw [if_neg hlk] at hb
      cases hb
      exact ⟨rfl, by simpa using hlk, hs.held _⟩

theorem diskReads_filled (s : Kernel) (b : Nat) :
    ((s.buf b).valid = 0 → diskReads (filled s b) = diskReads s + 1) ∧
    ((s.buf b).valid ≠ 0 → diskReads (filled s b) = diskReads s) := by
  constructor
  · intro hv
    unfold filled virtio_disk_rw
    rw [if_pos hv]
    simp [diskReads, setBuf, emit, List.countP_append, Event.isRead]
  · intro hv
    unfold filled
    rw [if_neg hv]

theorem diskReads_held (s : Kernel) (b : Nat) : diskReads (held s b) = diskReads s := by
  simp [diskReads, held, setBuf, emit, List.countP_append, Event.isRead]

theorem Sim.diskReads {s1 s2 : Kernel} (h : Sim s1 s2) : diskReads s1 = diskReads s2 := by
  rw [diskReads_ioLog, diskReads_ioLog, h.2.2.2.2]

theorem selected_log (s : Kernel) (dev blockno : Nat) (p : Pick) :
    (selected s dev blockno p).log = s.log := by
  cases p <;> rfl

/-- C9 (postcondition of `bread`), as the code has it: in a reachable state, whenever
`bget(dev, blockno)` returns a buffer `b` (it neither panics nor sleeps on a held sleep
lock), `bread(dev, blockno)` returns the same `b` with `b.dev = dev`,
`b.blockno = blockno`, `b.valid = 1`, the sleep lock held and the `refcnt` that `bget`
left, which is at least 1 unless the buffer had `refcnt = 2^32 - 1` before the call.
`bread` performs the disk read exactly once if the buffer returned by `bget` had
`valid = 0`, which is so on every miss, and not at all if it had `valid = 1`. -/
theorem bread_post (NBUF : Nat) (s : Kernel) (h : Reachable NBUF s) (dev blockno : Nat)
    (sg : Kernel) (b : Nat) (hg : bget NBUF s dev blockno = Outcome.ret sg b) :
    ∃ s1, bread NBUF s dev blockno = Outcome.ret s1 b ∧
      (s1.buf b).dev = dev ∧ (s1.buf b).blockno = blockno ∧ (s1.buf b).valid = 1 ∧
      (s1.buf b).locked = true ∧ (s1.buf b).refcnt = (sg.buf b).refcnt ∧
      ((s.buf b).refcnt ≠ 4294967295 → 1 ≤ (s1.buf b).refcnt) ∧
      ((sg.buf b).valid = 0 ∨ (sg.buf b).valid = 1) ∧
      ((sg.buf b).valid = 0 → diskReads s1 = diskReads s + 1) ∧
      ((sg.buf b).valid = 1 → diskReads s1 = diskReads s) ∧
      ((bucketList NBUF s (ihash blockno)).find? (keyIs s dev blockno) = none →
        (sg.buf b).valid = 0) := by
  obtain ⟨R, hR⟩ := h
  obtain ⟨L, hL⟩ := hR.inv
  have hbr := bread_eq NBUF s dev blockno
  rw [hg] at hbr
  simp only at hbr
  obtain ⟨hp, hlk, hs⟩ := bget_ret hL.abs hg
  obtain ⟨hdev, hblk, hlocked, _, hv1⟩ := bread_ret_self hL.abs hbr
  have hval := hv1 (hL.bool b)
  have hrl := hR.refcnt_lt b
  have hsgr : diskReads sg = diskReads s := by
    rw [hs.diskReads, diskReads_held]
    unfold diskReads
    rw [selected_log]
  have hfill := filled_buf_self sg b
  -- the buffer as `bget` returned it
  have hsg : sg.buf b = { (selected s dev blockno (pick s L dev blockno)).buf b with
      locked := true } := by
    rw [hs.1, held_buf_self]
  have hcases : ((L (ihash blockno)).find? (keyIs s dev blockno) = some b ∧
        (sg.buf b).valid = (s.buf b).valid ∧ (sg.buf b).refcnt = inc32 (s.buf b).refcnt) ∨
      ((L (ihash blockno)).find? (keyIs s dev blockno) = none ∧
        (sg.buf b).valid = 0 ∧ (sg.buf b).refcnt = 1) := by
    cases hk : pick s L dev blockno with
    | noBuffers => rw [hk] at hp; cases hp
    | hit c =>
      rw [hk] at hp hsg
      simp only [Pick.buf?, Option.some.injEq] at hp
      subst hp
      rw [selected_buf_hit] at hsg
      rw [hsg]
      exact Or.inl ⟨pick_hit hk, rfl, rfl⟩
    | evict c =>
      rw [hk] at hp hsg
      simp only [Pick.buf?, Option.some.injEq] at hp
      subst hp
      rw [selected_buf_evict] at hsg
      rw [hsg]
      exact Or.inr ⟨(pick_evict hk).1, rfl, rfl⟩
    | steal i c =>
      rw [hk] at hp hsg
      simp only [Pick.buf?, Option.some.injEq] at hp
      subst hp
      rw [selected_buf_steal] at hsg
      rw [hsg]
      exact Or.inr ⟨(pick_steal hk).1, rfl, rfl⟩
  have hvsg : (sg.buf b).valid = 0 ∨ (sg.buf b).valid = 1 := by
    rcases hcases with ⟨_, e, _⟩ | ⟨_, e, _⟩
    · rw [e]
      have := hL.bool b
      omega
    · exact Or.inl e
  have hrc : ((filled sg b).buf b).refcnt = (sg.buf b).refcnt := by
    rw [hfill]
    by_cases hv : (sg.buf b).valid = 0
    · rw [if_pos hv]
    · rw [if_neg hv]
  refine ⟨filled sg b, hbr, hdev, hblk, hval, hlocked, hrc, ?_, hvsg, ?_, ?_, ?_⟩
  · intro hne
    rw [hrc]
    rcases hcases with ⟨_, _, e⟩ | ⟨_, _, e⟩
    · rw [e]
      unfold inc32
      omega
    · rw [e]
  · intro hv
    rw [(diskReads_filled sg b).1 hv, hsgr]
  · intro hv
    rw [(diskReads_filled sg b).2 (by rw [hv]; decide), hsgr]
  · intro hmiss
    rw [hL.abs.bucketList (ihash_lt blockno)] at hmiss
    rcases hcases with ⟨e, _, _⟩ | ⟨_, e, _⟩
    · rw [e] at hmiss; cases hmiss
    · exact e

theorem y3_reach : Reach 30 y3 [26] := by
  have h1 : brelse w1 26 = Outcome.ret y2 () := by rfl
  exact Reach.bunpin (Reach.brelse w1_reach (List.mem_cons_self _ _) h1)
    (List.mem_cons_self _ _)

/-- Witness of C9: `bget(0, 0)` right after `binit` with 30 buffers returns buffer 26. -/
theorem bread_post_witness :
    ∃ s1, bread 30 w0 0 0 = Outcome.ret s1 26 ∧
      (s1.buf 26).dev = 0 ∧ (s1.buf 26).blockno = 0 ∧ (s1.buf 26).valid = 1 ∧
      (s1.buf 26).locked = true ∧
      (s1.buf 26).refcnt = (((bget 30 w0 0 0).stateD w0).buf 26).refcnt ∧
      ((w0.buf 26).refcnt ≠ 4294967295 → 1 ≤ (s1.buf 26).refcnt) ∧
      ((((bget 30 w0 0 0).stateD w0).buf 26).valid = 0 ∨
        (((bget 30 w0 0 0).stateD w0).buf 26).valid = 1) ∧
      ((((bget 30 w0 0 0).stateD w0).buf 26).valid = 0 → diskReads s1 = diskReads w0 + 1) ∧
      ((((bget 30 w0 0 0).stateD w0).buf 26).valid = 1 → diskReads s1 = diskReads w0) ∧
      ((bucketList 30 w0 (ihash 0)).find? (keyIs w0 0 0) = none →
        (((bget 30 w0 0 0).stateD w0).buf 26).valid = 0) :=
  bread_post 30 w0 ⟨_, w0_reach⟩ 0 0 ((bget 30 w0 0 0).stateD w0) 26 (by rfl)

/-- Counterexample to C9 as stated, with 30 buffers.  First: after `bread(0, 0)` has
returned buffer 26, `bget(0, 0)` does not panic, yet `bread(0, 0)` returns no buffer; it
sleeps on the held sleep lock of buffer 26.  Second: after `bread(0, 0)`, `brelse` and
`bunpin` of buffer 26 the reference count of buffer 26 is `2^32 - 1`; `bread(0, 0)`
then returns buffer 26 with `refcnt = 0`, not `refcnt >= 1`. -/
theorem bread_post_counterexample :
    (Reachable 30 w1 ∧ (bget 30 w1 0 0).isPanic = false ∧
      ¬ ∃ s1 b, bread 30 w1 0 0 = Outcome.ret s1 b) ∧
    (Reachable 30 y3 ∧ (y3.buf 26).refcnt = 4294967295 ∧
      ∃ s1, bread 30 y3 0 0 = Outcome.ret s1 26 ∧ (s1.buf 26).refcnt = 0) :=
  ⟨⟨⟨_, w1_reach⟩, by decide, not_ret_of_isSleep (by decide)⟩,
   ⟨⟨_, y3_reach⟩, by decide, ⟨(bread 30 y3 0 0).stateD w0, by rfl, by decide⟩⟩⟩

/-! ## Cached content and the disk -/

theorem ReachW.reach {NBUF : Nat} {s : Kernel} {R : List Nat} (h : ReachW NBUF s R) :
    Reach NBUF s R := by
  induction h with
  | init disk => exact Reach.init disk
  | bread dev blockno _ hb ih => exact Reach.bread dev blockno ih hb
  | bwrite _ hm hw ih => exact Reach.bwrite ih hm hw
  | brelse _ hm _ hw ih => exact Reach.brelse ih hm hw
  | bpin _ hm ih => exact Reach.bpin ih hm
  | bunpin _ hm ih => exact Reach.bunpin ih hm
  | store d _ hm hl ih => exact Reach.store d ih hm hl

theorem ReachW.clean {NBUF : Nat} {s : Kernel} {R : List Nat} (h : ReachW NBUF s R) :
    Clean NBUF s := by
  induction h with
  | init disk =>
    intro c _ hv
    rw [binit_buf] at hv
    exact absurd rfl hv
  | @bread s s1 R b dev blockno hr hb ih =>
    obtain ⟨L, hL⟩ := hr.reach.inv
    intro c hc hv hl
    by_cases hcb : c = b
    · subst hcb
      rw [(bread_ret_self hL.abs hb).2.2.1] at hl
      cases hl
    · rw [bread_ret_other hL.abs hb c hcb] at hv hl ⊢
      rw [bread_ret_disk hL.abs hb]
      exact ih c hc hv hl
  | @bwrite s s1 R b hr hm hw ih =>
    obtain ⟨L, hL⟩ := hr.reach.inv
    obtain ⟨hlk, rfl⟩ := bwrite_ret hw
    obtain ⟨hbn, hbv⟩ := hL.ret b hm
    intro c hc hv hl
    have hbuf : (virtio_disk_rw s b true).buf = s.buf := rfl
    rw [hbuf] at hv hl ⊢
    have hcb : c ≠ b := by
      intro e
      rw [e, hlk] at hl
      cases hl
    have hkey : ¬ ((s.buf c).dev = (s.buf b).dev ∧ (s.buf c).blockno = (s.buf b).blockno) :=
      fun hk => hcb (hL.unique hc hbn hv hbv hk.1 hk.2)
    have hdisk : (virtio_disk_rw s b true).disk (s.buf c).dev (s.buf c).blockno
        = s.disk (s.buf c).dev (s.buf c).blockno := by
      simp only [virtio_disk_rw, emit, ↓reduceIte]
      rw [if_neg hkey]
    rw [hdisk]
    exact ih c hc hv hl
  | @brelse s s1 R b hr hm hd hw ih =>
    obtain ⟨_, hbuf, hdisk, _⟩ := brelse_ret hw
    intro c hc hv hl
    rw [hdisk]
    by_cases hcb : c = b
    · subst hcb
      rw [hbuf, upd_same]
      exact hd
    · rw [hbuf, upd_other _ _ _ _ hcb] at hv hl ⊢
      exact ih c hc hv hl
  | @bpin s R b hr hm ih =>
    intro c hc hv hl
    obtain ⟨e1, e2, e3, e4, e5⟩ := bpin_buf s b c
    rw [e3] at hv
    rw [e5] at hl
    rw [e1, e2, e4]
    exact ih c hc hv hl
  | @bunpin s R b hr hm ih =>
    intro c hc hv hl
    obtain ⟨e1, e2, e3, e4, e5⟩ := bunpin_buf s b c
    rw [e3] at hv
    rw [e5] at hl
    rw [e1, e2, e4]
    exact ih c hc hv hl
  | @store s R b d hr hm hlk ih =>
    intro c hc hv hl
    have hcb : c ≠ b := by
      intro e
      subst e
      simp only [setData, setBuf, ↓reduceIte] at hl
      rw [hlk] at hl
      cases hl
    have e : (setData s b d).buf c = s.buf c := by simp [setData, setBuf, hcb]
    rw [e] at hv hl ⊢
    exact ih c hc hv hl

/-- The data of the buffer `bread` returns: read from the disk if the buffer had no
valid content, else the data the buffer had. -/
theorem bread_ret_data {NBUF : Nat} {s s1 : Kernel} {L : Nat → List Nat} (h : Abs NBUF s L)
    {dev blockno b : Nat} (hr : bread NBUF s dev blockno = Outcome.ret s1 b) :
    (s1.buf b).data = s.disk dev blockno ∨
    ((s.buf b).valid ≠ 0 ∧ (s.buf b).dev = dev ∧ (s.buf b).blockno = blockno ∧
      (s1.buf b).data = (s.buf b).data) := by
  obtain ⟨hp, _, hs⟩ := bread_ret h hr
  rw [hs.1]
  cases hk : pick s L dev blockno with
  | noBuffers => rw [hk] at hp; cases hp
  | hit c =>
    rw [hk] at hp
    simp only [Pick.buf?, Option.some.injEq] at hp
    subst hp
    have hkey := List.find?_some (pick_hit hk)
    simp only [keyIs, decide_eq_true_eq] at hkey
    rw [post_buf_hit]
    by_cases hv : (s.buf c).valid = 0
    · left
      show (if (s.buf c).valid = 0 then s.disk (s.buf c).dev (s.buf c).blockno
        else (s.buf c).data) = _
      rw [if_pos hv, hkey.1, hkey.2]
    · right
      refine ⟨hv, hkey.1, hkey.2, ?_⟩
      show (if (s.buf c).valid = 0 then s.disk (s.buf c).dev (s.buf c).blockno
        else (s.buf c).data) = _
      rw [if_neg hv]
  | evict c =>
    rw [hk] at hp
    simp only [Pick.buf?, Option.some.injEq] at hp
    subst hp
    rw [post_buf_evict]
    exact Or.inl rfl
  | steal i c =>
    rw [hk] at hp
    simp only [Pick.buf?, Option.some.injEq] at hp
    subst hp
    rw [post_buf_steal]
    exact Or.inl rfl

/-- C10 (content reflects persisted state), as the code has it: the disk is a map from
`(dev, blockno)` to block contents that only `virtio_disk_rw(b, 1)` updates.  In every
state reached by callers that release a buffer only when its data equals its disk block
(every store into the buffer has been followed by `bwrite`), the buffer returned by
`bread(dev, blockno)` has data equal to the disk's current contents of block
`(dev, blockno)`. -/
theorem content_persisted (NBUF : Nat) (s : Kernel) (R : List Nat) (h : ReachW NBUF s R)
    (dev blockno : Nat) (s1 : Kernel) (b : Nat)
    (hb : bread NBUF s dev blockno = Outcome.ret s1 b) :
    (s1.buf b).data = s1.disk dev blockno := by
  obtain ⟨L, hL⟩ := h.reach.inv
  rw [bread_ret_disk hL.abs hb]
  obtain ⟨hp, hlk, _⟩ := bread_ret hL.abs hb
  obtain ⟨i, hi, hm⟩ := pick_buf_mem hp
  rcases bread_ret_data hL.abs hb with e | ⟨hv, hd, hn, e⟩
  · exact e
  · rw [e, h.clean b (hL.abs.mem_lt hi hm) hv hlk, hd, hn]

/-- Witness of C10: `bread(0, 0)` right after `binit` with 30 buffers. -/
theorem content_persisted_witness : (w1.buf 26).data = w1.disk 0 0 :=
  content_persisted 30 w0 [] (ReachW.init wDisk) 0 0 w1 26 w1_bread

theorem z3_reach : Reach 30 z3 [26] := by
  have h1 : brelse z2 26 = Outcome.ret z3 () := by rfl
  exact Reach.brelse (Reach.store [7] w1_reach (List.mem_cons_self _ _) (by decide))
    (List.mem_cons_self _ _) h1

/-- Counterexample to C10 as stated: with 30 buffers and block `(0, 0)` holding the bytes
`0, 0` on the disk, after `bread(0, 0)` has returned buffer 26, its holder stores the byte
7 into the data and calls `brelse` without `bwrite`.  The state is reachable, and the next
`bread(0, 0)` returns buffer 26 with data `[7]`, while the disk still holds `[0, 0]`. -/
theorem content_persisted_counterexample :
    Reachable 30 z3 ∧
    ∃ s1, bread 30 z3 0 0 = Outcome.ret s1 26 ∧ (s1.buf 26).data = [7] ∧
      s1.disk 0 0 = [0, 0] ∧ (s1.buf 26).data ≠ s1.disk 0 0 :=
  ⟨⟨_, z3_reach⟩, (bread 30 z3 0 0).stateD w0, by rfl, by decide, by decide, by decide⟩


/-! ## The postcondition of `brelse` -/

theorem moveL_self (L : Nat → List Nat) (i b : Nat) :
    moveL L i i b i = b :: (L i).erase b := by
  unfold moveL
  rw [upd_same, upd_same]

theorem moveL_self_other (L : Nat → List Nat) {i j : Nat} (b : Nat) (h : j ≠ i) :
    moveL L i i b j = L j := by
  unfold moveL
  rw [upd_other _ _ _ _ h, upd_other _ _ _ _ h]

theorem dec32_pos {x : Nat} (h0 : 0 < x) (h : x < 4294967296) : dec32 x + 1 = x := by
  unfold dec32
  omega

/-- C11 (postcondition of `brelse`), as the code has it: in a reachable state let `b` be
a buffer `bread` has returned whose sleep lock is held.  Then `brelse(b)` returns; it
releases the sleep lock and decrements `b->refcnt` by one as a `uint`: by one when
`refcnt > 0`, and from 0 round to `2^32 - 1`.  If the new `refcnt` is 0, `b` becomes the
first element of the list of the bucket it was in, the other buffers of that list keep
their order and all other lists are unchanged; if the new `refcnt` is `> 0`, every list
is as it was.  No buffer changes its `dev`, `blockno`, `valid` or `data`, and no buffer
but `b` changes at all. -/
theorem brelse_post (NBUF : Nat) (s : Kernel) (R : List Nat) (h : Reach NBUF s R) (b : Nat)
    (hb : b ∈ R) (hl : (s.buf b).locked = true) :
    ∃ s1, brelse s b = Outcome.ret s1 () ∧
      (s1.buf b).locked = false ∧
      (s1.buf b).refcnt = dec32 (s.buf b).refcnt ∧
      (0 < (s.buf b).refcnt → (s1.buf b).refcnt + 1 = (s.buf b).refcnt) ∧
      ((s.buf b).refcnt = 0 → (s1.buf b).refcnt = 4294967295) ∧
      b ∈ bucketList NBUF s (ihash (s.buf b).blockno) ∧
      ((s1.buf b).refcnt = 0 →
        bucketList NBUF s1 (ihash (s.buf b).blockno)
          = b :: (bucketList NBUF s (ihash (s.buf b).blockno)).erase b ∧
        ∀ j, j < NBUCKET → j ≠ ihash (s.buf b).blockno →
          bucketList NBUF s1 j = bucketList NBUF s j) ∧
      (0 < (s1.buf b).refcnt → ∀ j, j < NBUCKET → bucketList NBUF s1 j = bucketList NBUF s j) ∧
      (∀ c, (s1.buf c).dev = (s.buf c).dev ∧ (s1.buf c).blockno = (s.buf c).blockno ∧
        (s1.buf c).valid = (s.buf c).valid ∧ (s1.buf c).data = (s.buf c).data) ∧
      (∀ c, c ≠ b → s1.buf c = s.buf c) := by
  obtain ⟨L, hL⟩ := h.inv
  have hlt := h.refcnt_lt b
  obtain ⟨s1, hr⟩ : ∃ s1, brelse s b = Outcome.ret s1 () := by
    rw [brelse_eq, if_neg (by rw [hl]; exact Bool.noConfusion)]
    exact ⟨_, rfl⟩
  obtain ⟨_, hbuf, _, _, _, _⟩ := brelse_ret hr
  have hinv := hL.brelse hb hr
  obtain ⟨hbn, hbv⟩ := hL.ret b hb
  have hself : s1.buf b = { s.buf b with locked := false, refcnt := dec32 (s.buf b).refcnt } := by
    rw [hbuf, upd_same]
  have hrc : (s1.buf b).refcnt = dec32 (s.buf b).refcnt := by rw [hself]
  have hbl : ∀ j, j < NBUCKET → bucketList NBUF s j = L j := fun j hj => hL.abs.bucketList hj
  refine ⟨s1, hr, by rw [hself], hrc, ?_, ?_, ?_, ?_, ?_, ?_, ?_⟩
  · intro h0; rw [hrc]; exact dec32_pos h0 hlt
  · intro h0; rw [hrc, h0]; rfl
  · rw [hbl _ (ihash_lt _)]; exact hL.home hbn hbv
  · intro hz
    rw [hrc] at hz
    rw [if_pos hz] at hinv
    refine ⟨?_, ?_⟩
    · rw [hinv.abs.bucketList (ihash_lt _), hbl _ (ihash_lt _), moveL_self]
    · intro j hj hne
      rw [hinv.abs.bucketList hj, hbl j hj, moveL_self_other L b hne]
  · intro hpos j hj
    rw [hrc] at hpos
    rw [if_neg (Nat.pos_iff_ne_zero.1 hpos)] at hinv
    rw [hinv.abs.bucketList hj, hbl j hj]
  · intro c
    rw [hbuf]
    by_cases hc : c = b
    · subst hc; rw [upd_same]; exact ⟨rfl, rfl, rfl, rfl⟩
    · rw [upd_other _ _ _ _ hc]; exact ⟨rfl, rfl, rfl, rfl⟩
  · intro c hc
    rw [hbuf, upd_other _ _ _ _ hc]

theorem x5_brelse : brelse x4 0 = Outcome.ret x5 () := by rfl

theorem x5_reach : Reach 30 x5 [0, 25, 12] :=
  Reach.brelse x4_reach (List.mem_cons_self _ _) x5_brelse

/-- Counterexample to C11 as stated: with 30 buffers, after `bread(0, 12)`, `bread(0, 25)`
and `bread(0, 13)`, which returns buffer 0, and `bunpin` of buffer 0, the state is
reachable, buffer 0 was returned by `bread`, its sleep lock is held and its `refcnt` is 0.
`brelse` of buffer 0 returns with `refcnt = 2^32 - 1`: the count is not one less than
before. -/
theorem brelse_post_counterexample :
    Reach 30 x4 [0, 25, 12] ∧ 0 ∈ [0, 25, 12] ∧ (x4.buf 0).locked = true ∧
    (x4.buf 0).refcnt = 0 ∧
    ∃ s1, brelse x4 0 = Outcome.ret s1 () ∧ (s1.buf 0).refcnt = 4294967295 ∧
      (s1.buf 0).refcnt + 1 ≠ (x4.buf 0).refcnt :=
  ⟨x4_reach, by decide, by rfl, by rfl, x5, x5_brelse, by rfl, by decide⟩

/-- Witness of C11: `brelse` of buffer 26 after `bread(0, 0)` has returned it, on a pool
of 30 buffers. -/
theorem brelse_post_witness :
    ∃ s1, brelse w1 26 = Outcome.ret s1 () ∧
      (s1.buf 26).locked = false ∧
      (s1.buf 26).refcnt = dec32 (w1.buf 26).refcnt ∧
      (0 < (w1.buf 26).refcnt → (s1.buf 26).refcnt + 1 = (w1.buf 26).refcnt) ∧
      ((w1.buf 26).refcnt = 0 → (s1.buf 26).refcnt = 4294967295) ∧
      26 ∈ bucketList 30 w1 (ihash (w1.buf 26).blockno) ∧
      ((s1.buf 26).refcnt = 0 →
        bucketList 30 s1 (ihash (w1.buf 26).blockno)
          = 26 :: (bucketList 30 w1 (ihash (w1.buf 26).blockno)).erase 26 ∧
        ∀ j, j < NBUCKET → j ≠ ihash (w1.buf 26).blockno →
          bucketList 30 s1 j = bucketList 30 w1 j) ∧
      (0 < (s1.buf 26).refcnt → ∀ j, j < NBUCKET → bucketList 30 s1 j = bucketList 30 w1 j) ∧
      (∀ c, (s1.buf c).dev = (w1.buf c).dev ∧ (s1.buf c).blockno = (w1.buf c).blockno ∧
        (s1.buf c).valid = (w1.buf c).valid ∧ (s1.buf c).data = (w1.buf c).data) ∧
      (∀ c, c ≠ 26 → s1.buf c = w1.buf c) :=
  brelse_post 30 w1 [26] w1_reach 26 (List.mem_cons_self _ _) (by rfl)


/-! ## `bpin` and `bunpin` -/

theorem bpin_eq (s : Kernel) (b : Nat) :
    (bpin s b).buf = upd s.buf b { s.buf b with refcnt := inc32 (s.buf b).refcnt } ∧
      (bpin s b).next = s.next ∧ (bpin s b).prev = s.prev ∧ (bpin s b).disk = s.disk ∧
      (bpin s b).log = s.log ++ [Event.acquire (Lock.bucket (ihash (s.buf b).blockno)),
        Event.release (Lock.bucket (ihash (s.buf b).blockno))] := by
  refine ⟨?_, rfl, rfl, rfl, ?_⟩
  · funext c
    by_cases hc : c = b <;> simp [Bcache.bpin, release, acquire, incRef, emit, setBuf, upd, hc]
  · simp [Bcache.bpin, release, acquire, incRef, emit, setBuf]

theorem bunpin_eq (s : Kernel) (b : Nat) :
    (bunpin s b).buf = upd s.buf b { s.buf b with refcnt := dec32 (s.buf b).refcnt } ∧
      (bunpin s b).next = s.next ∧ (bunpin s b).prev = s.prev ∧ (bunpin s b).disk = s.disk ∧
      (bunpin s b).log = s.log ++ [Event.acquire (Lock.bucket (ihash (s.buf b).blockno)),
        Event.release (Lock.bucket (ihash (s.buf b).blockno))] := by
  refine ⟨?_, rfl, rfl, rfl, ?_⟩
  · funext c
    by_cases hc : c = b <;> simp [Bcache.bunpin, release, acquire, decRef, emit, setBuf, upd, hc]
  · simp [Bcache.bunpin, release, acquire, decRef, emit, setBuf]

theorem bucketList_congr (NBUF : Nat) {s s1 : Kernel} (h : s1.next = s.next) (j : Nat) :
    bucketList NBUF s1 j = bucketList NBUF s j := by
  have hw : ∀ (fuel : Nat) (p : Ptr), walk s1 j fuel p = walk s j fuel p := by
    intro fuel
    induction fuel with
    | zero => intro p; rfl
    | succ n ih =>
      intro p
      cases p with
      | buf c => simp only [walk, h, ih]
      | null => simp only [walk]
      | head i => simp only [walk]
  unfold bucketList
  rw [h, hw]

theorem dec32_inc32 {x : Nat} (h : x < 4294967296) : dec32 (inc32 x) = x := by
  unfold dec32 inc32
  omega

theorem inc32_small {x : Nat} (h : x < 4294967295) : inc32 x = x + 1 := by
  unfold inc32
  omega

/-- C14 (pin/unpin frame), as the code has it: in a reachable state, for every buffer `b`
(the buffers `bread` has returned among them), `bpin(b)` increments `b->refcnt` as a
`uint`, by exactly one when `refcnt < 2^32 - 1`, and `bunpin(b)`, when `refcnt > 0`,
decreases it by exactly one.  Neither changes anything else: the sleep lock, `dev`,
`blockno`, `valid` and `data` of `b`, every other buffer, the disk and every pointer, so
the membership and order of every bucket list, are as before, also when `bunpin` brings
`refcnt` to 0.  `bpin(b)` followed by `bunpin(b)` restores the buffers, the pointers and
the disk. -/
theorem pin_frame (NBUF : Nat) (s : Kernel) (h : Reachable NBUF s) (b : Nat) :
    ((bpin s b).buf b = { s.buf b with refcnt := inc32 (s.buf b).refcnt } ∧
      ((s.buf b).refcnt < 4294967295 → ((bpin s b).buf b).refcnt = (s.buf b).refcnt + 1) ∧
      (∀ c, c ≠ b → (bpin s b).buf c = s.buf c) ∧
      (bpin s b).next = s.next ∧ (bpin s b).prev = s.prev ∧ (bpin s b).disk = s.disk ∧
      ∀ j, bucketList NBUF (bpin s b) j = bucketList NBUF s j) ∧
    ((bunpin s b).buf b = { s.buf b with refcnt := dec32 (s.buf b).refcnt } ∧
      (0 < (s.buf b).refcnt → ((bunpin s b).buf b).refcnt + 1 = (s.buf b).refcnt) ∧
      (∀ c, c ≠ b → (bunpin s b).buf c = s.buf c) ∧
      (bunpin s b).next = s.next ∧ (bunpin s b).prev = s.prev ∧ (bunpin s b).disk = s.disk ∧
      ∀ j, bucketList NBUF (bunpin s b) j = bucketList NBUF s j) ∧
    ((bunpin (bpin s b) b).buf = s.buf ∧ (bunpin (bpin s b) b).next = s.next ∧
      (bunpin (bpin s b) b).prev = s.prev ∧ (bunpin (bpin s b) b).disk = s.disk) := by
  obtain ⟨R, hR⟩ := h
  have hlt := hR.refcnt_lt b
  obtain ⟨hpb, hpn, hpp, hpd, _⟩ := bpin_eq s b
  obtain ⟨hub, hun, hup, hud, _⟩ := bunpin_eq s b
  have hps : (bpin s b).buf b = { s.buf b with refcnt := inc32 (s.buf b).refcnt } := by
    rw [hpb, upd_same]
  have hus : (bunpin s b).buf b = { s.buf b with refcnt := dec32 (s.buf b).refcnt } := by
    rw [hub, upd_same]
  refine ⟨⟨hps, ?_, ?_, hpn, hpp, hpd, bucketList_congr NBUF hpn⟩,
    ⟨hus, ?_, ?_, hun, hup, hud, bucketList_congr NBUF hun⟩, ?_, ?_, ?_, ?_⟩
  · intro hs; rw [hps]; exact inc32_small hs
  · intro c hc; rw [hpb, upd_other _ _ _ _ hc]
  · intro h0; rw [hus]; exact dec32_pos h0 hlt
  · intro c hc; rw [hub, upd_other _ _ _ _ hc]
  · obtain ⟨hb2, _⟩ := bunpin_eq (bpin s b) b
    rw [hb2]
    funext c
    by_cases hc : c = b
    · subst hc
      rw [upd_same, hps]
      show ({ s.buf c with refcnt := dec32 (inc32 (s.buf c).refcnt) } : Buf) = s.buf c
      rw [dec32_inc32 hlt]
    · rw [upd_other _ _ _ _ hc, hpb, upd_other _ _ _ _ hc]
  · rfl
  · rfl
  · rfl

/-- Witness of C14: buffer 26 after `bread(0, 0)` has returned it, on a pool of 30
buffers. -/
theorem pin_frame_witness :
    ((bpin w1 26).buf 26 = { w1.buf 26 with refcnt := inc32 (w1.buf 26).refcnt } ∧
      ((w1.buf 26).refcnt < 4294967295 →
        ((bpin w1 26).buf 26).refcnt = (w1.buf 26).refcnt + 1) ∧
      (∀ c, c ≠ 26 → (bpin w1 26).buf c = w1.buf c) ∧
      (bpin w1 26).next = w1.next ∧ (bpin w1 26).prev = w1.prev ∧
      (bpin w1 26).disk = w1.disk ∧
      ∀ j, bucketList 30 (bpin w1 26) j = bucketList 30 w1 j) ∧
    ((bunpin w1 26).buf 26 = { w1.buf 26 with refcnt := dec32 (w1.buf 26).refcnt } ∧
      (0 < (w1.buf 26).refcnt → ((bunpin w1 26).buf 26).refcnt + 1 = (w1.buf 26).refcnt) ∧
      (∀ c, c ≠ 26 → (bunpin w1 26).buf c = w1.buf c) ∧
      (bunpin w1 26).next = w1.next ∧ (bunpin w1 26).prev = w1.prev ∧
      (bunpin w1 26).disk = w1.disk ∧
      ∀ j, bucketList 30 (bunpin w1 26) j = bucketList 30 w1 j) ∧
    ((bunpin (bpin w1 26) 26).buf = w1.buf ∧ (bunpin (bpin w1 26) 26).next = w1.next ∧
      (bunpin (bpin w1 26) 26).prev = w1.prev ∧ (bunpin (bpin w1 26) 26).disk = w1.disk) :=
  pin_frame 30 w1 ⟨_, w1_reach⟩ 26

/-- Counterexample to C14 as stated: with 30 buffers, after `bread(0, 12)`, `bread(0, 25)`,
`bread(0, 13)` (which returns buffer 0), `bunpin` of buffer 0 (at `refcnt = 1`) and
`brelse` of buffer 0, the state is reachable, buffer 0 was returned by `bread` and its
`refcnt` is `2^32 - 1`.  `bpin` of buffer 0 leaves `refcnt = 0`: the count is not one more
than before. -/
theorem pin_frame_counterexample :
    Reach 30 x5 [0, 25, 12] ∧ 0 ∈ [0, 25, 12] ∧ (x3.buf 0).refcnt = 1 ∧
    (x5.buf 0).refcnt = 4294967295 ∧ ((bpin x5 0).buf 0).refcnt = 0 ∧
    ((bpin x5 0).buf 0).refcnt ≠ (x5.buf 0).refcnt + 1 :=
  ⟨x5_reach, by decide, by rfl, by rfl, by rfl, by decide⟩


/-! ## The selection order of `bget` -/

theorem Abs.canon {NBUF : Nat} {s : Kernel} {L : Nat → List Nat} (h : Abs NBUF s L) :
    Abs NBUF s (Bcache.bucketList NBUF s) := by
  have hbl : ∀ j, j < NBUCKET → Bcache.bucketList NBUF s j = L j := fun j hj => h.bucketList hj
  refine ⟨⟨?_, ?_, ?_⟩, ?_⟩
  · intro i hi; rw [hbl i hi]; exact h.linked.cyc i hi
  · intro i hi; rw [hbl i hi]; exact h.linked.nodup i hi
  · intro i j b hi hj; rw [hbl i hi, hbl j hj]; exact h.linked.disj i j b hi hj
  · intro b
    rw [h.cover b]
    constructor
    · rintro ⟨i, hi, hb⟩; exact ⟨i, hi, by rw [hbl i hi]; exact hb⟩
    · rintro ⟨i, hi, hb⟩; exact ⟨i, hi, by rw [← hbl i hi]; exact hb⟩

theorem Buf.locked_eta (v : Buf) (h : v.locked = true) : { v with locked := true } = v := by
  cases v
  simp only at h
  subst h
  rfl

/-- The memory `bget` ends in when it selects buffer `b`: the stores of the selection, and
the sleep lock of `b` held (taken by the call, or held before it when the call sleeps). -/
theorem bget_final {NBUF : Nat} {s : Kernel} {L : Nat → List Nat} (h : Abs NBUF s L)
    (dev blockno : Nat) {b : Nat} (hp : (pick s L dev blockno).buf? = some b) :
    ∃ s1, bget NBUF s dev blockno
        = (if (s.buf b).locked then Outcome.sleep s1 b else Outcome.ret s1 b) ∧
      s1.buf = upd (selected s dev blockno (pick s L dev blockno)).buf b
        { (selected s dev blockno (pick s L dev blockno)).buf b with locked := true } ∧
      s1.next = (selected s dev blockno (pick s L dev blockno)).next ∧
      s1.prev = (selected s dev blockno (pick s L dev blockno)).prev ∧
      s1.disk = s.disk ∧
      ioLog s1 = ioLog s ++ (if (s.buf b).locked then [] else [Event.acquiresleep b]) := by
  obtain ⟨s1, hs, hb⟩ := bget_outcome h dev blockno
  rw [hp] at hb
  simp only at hb
  have hlog : ioLog s1 = ioLog s := by
    rw [hs.2.2.2.2]
    unfold ioLog
    rw [selected_log]
  by_cases hlk : (s.buf b).locked = true
  · refine ⟨s1, by rw [hb, if_pos hlk, if_pos hlk], ?_, hs.2.1, hs.2.2.1, ?_, ?_⟩
    · rw [hs.1]
      funext c
      by_cases hc : c = b
      · subst hc
        rw [upd_same, Buf.locked_eta _ (by rw [selected_locked]; exact hlk)]
      · rw [upd_other _ _ _ _ hc]
    · rw [hs.2.2.2.1, selected_disk]
    · rw [if_pos hlk, List.append_nil]; exact hlog
  · refine ⟨held s1 b, by rw [hb, if_neg hlk, if_neg hlk], ?_, hs.2.1, hs.2.2.1, ?_, ?_⟩
    · funext c
      by_cases hc : c = b
      · subst hc
        rw [upd_same, held_buf_self, hs.1]
      · rw [upd_other _ _ _ _ hc, held_buf_other _ _ _ hc, hs.1]
    · show s1.disk = s.disk
      rw [hs.2.2.2.1, selected_disk]
    · rw [if_neg hlk]
      show ioLog (emit _ _) = _
      rw [ioLog_emit, ← hlog]
      rfl

theorem pick_of_hit {s : Kernel} {L : Nat → List Nat} {dev blockno b : Nat}
    (h : (L (ihash blockno)).find? (keyIs s dev blockno) = some b) :
    pick s L dev blockno = Pick.hit b := by
  simp only [pick, h]

theorem pick_of_evict {s : Kernel} {L : Nat → List Nat} {dev blockno b : Nat}
    (h : (L (ihash blockno)).find? (keyIs s dev blockno) = none)
    (hf : lruFree s (L (ihash blockno)) = some b) :
    pick s L dev blockno = Pick.evict b := by
  simp only [pick, h, hf]

theorem pick_of_steal {s : Kernel} {L : Nat → List Nat} {dev blockno i b : Nat}
    (h : (L (ihash blockno)).find? (keyIs s dev blockno) = none)
    (hf : lruFree s (L (ihash blockno)) = none)
    (hs : (stealOrder (ihash blockno)).findSome?
      (fun i => (lruFree s (L i)).map (fun b => (i, b))) = some (i, b)) :
    pick s L dev blockno = Pick.steal i b := by
  simp only [pick, h, hf, hs]

theorem pick_of_none {s : Kernel} {L : Nat → List Nat} {dev blockno : Nat}
    (h : (L (ihash blockno)).find? (keyIs s dev blockno) = none)
    (hf : lruFree s (L (ihash blockno)) = none)
    (hs : (stealOrder (ihash blockno)).findSome?
      (fun i => (lruFree s (L i)).map (fun b => (i, b))) = none) :
    pick s L dev blockno = Pick.noBuffers := by
  simp only [pick, h, hf, hs]

theorem stealOrder_nodup : ∀ id, id < NBUCKET → (stealOrder id).Nodup := by
  decide

theorem incRef_buf (s : Kernel) (b : Nat) :
    (incRef s b).buf = upd s.buf b { s.buf b with refcnt := inc32 (s.buf b).refcnt } := by
  funext c
  by_cases hc : c = b <;> simp [incRef, setBuf, upd, hc]

theorem reassign_buf (s : Kernel) (b dev blockno : Nat) :
    (reassign s b dev blockno).buf
      = upd s.buf b { s.buf b with dev := dev, blockno := blockno, valid := 0, refcnt := 1 } := by
  funext c
  by_cases hc : c = b <;> simp [reassign, setBuf, upd, hc]

/-- C13 (selection order of `bget`), as the code has it: in a reachable state, with the
bucket lists read head to tail and `id = ihash(blockno)`, `bget(dev, blockno)` selects
(1) the first buffer of the home list with the key `(dev, blockno)`, if there is one;
otherwise (2) the buffer nearest the tail of the home list with `refcnt = 0`, if there is
one; otherwise (3) the buffer nearest the tail with `refcnt = 0` of the first bucket that
has one among `(id+1) mod NBUCKET, ..., (id+NBUCKET-1) mod NBUCKET`, which are the other
buckets, each once; otherwise it panics.  It returns the selected buffer when its sleep
lock is free and sleeps on the lock when it is held.  In case (1) `refcnt` is incremented
as a `uint` (by one when `refcnt < 2^32 - 1`), the sleep lock is taken, and nothing else
changes: `dev`, `blockno`, `valid`, `data`, the other buffers and all lists are kept.  In
case (2) the buffer gets the key, `valid = 0` and `refcnt = 1` in place: no list
changes. -/
theorem selection_order (NBUF : Nat) (s : Kernel) (h : Reachable NBUF s) (dev blockno : Nat) :
    (∀ b, (bucketList NBUF s (ihash blockno)).find? (keyIs s dev blockno) = some b →
      ∃ s1, bget NBUF s dev blockno
          = (if (s.buf b).locked then Outcome.sleep s1 b else Outcome.ret s1 b) ∧
        s1.buf b = { s.buf b with refcnt := inc32 (s.buf b).refcnt, locked := true } ∧
        ((s.buf b).refcnt < 4294967295 → (s1.buf b).refcnt = (s.buf b).refcnt + 1) ∧
        (∀ c, c ≠ b → s1.buf c = s.buf c) ∧ s1.next = s.next ∧ s1.prev = s.prev ∧
        ∀ j, bucketList NBUF s1 j = bucketList NBUF s j) ∧
    ((bucketList NBUF s (ihash blockno)).find? (keyIs s dev blockno) = none →
      (∀ b, lruFree s (bucketList NBUF s (ihash blockno)) = some b →
        ∃ s1, bget NBUF s dev blockno
            = (if (s.buf b).locked then Outcome.sleep s1 b else Outcome.ret s1 b) ∧
          s1.buf b = { s.buf b with
            dev := dev, blockno := blockno, valid := 0, refcnt := 1, locked := true } ∧
          (∀ c, c ≠ b → s1.buf c = s.buf c) ∧ s1.next = s.next ∧ s1.prev = s.prev ∧
          ∀ j, bucketList NBUF s1 j = bucketList NBUF s j) ∧
      (lruFree s (bucketList NBUF s (ihash blockno)) = none →
        (∀ i b, (stealOrder (ihash blockno)).findSome?
              (fun i => (lruFree s (bucketList NBUF s i)).map (fun b => (i, b))) = some (i, b) →
          ∃ s1, bget NBUF s dev blockno
              = (if (s.buf b).locked then Outcome.sleep s1 b else Outcome.ret s1 b) ∧
            s1.buf b = { s.buf b with
              dev := dev, blockno := blockno, valid := 0, refcnt := 1, locked := true } ∧
            ∀ c, c ≠ b → s1.buf c = s.buf c) ∧
        ((stealOrder (ihash blockno)).findSome?
              (fun i => (lruFree s (bucketList NBUF s i)).map (fun b => (i, b))) = none →
          ∃ s1, bget NBUF s dev blockno = Outcome.panic s1 "bget: no buffers"))) ∧
    (stealOrder (ihash blockno)
        = (List.range (NBUCKET - 1)).map (fun t => (ihash blockno + 1 + t) % NBUCKET) ∧
      (stealOrder (ihash blockno)).Nodup ∧
      ∀ i, i ∈ stealOrder (ihash blockno) ↔ i < NBUCKET ∧ i ≠ ihash blockno) := by
  obtain ⟨R, hR⟩ := h
  obtain ⟨L, hL⟩ := hR.inv
  have habs : Abs NBUF s (bucketList NBUF s) := hL.abs.canon
  have hid := ihash_lt blockno
  refine ⟨?_, ?_, rfl, stealOrder_nodup _ hid, fun i => mem_stealOrder hid⟩
  · intro b hf
    have hk := pick_of_hit hf
    obtain ⟨s1, hb, hbuf, hn, hp, _, _⟩ :=
      bget_final habs dev blockno (show (pick s _ dev blockno).buf? = some b by rw [hk]; rfl)
    rw [hk] at hbuf hn hp
    simp only [selected] at hbuf hn hp
    rw [incRef_buf, upd_same] at hbuf
    have hself : s1.buf b
        = { s.buf b with refcnt := inc32 (s.buf b).refcnt, locked := true } := by
      rw [hbuf, upd_same]
    refine ⟨s1, hb, hself, ?_, ?_, hn, hp, bucketList_congr NBUF hn⟩
    · intro hs; rw [hself]; exact inc32_small hs
    · intro c hc; rw [hbuf, upd_other _ _ _ _ hc, upd_other _ _ _ _ hc]
  · intro hmiss
    refine ⟨?_, ?_⟩
    · intro b hf
      have hk := pick_of_evict hmiss hf
      obtain ⟨s1, hb, hbuf, hn, hp, _, _⟩ :=
        bget_final habs dev blockno (show (pick s _ dev blockno).buf? = some b by rw [hk]; rfl)
      rw [hk] at hbuf hn hp
      simp only [selected] at hbuf hn hp
      rw [reassign_buf, upd_same] at hbuf
      refine ⟨s1, hb, by rw [hbuf, upd_same], ?_, hn, hp, bucketList_congr NBUF hn⟩
      intro c hc; rw [hbuf, upd_other _ _ _ _ hc, upd_other _ _ _ _ hc]
    · intro hnone
      refine ⟨?_, ?_⟩
      · intro i b hs
        have hk := pick_of_steal hmiss hnone hs
        obtain ⟨s1, hb, hbuf, _, _, _, _⟩ :=
          bget_final habs dev blockno (show (pick s _ dev blockno).buf? = some b by rw [hk]; rfl)
        rw [hk] at hbuf
        refine ⟨s1, hb, ?_, ?_⟩
        · rw [hbuf, upd_same, selected_buf_steal]
        · intro c hc
          rw [hbuf, upd_other _ _ _ _ hc]
          exact selected_buf_other s dev blockno (show (Pick.steal i b).buf? = some b from rfl) c hc
      · intro hs
        have hk := pick_of_none hmiss hnone hs
        obtain ⟨s1, _, hb⟩ := bget_outcome habs dev blockno
        rw [hk] at hb
        exact ⟨s1, hb⟩

/-- Witness of C13: the state after `bread(0, 0)` on a pool of 30 buffers, key `(0, 0)`. -/
theorem selection_order_witness :
    (∀ b, (bucketList 30 w1 (ihash 0)).find? (keyIs w1 0 0) = some b →
      ∃ s1, bget 30 w1 0 0
          = (if (w1.buf b).locked then Outcome.sleep s1 b else Outcome.ret s1 b) ∧
        s1.buf b = { w1.buf b with refcnt := inc32 (w1.buf b).refcnt, locked := true } ∧
        ((w1.buf b).refcnt < 4294967295 → (s1.buf b).refcnt = (w1.buf b).refcnt + 1) ∧
        (∀ c, c ≠ b → s1.buf c = w1.buf c) ∧ s1.next = w1.next ∧ s1.prev = w1.prev ∧
        ∀ j, bucketList 30 s1 j = bucketList 30 w1 j) ∧
    ((bucketList 30 w1 (ihash 0)).find? (keyIs w1 0 0) = none →
      (∀ b, lruFree w1 (bucketList 30 w1 (ihash 0)) = some b →
        ∃ s1, bget 30 w1 0 0
            = (if (w1.buf b).locked then Outcome.sleep s1 b else Outcome.ret s1 b) ∧
          s1.buf b = { w1.buf b with
            dev := 0, blockno := 0, valid := 0, refcnt := 1, locked := true } ∧
          (∀ c, c ≠ b → s1.buf c = w1.buf c) ∧ s1.next = w1.next ∧ s1.prev = w1.prev ∧
          ∀ j, bucketList 30 s1 j = bucketList 30 w1 j) ∧
      (lruFree w1 (bucketList 30 w1 (ihash 0)) = none →
        (∀ i b, (stealOrder (ihash 0)).findSome?
              (fun i => (lruFree w1 (bucketList 30 w1 i)).map (fun b => (i, b))) = some (i, b) →
          ∃ s1, bget 30 w1 0 0
              = (if (w1.buf b).locked then Outcome.sleep s1 b else Outcome.ret s1 b) ∧
            s1.buf b = { w1.buf b with
              dev := 0, blockno := 0, valid := 0, refcnt := 1, locked := true } ∧
            ∀ c, c ≠ b → s1.buf c = w1.buf c) ∧
        ((stealOrder (ihash 0)).findSome?
              (fun i => (lruFree w1 (bucketList 30 w1 i)).map (fun b => (i, b))) = none →
          ∃ s1, bget 30 w1 0 0 = Outcome.panic s1 "bget: no buffers"))) ∧
    (stealOrder (ihash 0)
        = (List.range (NBUCKET - 1)).map (fun t => (ihash 0 + 1 + t) % NBUCKET) ∧
      (stealOrder (ihash 0)).Nodup ∧
      ∀ i, i ∈ stealOrder (ihash 0) ↔ i < NBUCKET ∧ i ≠ ihash 0) :=
  selection_order 30 w1 ⟨_, w1_reach⟩ 0 0

/-- Counterexample to C13 as stated: with 30 buffers, after `bread(0, 12)`, `bread(0, 25)`,
`bread(0, 13)` (which returns buffer 0), `bunpin` and `brelse` of buffer 0, the state is
reachable and buffer 0 is the first buffer of the home list with the key `(0, 13)`, case
(1), with `refcnt = 2^32 - 1`.  `bget(0, 13)` returns buffer 0 with `refcnt = 0`: the
count is not incremented by one. -/
theorem selection_order_counterexample :
    Reachable 30 x5 ∧
    (bucketList 30 x5 (ihash 13)).find? (keyIs x5 0 13) = some 0 ∧
    (x5.buf 0).refcnt = 4294967295 ∧
    ∃ s1, bget 30 x5 0 13 = Outcome.ret s1 0 ∧ (s1.buf 0).refcnt = 0 ∧
      (s1.buf 0).refcnt ≠ (x5.buf 0).refcnt + 1 :=
  ⟨⟨_, x5_reach⟩, by rfl, by rfl, (bget 30 x5 0 13).stateD w0, by rfl, by rfl, by decide⟩


/-! ## Misuse of `bwrite` and `brelse` -/

/-- C15 (misuse is fatal and atomic): for every state and buffer `b`, if the sleep lock of
`b` is not held, `bwrite(b)` panics and `brelse(b)` panics, both with the memory exactly
as it was: no disk write, no lock released, no `refcnt` changed, no list relinked, no
event logged.  If the lock is held, `bwrite(b)` returns after exactly one event, the disk
write of `b`: the disk block `(b->dev, b->blockno)` then holds the data of `b`, all other
blocks are as before, and every buffer (so the lock and `refcnt` of `b`), every pointer
and every bucket list is unchanged. -/
theorem misuse_fatal (NBUF : Nat) (s : Kernel) (b : Nat) :
    ((s.buf b).locked = false →
      bwrite s b = Outcome.panic s "bwrite" ∧ brelse s b = Outcome.panic s "brelse") ∧
    ((s.buf b).locked = true →
      ∃ s1, bwrite s b = Outcome.ret s1 () ∧
        s1.log = s.log ++ [Event.diskWrite b] ∧
        s1.disk (s.buf b).dev (s.buf b).blockno = (s.buf b).data ∧
        (∀ d n, ¬ (d = (s.buf b).dev ∧ n = (s.buf b).blockno) → s1.disk d n = s.disk d n) ∧
        s1.buf = s.buf ∧ (s1.buf b).locked = true ∧ (s1.buf b).refcnt = (s.buf b).refcnt ∧
        s1.next = s.next ∧ s1.prev = s.prev ∧
        ∀ j, bucketList NBUF s1 j = bucketList NBUF s j) := by
  refine ⟨fun hl => ⟨?_, ?_⟩, fun hl => ?_⟩
  · simp only [bwrite, holdingsleep, hl, ↓reduceIte]
  · simp only [brelse, holdingsleep, hl, ↓reduceIte]
  · refine ⟨virtio_disk_rw s b true, ?_, ?_, ?_, ?_, rfl, hl, rfl, rfl, rfl,
      bucketList_congr NBUF rfl⟩
    · simp only [bwrite, holdingsleep, hl]
      rfl
    · simp [virtio_disk_rw, emit]
    · simp [virtio_disk_rw, emit]
    · intro d n hne
      simp [virtio_disk_rw, emit, hne]

/-- Witness of C15: buffer 26, held after `bread(0, 0)` on a pool of 30 buffers. -/
theorem misuse_fatal_witness :
    ((w1.buf 26).locked = false →
      bwrite w1 26 = Outcome.panic w1 "bwrite" ∧ brelse w1 26 = Outcome.panic w1 "brelse") ∧
    ((w1.buf 26).locked = true →
      ∃ s1, bwrite w1 26 = Outcome.ret s1 () ∧
        s1.log = w1.log ++ [Event.diskWrite 26] ∧
        s1.disk (w1.buf 26).dev (w1.buf 26).blockno = (w1.buf 26).data ∧
        (∀ d n, ¬ (d = (w1.buf 26).dev ∧ n = (w1.buf 26).blockno) →
          s1.disk d n = w1.disk d n) ∧
        s1.buf = w1.buf ∧ (s1.buf 26).locked = true ∧
        (s1.buf 26).refcnt = (w1.buf 26).refcnt ∧
        s1.next = w1.next ∧ s1.prev = w1.prev ∧
        ∀ j, bucketList 30 s1 j = bucketList 30 w1 j) :=
  misuse_fatal 30 w1 26


/-! ## The lists after `binit` -/

theorem initL_length (n j : Nat) (hj : j < NBUCKET) :
    (initL n j).length = (n + (NBUCKET - 1 - j)) / NBUCKET := by
  induction n with
  | zero =>
    simp only [initL, List.range_zero, List.filter_nil, List.reverse_nil, List.length_nil]
    unfold NBUCKET at hj ⊢
    omega
  | succ n ih =>
    rw [initL_succ]
    unfold NBUCKET at hj ih ⊢
    split
    · next h =>
      rw [List.length_cons, ih]
      omega
    · next h =>
      rw [ih]
      omega

theorem initL_sorted (n j : Nat) : (initL n j).Pairwise (fun a b => b < a) := by
  unfold initL
  rw [List.pairwise_reverse]
  exact (List.pairwise_lt_range n).filter _

/-- C16 (round-robin initialisation): for every pool size `NBUF`, after `binit` on the
zeroed `bcache` the buffer with index `k < NBUF` is in the list of bucket `k mod NBUCKET`
and in the list of no other bucket, the sizes of two buckets differ by at most one, every
list holds its buffers from head to tail in decreasing index order, and every buffer has
`refcnt = 0` and `valid = 0`. -/
theorem round_robin_init (NBUF : Nat) (disk : Nat → Nat → Data) :
    (∀ k, k < NBUF →
      k ∈ bucketList NBUF (binit NBUF (zeroed disk)) (k % NBUCKET) ∧
      ∀ j, j < NBUCKET → k ∈ bucketList NBUF (binit NBUF (zeroed disk)) j →
        j = k % NBUCKET) ∧
    (∀ i j, i < NBUCKET → j < NBUCKET →
      (bucketList NBUF (binit NBUF (zeroed disk)) i).length
        ≤ (bucketList NBUF (binit NBUF (zeroed disk)) j).length + 1) ∧
    (∀ j, j < NBUCKET →
      (bucketList NBUF (binit NBUF (zeroed disk)) j).Pairwise (fun a b => b < a)) ∧
    (∀ j, j < NBUCKET → ∀ k, k ∈ bucketList NBUF (binit NBUF (zeroed disk)) j → k < NBUF) ∧
    (∀ k, ((binit NBUF (zeroed disk)).buf k).refcnt = 0 ∧
      ((binit NBUF (zeroed disk)).buf k).valid = 0) := by
  have hbl : ∀ j, j < NBUCKET →
      bucketList NBUF (binit NBUF (zeroed disk)) j = initL NBUF j :=
    fun j hj => (binit_abs NBUF disk).bucketList hj
  refine ⟨?_, ?_, ?_, ?_, ?_⟩
  · intro k hk
    have hm : k % NBUCKET < NBUCKET := Nat.mod_lt _ (by decide)
    refine ⟨by rw [hbl _ hm]; exact mem_initL.2 ⟨hk, rfl⟩, ?_⟩
    intro j hj hkj
    rw [hbl j hj] at hkj
    exact (mem_initL.1 hkj).2.symm
  · intro i j hi hj
    rw [hbl i hi, hbl j hj, initL_length _ _ hi, initL_length _ _ hj]
    unfold NBUCKET at hi hj ⊢
    omega
  · intro j hj
    rw [hbl j hj]
    exact initL_sorted NBUF j
  · intro j hj k hk
    rw [hbl j hj] at hk
    exact (mem_initL.1 hk).1
  · intro k
    rw [binit_buf]
    exact ⟨rfl, rfl⟩

/-- Witness of C16: a pool of 30 buffers; bucket 0 holds the buffers 26, 13, 0 in this
order, bucket 4 the buffers 17, 4. -/
theorem round_robin_init_witness :
    ((∀ k, k < 30 →
      k ∈ bucketList 30 (binit 30 (zeroed wDisk)) (k % NBUCKET) ∧
      ∀ j, j < NBUCKET → k ∈ bucketList 30 (binit 30 (zeroed wDisk)) j →
        j = k % NBUCKET) ∧
    (∀ i j, i < NBUCKET → j < NBUCKET →
      (bucketList 30 (binit 30 (zeroed wDisk)) i).length
        ≤ (bucketList 30 (binit 30 (zeroed wDisk)) j).length + 1) ∧
    (∀ j, j < NBUCKET →
      (bucketList 30 (binit 30 (zeroed wDisk)) j).Pairwise (fun a b => b < a)) ∧
    (∀ j, j < NBUCKET → ∀ k, k ∈ bucketList 30 (binit 30 (zeroed wDisk)) j → k < 30) ∧
    (∀ k, ((binit 30 (zeroed wDisk)).buf k).refcnt = 0 ∧
      ((binit 30 (zeroed wDisk)).buf k).valid = 0)) ∧
    bucketList 30 (binit 30 (zeroed wDisk)) 0 = [26, 13, 0] ∧
    bucketList 30 (binit 30 (zeroed wDisk)) 4 = [17, 4] :=
  ⟨round_robin_init 30 wDisk, by rfl, by rfl⟩


/-! ## Which calls change the lists -/

theorem bread_stateD_next (NBUF : Nat) (s : Kernel) (dev blockno : Nat) :
    ((bread NBUF s dev blockno).stateD s).next = ((bget NBUF s dev blockno).stateD s).next := by
  rw [bread_eq]
  cases bget NBUF s dev blockno with
  | ret s1 b => exact filled_next s1 b
  | panic s1 m => rfl
  | sleep s1 b => rfl
  | fault => rfl

theorem selected_next_of_not_steal (s : Kernel) (dev blockno : Nat) {p : Pick}
    (h : ∀ i b, p ≠ Pick.steal i b) : (selected s dev blockno p).next = s.next := by
  cases p with
  | hit b => rfl
  | evict b => rfl
  | steal i b => exact absurd rfl (h i b)
  | noBuffers => rfl

theorem bget_next_of_not_steal {NBUF : Nat} {s : Kernel} {L : Nat → List Nat}
    (h : Abs NBUF s L) (dev blockno : Nat)
    (hp : ∀ i b, pick s L dev blockno ≠ Pick.steal i b) :
    ((bget NBUF s dev blockno).stateD s).next = s.next := by
  obtain ⟨s1, hs, hb⟩ := bget_outcome h dev blockno
  have hn : s1.next = s.next := by rw [hs.2.1]; exact selected_next_of_not_steal s dev blockno hp
  rw [hb]
  cases (pick s L dev blockno).buf? with
  | none => exact hn
  | some b =>
    show (Outcome.stateD s (if (s.buf b).locked = true then Outcome.sleep s1 b
      else Outcome.ret (held s1 b) b)).next = s.next
    split
    · exact hn
    · exact hn

/-- C19 (the list order is updated only at release-to-zero), as the code has it: in a
reachable state every call other than a `brelse` that brings `refcnt` to 0 and a `bget`
or `bread` that steals a buffer from another bucket leaves every pointer, so the
membership and order of every bucket list, unchanged: `bget` and `bread` when the home
list has the key or a buffer with `refcnt = 0` or when no buffer of the pool has
`refcnt = 0` (whether the call returns, sleeps or panics), `bwrite`, `bpin`, `bunpin`, and
`brelse` when it panics or leaves `refcnt > 0`. -/
theorem list_order_frame (NBUF : Nat) (s : Kernel) (h : Reachable NBUF s) :
    (∀ dev blockno,
      ((bucketList NBUF s (ihash blockno)).find? (keyIs s dev blockno) ≠ none ∨
        lruFree s (bucketList NBUF s (ihash blockno)) ≠ none ∨
        ∀ b, b < NBUF → 0 < (s.buf b).refcnt) →
      (∀ j, bucketList NBUF ((bget NBUF s dev blockno).stateD s) j = bucketList NBUF s j) ∧
      (∀ j, bucketList NBUF ((bread NBUF s dev blockno).stateD s) j = bucketList NBUF s j)) ∧
    (∀ b j, bucketList NBUF ((bwrite s b).stateD s) j = bucketList NBUF s j) ∧
    (∀ b j, bucketList NBUF (bpin s b) j = bucketList NBUF s j) ∧
    (∀ b j, bucketList NBUF (bunpin s b) j = bucketList NBUF s j) ∧
    (∀ b s1, brelse s b = Outcome.ret s1 () → 0 < (s1.buf b).refcnt →
      ∀ j, bucketList NBUF s1 j = bucketList NBUF s j) ∧
    (∀ b s1 msg, brelse s b = Outcome.panic s1 msg →
      ∀ j, bucketList NBUF s1 j = bucketList NBUF s j) := by
  obtain ⟨R, hR⟩ := h
  obtain ⟨L, hL⟩ := hR.inv
  have habs : Abs NBUF s (bucketList NBUF s) := hL.abs.canon
  refine ⟨?_, ?_, fun b => bucketList_congr NBUF rfl, fun b => bucketList_congr NBUF rfl, ?_, ?_⟩
  · intro dev blockno hc
    have hp : ∀ i b, pick s (bucketList NBUF s) dev blockno ≠ Pick.steal i b := by
      intro i b hk
      obtain ⟨h1, h2, _⟩ := pick_steal hk
      obtain ⟨hi, _, hlru⟩ := pick_steal_donor hk
      obtain ⟨hbm, hbz⟩ := lruFree_some hlru
      rcases hc with hc | hc | hc
      · exact hc h1
      · exact hc h2
      · have := hc b (habs.mem_lt hi hbm)
        omega
    have hn := bget_next_of_not_steal habs dev blockno hp
    exact ⟨bucketList_congr NBUF hn,
      bucketList_congr NBUF ((bread_stateD_next NBUF s dev blockno).trans hn)⟩
  · intro b j
    refine bucketList_congr NBUF ?_ j
    unfold bwrite
    split
    · rfl
    · simp only [Outcome.stateD, virtio_disk_rw, emit, ↓reduceIte]
  · intro b s1 hr hpos
    obtain ⟨_, hbuf, _, _, hne, _⟩ := brelse_ret hr
    have hrc : (s1.buf b).refcnt = dec32 (s.buf b).refcnt := by rw [hbuf, upd_same]
    rw [hrc] at hpos
    exact bucketList_congr NBUF (hne (Nat.pos_iff_ne_zero.1 hpos)).1
  · intro b s1 msg hr
    rw [brelse_eq] at hr
    split at hr
    · rw [(Outcome.panic.inj hr).1]
      intro j; rfl
    · cases hr

/-- Witness of C19: the state after `bread(0, 0)` on a pool of 30 buffers. -/
theorem list_order_frame_witness :
    (∀ dev blockno,
      ((bucketList 30 w1 (ihash blockno)).find? (keyIs w1 dev blockno) ≠ none ∨
        lruFree w1 (bucketList 30 w1 (ihash blockno)) ≠ none ∨
        ∀ b, b < 30 → 0 < (w1.buf b).refcnt) →
      (∀ j, bucketList 30 ((bget 30 w1 dev blockno).stateD w1) j = bucketList 30 w1 j) ∧
      (∀ j, bucketList 30 ((bread 30 w1 dev blockno).stateD w1) j = bucketList 30 w1 j)) ∧
    (∀ b j, bucketList 30 ((bwrite w1 b).stateD w1) j = bucketList 30 w1 j) ∧
    (∀ b j, bucketList 30 (bpin w1 b) j = bucketList 30 w1 j) ∧
    (∀ b j, bucketList 30 (bunpin w1 b) j = bucketList 30 w1 j) ∧
    (∀ b s1, brelse w1 b = Outcome.ret s1 () → 0 < (s1.buf b).refcnt →
      ∀ j, bucketList 30 s1 j = bucketList 30 w1 j) ∧
    (∀ b s1 msg, brelse w1 b = Outcome.panic s1 msg →
      ∀ j, bucketList 30 s1 j = bucketList 30 w1 j) :=
  list_order_frame 30 w1 ⟨_, w1_reach⟩

/-- Counterexample to C19 as stated: with 30 buffers, after `bread(0, 12)` and
`bread(0, 25)` both buffers of bucket 12 are in use.  The state is reachable, and
`bread(0, 38)`, a call that is not a `brelse`, returns buffer 0, stolen from bucket 0: the
list of bucket 12 changes from `[25, 12]` to `[0, 25, 12]` and the list of bucket 0 from
`[26, 13, 0]` to `[26, 13]`. -/
theorem list_order_frame_counterexample :
    Reachable 30 x2 ∧
    ∃ s1, bread 30 x2 0 38 = Outcome.ret s1 0 ∧
      bucketList 30 x2 12 = [25, 12] ∧ bucketList 30 s1 12 = [0, 25, 12] ∧
      bucketList 30 x2 0 = [26, 13, 0] ∧ bucketList 30 s1 0 = [26, 13] ∧
      bucketList 30 s1 12 ≠ bucketList 30 x2 12 :=
  ⟨⟨_, x2_reach⟩, (bread 30 x2 0 38).stateD w0, by rfl, by rfl, by rfl, by rfl, by rfl,
    by decide⟩


/-! ## The second scans of `bget` -/

theorem scanKey_congr {s1 s2 : Kernel} (hb : s1.buf = s2.buf) (hn : s1.next = s2.next)
    (id dev blockno : Nat) :
    ∀ (fuel : Nat) (p : Ptr),
      scanKey s1 id dev blockno fuel p = scanKey s2 id dev blockno fuel p := by
  intro fuel
  induction fuel with
  | zero => intro p; rfl
  | succ n ih =>
    intro p
    cases p with
    | buf c => simp only [scanKey, hb, hn, ih]
    | null => simp only [scanKey]
    | head i => simp only [scanKey]

theorem scanFree_congr {s1 s2 : Kernel} (hb : s1.buf = s2.buf) (hp : s1.prev = s2.prev)
    (id : Nat) :
    ∀ (fuel : Nat) (p : Ptr), scanFree s1 id fuel p = scanFree s2 id fuel p := by
  intro fuel
  induction fuel with
  | zero => intro p; rfl
  | succ n ih =>
    intro p
    cases p with
    | buf c => simp only [scanFree, hb, hp, ih]
    | null => simp only [scanFree]
    | head i => simp only [scanFree]

theorem Sim.acquiresleep {s1 s2 : Kernel} (h : Sim s1 s2) (b : Nat) :
    (acquiresleep s1 b).Agree (acquiresleep s2 b) := by
  rw [acquiresleep_eq, acquiresleep_eq, h.1]
  split
  · exact ⟨rfl, h⟩
  · exact ⟨rfl, h.held b⟩

theorem Sim.both {s1 s2 : Kernel} (h : Sim s1 s2) (e1 e2 : Event) (h1 : e1.isSpin = true)
    (h2 : e2.isSpin = true) : Sim (emit s1 e1) (emit s2 e2) := by
  refine ⟨h.1, h.2.1, h.2.2.1, h.2.2.2.1, ?_⟩
  rw [ioLog_emit, ioLog_emit, h1, h2, h.2.2.2.2]
  rfl

theorem stealLoop_agree (NBUF dev blockno id : Nat) :
    ∀ (fuel i : Nat) (s1 s2 : Kernel), Sim s1 s2 →
      (stealLoop NBUF dev blockno id fuel i s1).Agree (stealLoop NBUF dev blockno id fuel i s2) := by
  intro fuel
  induction fuel with
  | zero => intro i s1 s2 _; exact trivial
  | succ n ih =>
    intro i s1 s2 h
    rw [stealLoop, stealLoop]
    split
    · exact ⟨rfl, h⟩
    · have ha : Sim (acquire s1 (Lock.bucket i)) (acquire s2 (Lock.bucket i)) :=
        h.both _ _ rfl rfl
      simp only []
      rw [scanFree_congr ha.1 ha.2.2.1 i (walkFuel NBUF), ha.2.2.1]
      cases scanFree (acquire s2 (Lock.bucket i)) i (walkFuel NBUF)
          ((acquire s2 (Lock.bucket i)).prev (Ptr.head i)) with
      | fault => exact trivial
      | found b =>
        simp only []
        refine Sim.acquiresleep ?_ b
        refine Sim.both ?_ _ _ rfl rfl
        refine Sim.both ?_ _ _ rfl rfl
        refine Sim.insertSteal ?_ b id
        refine Sim.both ?_ _ _ rfl rfl
        exact (ha.reassign b dev blockno).unlinkSteal b
      | none =>
        simp only []
        exact ih _ _ _ (ha.both _ _ rfl rfl)

theorem Outcome.agree_refl (o : Outcome Nat) : o.Agree o := by
  cases o with
  | ret s a => exact ⟨rfl, Sim.refl s⟩
  | panic s m => exact ⟨rfl, Sim.refl s⟩
  | sleep s a => exact ⟨rfl, Sim.refl s⟩
  | fault => exact trivial

/-- The lock calls of lines 108-110 of `bget` do not change what the hit scan finds. -/
theorem scanKey_relock (NBUF : Nat) (s : Kernel) (dev blockno : Nat) :
    scanKey
      (acquire (acquire (release (acquire s (Lock.bucket (ihash blockno)))
        (Lock.bucket (ihash blockno))) Lock.steal) (Lock.bucket (ihash blockno)))
      (ihash blockno) dev blockno (walkFuel NBUF)
      ((acquire (acquire (release (acquire s (Lock.bucket (ihash blockno)))
        (Lock.bucket (ihash blockno))) Lock.steal) (Lock.bucket (ihash blockno))).next
        (Ptr.head (ihash blockno)))
      = scanKey (acquire s (Lock.bucket (ihash blockno))) (ihash blockno) dev blockno
        (walkFuel NBUF) ((acquire s (Lock.bucket (ihash blockno))).next
          (Ptr.head (ihash blockno))) := by
  exact scanKey_congr (by rfl) (by rfl) _ _ _ _ _

/-- The lock calls of lines 108-110 of `bget` do not change what the free scan finds. -/
theorem scanFree_relock (NBUF : Nat) (s : Kernel) (blockno : Nat) :
    scanFree
      (acquire (acquire (release (acquire s (Lock.bucket (ihash blockno)))
        (Lock.bucket (ihash blockno))) Lock.steal) (Lock.bucket (ihash blockno)))
      (ihash blockno) (walkFuel NBUF)
      ((acquire (acquire (release (acquire s (Lock.bucket (ihash blockno)))
        (Lock.bucket (ihash blockno))) Lock.steal) (Lock.bucket (ihash blockno))).prev
        (Ptr.head (ihash blockno)))
      = scanFree (acquire s (Lock.bucket (ihash blockno))) (ihash blockno) (walkFuel NBUF)
        ((acquire s (Lock.bucket (ihash blockno))).prev (Ptr.head (ihash blockno))) := by
  exact scanFree_congr (by rfl) (by rfl) _ _ _

theorem bget_eq_noRescan (NBUF : Nat) (s : Kernel) (dev blockno : Nat) :
    bget NBUF s dev blockno = bgetNoRescan NBUF s dev blockno := by
  unfold bget bgetNoRescan
  simp only []
  cases h1 : scanKey (acquire s (Lock.bucket (ihash blockno))) (ihash blockno) dev blockno
      (walkFuel NBUF) ((acquire s (Lock.bucket (ihash blockno))).next
        (Ptr.head (ihash blockno))) with
  | fault => rfl
  | found b => rfl
  | none =>
    simp only []
    cases h2 : scanFree (acquire s (Lock.bucket (ihash blockno))) (ihash blockno)
        (walkFuel NBUF)
        ((acquire s (Lock.bucket (ihash blockno))).prev (Ptr.head (ihash blockno))) with
    | fault => rfl
    | found b => rfl
    | none =>
      simp only []
      rw [scanKey_relock, h1, scanFree_relock, h2]

theorem bget_agree_direct (NBUF : Nat) (s : Kernel) (dev blockno : Nat) :
    (bget NBUF s dev blockno).Agree (bgetDirect NBUF s dev blockno) := by
  unfold bget bgetDirect
  simp only []
  cases h1 : scanKey (acquire s (Lock.bucket (ihash blockno))) (ihash blockno) dev blockno
      (walkFuel NBUF) ((acquire s (Lock.bucket (ihash blockno))).next
        (Ptr.head (ihash blockno))) with
  | fault => exact trivial
  | found b => exact Outcome.agree_refl _
  | none =>
    simp only []
    cases h2 : scanFree (acquire s (Lock.bucket (ihash blockno))) (ihash blockno)
        (walkFuel NBUF)
        ((acquire s (Lock.bucket (ihash blockno))).prev (Ptr.head (ihash blockno))) with
    | fault => exact trivial
    | found b => exact Outcome.agree_refl _
    | none =>
      simp only []
      rw [scanKey_relock, h1, scanFree_relock, h2]
      simp only []
      refine stealLoop_agree NBUF dev blockno _ _ _ _ _ ?_
      exact ((((Sim.refl _).release _).acquire _).acquire _)

/-- C20 (re-validation is redundant without concurrency): for every state and key, with
`s1` the memory after the first `acquire` and `s4` the memory after lines 108-110, if the
first hit scan and the first free scan find nothing, the second hit scan and the second
free scan (lines 112-133) find nothing either.  So `bget` ends exactly as the variant
without lines 112-133, in the same memory, event log included; and it ends as the variant
that goes from the first failed free scan directly to the steal loop: in the same way
(return, sleep, panic), with the same buffer, and in the same memory (buffers, pointers,
disk, sleep-lock and disk events), the spinlock events the variant leaves out apart. -/
theorem rescan_redundant (NBUF : Nat) (s : Kernel) (dev blockno : Nat) :
    (scanKey (acquire s (Lock.bucket (ihash blockno))) (ihash blockno) dev blockno
        (walkFuel NBUF) ((acquire s (Lock.bucket (ihash blockno))).next
          (Ptr.head (ihash blockno))) = Scan.none →
      scanFree (acquire s (Lock.bucket (ihash blockno))) (ihash blockno) (walkFuel NBUF)
        ((acquire s (Lock.bucket (ihash blockno))).prev (Ptr.head (ihash blockno)))
          = Scan.none →
      scanKey
        (acquire (acquire (release (acquire s (Lock.bucket (ihash blockno)))
          (Lock.bucket (ihash blockno))) Lock.steal) (Lock.bucket (ihash blockno)))
        (ihash blockno) dev blockno (walkFuel NBUF)
        ((acquire (acquire (release (acquire s (Lock.bucket (ihash blockno)))
          (Lock.bucket (ihash blockno))) Lock.steal) (Lock.bucket (ihash blockno))).next
          (Ptr.head (ihash blockno))) = Scan.none ∧
      scanFree
        (acquire (acquire (release (acquire s (Lock.bucket (ihash blockno)))
          (Lock.bucket (ihash blockno))) Lock.steal) (Lock.bucket (ihash blockno)))
        (ihash blockno) (walkFuel NBUF)
        ((acquire (acquire (release (acquire s (Lock.bucket (ihash blockno)))
          (Lock.bucket (ihash blockno))) Lock.steal) (Lock.bucket (ihash blockno))).prev
          (Ptr.head (ihash blockno))) = Scan.none) ∧
    bget NBUF s dev blockno = bgetNoRescan NBUF s dev blockno ∧
    (bget NBUF s dev blockno).Agree (bgetDirect NBUF s dev blockno) :=
  ⟨fun h1 h2 => ⟨(scanKey_relock NBUF s dev blockno).trans h1,
      (scanFree_relock NBUF s blockno).trans h2⟩,
    bget_eq_noRescan NBUF s dev blockno, bget_agree_direct NBUF s dev blockno⟩

/-- Witness of C20: with 30 buffers, after `bread(0, 12)` and `bread(0, 25)`, the key
`(0, 38)`: both scans of the home bucket 12 fail, and `bget` and the direct variant return
the buffer stolen from bucket 0. -/
theorem rescan_redundant_witness :
    ((scanKey (acquire x2 (Lock.bucket (ihash 38))) (ihash 38) 0 38
        (walkFuel 30) ((acquire x2 (Lock.bucket (ihash 38))).next
          (Ptr.head (ihash 38))) = Scan.none →
      scanFree (acquire x2 (Lock.bucket (ihash 38))) (ihash 38) (walkFuel 30)
        ((acquire x2 (Lock.bucket (ihash 38))).prev (Ptr.head (ihash 38)))
          = Scan.none →
      scanKey
        (acquire (acquire (release (acquire x2 (Lock.bucket (ihash 38)))
          (Lock.bucket (ihash 38))) Lock.steal) (Lock.bucket (ihash 38)))
        (ihash 38) 0 38 (walkFuel 30)
        ((acquire (acquire (release (acquire x2 (Lock.bucket (ihash 38)))
          (Lock.bucket (ihash 38))) Lock.steal) (Lock.bucket (ihash 38))).next
          (Ptr.head (ihash 38))) = Scan.none ∧
      scanFree
        (acquire (acquire (release (acquire x2 (Lock.bucket (ihash 38)))
          (Lock.bucket (ihash 38))) Lock.steal) (Lock.bucket (ihash 38)))
        (ihash 38) (walkFuel 30)
        ((acquire (acquire (release (acquire x2 (Lock.bucket (ihash 38)))
          (Lock.bucket (ihash 38))) Lock.steal) (Lock.bucket (ihash 38))).prev
          (Ptr.head (ihash 38))) = Scan.none) ∧
    bget 30 x2 0 38 = bgetNoRescan 30 x2 0 38 ∧
    (bget 30 x2 0 38).Agree (bgetDirect 30 x2 0 38)) ∧
    (bget 30 x2 0 38).isRet = true ∧ (bgetDirect 30 x2 0 38).isRet = true :=
  ⟨rescan_redundant 30 x2 0 38, by rfl, by rfl⟩


/-! ## The spinlocks held along the events of a call -/

theorem locksAfter_append (h : List Lock) (a b : List Event) :
    locksAfter h (a ++ b) = locksAfter (locksAfter h a) b := by
  unfold locksAfter
  rw [List.foldl_append]

theorem Along.head {Q : List Lock → Prop} {h : List Lock} {es : List Event}
    (ha : Along Q h es) : Q h := by
  cases es with
  | nil => exact ha
  | cons e es => exact ha.1

theorem along_append {Q : List Lock → Prop} :
    ∀ (a : List Event) (h : List Lock) (b : List Event),
      Along Q h (a ++ b) ↔ Along Q h a ∧ Along Q (locksAfter h a) b
  | [], h, b => ⟨fun hb => ⟨hb.head, hb⟩, fun hb => hb.2⟩
  | e :: a, h, b => by
    show Q h ∧ Along Q (lockStep h e) (a ++ b) ↔ (Q h ∧ Along Q (lockStep h e) a) ∧ _
    rw [along_append a (lockStep h e) b]
    exact ⟨fun ⟨h1, h2, h3⟩ => ⟨⟨h1, h2⟩, h3⟩, fun ⟨⟨h1, h2⟩, h3⟩ => ⟨h1, h2, h3⟩⟩

theorem along_iff {Q : List Lock → Prop} :
    ∀ (es : List Event) (h : List Lock),
      Along Q h es ↔ ∀ p, p <+: es → Q (locksAfter h p)
  | [], h => by
    constructor
    · intro hq p hp
      rw [List.prefix_nil.1 hp]
      exact hq
    · intro hq
      exact hq [] (List.prefix_refl _)
  | e :: es, h => by
    show Q h ∧ Along Q (lockStep h e) es ↔ _
    rw [along_iff es (lockStep h e)]
    constructor
    · rintro ⟨h1, h2⟩ p hp
      rcases List.prefix_cons_iff.1 hp with rfl | ⟨t, rfl, ht⟩
      · exact h1
      · exact h2 t ht
    · intro hq
      refine ⟨hq [] ⟨_, rfl⟩, fun t ht => ?_⟩
      exact hq (e :: t) (List.prefix_cons_iff.2 (Or.inr ⟨t, rfl, ht⟩))

theorem unblocked_append :
    ∀ (a : List Event) (h : List Lock) (b : List Event),
      Unblocked h (a ++ b) ↔ Unblocked h a ∧ Unblocked (locksAfter h a) b
  | [], h, b => ⟨fun hb => ⟨trivial, hb⟩, fun hb => hb.2⟩
  | e :: a, h, b => by
    show (_ ∧ Unblocked (lockStep h e) (a ++ b)) ↔ (_ ∧ Unblocked (lockStep h e) a) ∧ _
    rw [unblocked_append a (lockStep h e) b]
    exact ⟨fun ⟨h1, h2, h3⟩ => ⟨⟨h1, h2⟩, h3⟩, fun ⟨⟨h1, h2⟩, h3⟩ => ⟨h1, h2, h3⟩⟩

theorem unblocked_split {h : List Lock} {p q : List Event} {e : Event}
    (hu : Unblocked h (p ++ e :: q)) (he : e.isBlocking = true) : locksAfter h p = [] :=
  ((unblocked_append p h (e :: q)).1 hu).2.1 he

theorem calm_of {es : List Event} (hu : Unblocked [] es) (he : locksAfter [] es = []) :
    Calm es :=
  ⟨fun _ _ _ hes hb => unblocked_split (hes ▸ hu) hb, he⟩

theorem events_of_log {α : Type} {s s1 : Kernel} {o : Outcome α} {es : List Event}
    (ho : o.state? = some s1) (hl : s1.log = s.log ++ es) : o.events s = es := by
  unfold Outcome.events eventsSince
  rw [ho]
  simp only [hl, List.drop_left]

theorem events_fault {α : Type} (s : Kernel) : (Outcome.fault : Outcome α).events s = [] := rfl

theorem disciplined_home (id : Nat) : Disciplined id [Lock.steal, Lock.bucket id] :=
  Or.inr (Or.inr (Or.inr (Or.inl rfl)))

theorem erase_donor {id i : Nat} (h : i ≠ id) :
    [Lock.steal, Lock.bucket id, Lock.bucket i].erase (Lock.bucket i)
      = [Lock.steal, Lock.bucket id] := by
  have h1 : (Lock.steal == Lock.bucket i) = false := by simp
  have h2 : (Lock.bucket id == Lock.bucket i) = false := by
    simpa using fun e => h e.symm
  simp [List.erase_cons, h1, h2]

/-- The events of the steal loop, entered with `steal_lock` and the home lock held. -/
theorem stealLoop_trace (NBUF dev blockno id : Nat) :
    ∀ (fuel i : Nat) (s : Kernel) (o : Outcome Nat), i < NBUCKET →
      stealLoop NBUF dev blockno id fuel i s = o → ∀ s1, o.state? = some s1 →
      ∃ es, s1.log = s.log ++ es ∧
        Along (Disciplined id) [Lock.steal, Lock.bucket id] es ∧
        Unblocked [Lock.steal, Lock.bucket id] es ∧
        (o.isPanic = false → locksAfter [Lock.steal, Lock.bucket id] es = []) := by
  intro fuel
  induction fuel with
  | zero =>
    intro i s o _ ho s1 h1
    rw [stealLoop] at ho
    subst ho
    cases h1
  | succ n ih =>
    intro i s o hi ho s1 h1
    rw [stealLoop] at ho
    by_cases hid : i = id
    · rw [if_pos hid] at ho
      subst ho
      cases h1
      exact ⟨[], (List.append_nil _).symm, disciplined_home id, trivial,
        fun h => Bool.noConfusion h⟩
    · rw [if_neg hid] at ho
      simp only [] at ho
      cases hsc : scanFree (acquire s (Lock.bucket i)) i (walkFuel NBUF)
          ((acquire s (Lock.bucket i)).prev (Ptr.head i)) with
      | fault =>
        rw [hsc] at ho
        subst ho
        cases h1
      | found b =>
        rw [hsc] at ho
        simp only [] at ho
        rw [acquiresleep_eq] at ho
        have hd1 : Disciplined id [Lock.steal, Lock.bucket id, Lock.bucket i] :=
          Or.inr (Or.inr (Or.inr (Or.inr ⟨i, hi, hid, rfl⟩)))
        have hd2 : Disciplined id [Lock.steal] := Or.inr (Or.inr (Or.inl rfl))
        have hd3 : Disciplined id [] := Or.inl rfl
        have he2 : [Lock.steal, Lock.bucket id].erase (Lock.bucket id) = [Lock.steal] := by
          simp [List.erase_cons]
        split at ho
        · subst ho
          cases h1
          refine ⟨[Event.acquire (Lock.bucket i), Event.release (Lock.bucket i),
            Event.release (Lock.bucket id), Event.release Lock.steal], ?_, ?_, ?_, ?_⟩
          · simp [release, acquire, emit, reassign, unlinkSteal, insertSteal, setBuf, setNext,
              setPrev]
          · simp only [Along, lockStep, List.cons_append, List.nil_append, erase_donor hid, he2,
              List.erase_cons_head]
            exact ⟨disciplined_home id, hd1, disciplined_home id, hd2, hd3⟩
          · simp [Unblocked, Event.isBlocking]
          · intro _
            simp only [locksAfter, List.foldl, lockStep, List.cons_append, List.nil_append,
              erase_donor hid, he2, List.erase_cons_head]
        · subst ho
          cases h1
          refine ⟨[Event.acquire (Lock.bucket i), Event.release (Lock.bucket i),
            Event.release (Lock.bucket id), Event.release Lock.steal,
            Event.acquiresleep b], ?_, ?_, ?_, ?_⟩
          · simp [held, release, acquire, emit, reassign, unlinkSteal, insertSteal, setBuf,
              setNext, setPrev]
          · simp only [Along, lockStep, List.cons_append, List.nil_append, erase_donor hid, he2,
              List.erase_cons_head]
            exact ⟨disciplined_home id, hd1, disciplined_home id, hd2, hd3, hd3⟩
          · simp only [Unblocked, lockStep, List.cons_append, List.nil_append,
              erase_donor hid, he2, List.erase_cons_head, Event.isBlocking]
            simp
          · intro _
            simp only [locksAfter, List.foldl, lockStep, List.cons_append, List.nil_append,
              erase_donor hid, he2, List.erase_cons_head]
      | none =>
        rw [hsc] at ho
        simp only [] at ho
        obtain ⟨es, hl, ha, hu, hf⟩ := ih _ _ o (ihash_lt _) ho s1 h1
        have hd1 : Disciplined id [Lock.steal, Lock.bucket id, Lock.bucket i] :=
          Or.inr (Or.inr (Or.inr (Or.inr ⟨i, hi, hid, rfl⟩)))
        refine ⟨[Event.acquire (Lock.bucket i), Event.release (Lock.bucket i)] ++ es,
          ?_, ?_, ?_, ?_⟩
        · rw [hl]
          simp [release, acquire, emit]
        · simp only [Along, lockStep, List.cons_append, List.nil_append, erase_donor hid]
          exact ⟨disciplined_home id, hd1, ha⟩
        · simp only [Unblocked, lockStep, List.cons_append, List.nil_append, erase_donor hid,
            Event.isBlocking]
          simpa using hu
        · intro hp
          simp only [locksAfter, List.foldl, lockStep, List.cons_append, List.nil_append,
            erase_donor hid]
          exact hf hp

/-- The events of a call of `bget` that ends in the home bucket: hit or local eviction. -/
theorem fast_trace (id : Nat) (s t : Kernel) (b : Nat)
    (ht : t.log = s.log ++ [Event.acquire (Lock.bucket id)]) (o : Outcome Nat)
    (ho : acquiresleep (release t (Lock.bucket id)) b = o) (s1 : Kernel)
    (h1 : o.state? = some s1) :
    ∃ es, s1.log = s.log ++ es ∧ Along (Disciplined id) [] es ∧ Unblocked [] es ∧
      (o.isPanic = false → locksAfter [] es = []) := by
  have hd0 : Disciplined id [] := Or.inl rfl
  have hd1 : Disciplined id [Lock.bucket id] := Or.inr (Or.inl rfl)
  rw [acquiresleep_eq] at ho
  split at ho
  · subst ho
    cases h1
    refine ⟨[Event.acquire (Lock.bucket id), Event.release (Lock.bucket id)], ?_, ?_, ?_, ?_⟩
    · simp [release, emit, ht]
    · simp only [Along, lockStep, List.nil_append, List.erase_cons_head]
      exact ⟨hd0, hd1, hd0⟩
    · simp [Unblocked, Event.isBlocking]
    · intro _
      simp only [locksAfter, List.foldl, lockStep, List.nil_append, List.erase_cons_head]
  · subst ho
    cases h1
    refine ⟨[Event.acquire (Lock.bucket id), Event.release (Lock.bucket id),
      Event.acquiresleep b], ?_, ?_, ?_, ?_⟩
    · simp [held, release, emit, setBuf, ht]
    · simp only [Along, lockStep, List.nil_append, List.erase_cons_head]
      exact ⟨hd0, hd1, hd0, hd0⟩
    · simp [Unblocked, Event.isBlocking, lockStep]
    · intro _
      simp only [locksAfter, List.foldl, lockStep, List.nil_append, List.erase_cons_head]

/-- The events of `bget`: every lock set on the way is one of the discipline, no spinlock
is held at `acquiresleep`, and none is held when the call returns or sleeps. -/
theorem bget_trace (NBUF : Nat) (s : Kernel) (dev blockno : Nat) (o : Outcome Nat)
    (ho : bget NBUF s dev blockno = o) (s1 : Kernel) (h1 : o.state? = some s1) :
    ∃ es, s1.log = s.log ++ es ∧ Along (Disciplined (ihash blockno)) [] es ∧
      Unblocked [] es ∧ (o.isPanic = false → locksAfter [] es = []) := by
  rw [bget_eq_noRescan] at ho
  unfold bgetNoRescan at ho
  simp only [] at ho
  cases hk : scanKey (acquire s (Lock.bucket (ihash blockno))) (ihash blockno) dev blockno
      (walkFuel NBUF) ((acquire s (Lock.bucket (ihash blockno))).next
        (Ptr.head (ihash blockno))) with
  | fault =>
    rw [hk] at ho
    subst ho
    cases h1
  | found b =>
    rw [hk] at ho
    exact fast_trace (ihash blockno) s _ b rfl o ho s1 h1
  | none =>
    rw [hk] at ho
    simp only [] at ho
    cases hf : scanFree (acquire s (Lock.bucket (ihash blockno))) (ihash blockno)
        (walkFuel NBUF)
        ((acquire s (Lock.bucket (ihash blockno))).prev (Ptr.head (ihash blockno))) with
    | fault =>
      rw [hf] at ho
      subst ho
      cases h1
    | found b =>
      rw [hf] at ho
      exact fast_trace (ihash blockno) s _ b rfl o ho s1 h1
    | none =>
      rw [hf] at ho
      simp only [] at ho
      obtain ⟨es, hl, ha, hu, hfin⟩ :=
        stealLoop_trace NBUF dev blockno (ihash blockno) _ _ _ o (ihash_lt _) ho s1 h1
      have hd0 : Disciplined (ihash blockno) [] := Or.inl rfl
      have hd1 : Disciplined (ihash blockno) [Lock.bucket (ihash blockno)] :=
        Or.inr (Or.inl rfl)
      have hd2 : Disciplined (ihash blockno) [Lock.steal] := Or.inr (Or.inr (Or.inl rfl))
      refine ⟨[Event.acquire (Lock.bucket (ihash blockno)),
        Event.release (Lock.bucket (ihash blockno)), Event.acquire Lock.steal,
        Event.acquire (Lock.bucket (ihash blockno))] ++ es, ?_, ?_, ?_, ?_⟩
      · rw [hl]
        simp [release, acquire, emit]
      · simp only [Along, lockStep, List.cons_append, List.nil_append, List.erase_cons_head]
        exact ⟨hd0, hd1, hd0, hd2, ha⟩
      · simp only [Unblocked, lockStep, List.cons_append, List.nil_append,
          List.erase_cons_head, Event.isBlocking]
        simpa using hu
      · intro hp
        simp only [locksAfter, List.foldl, lockStep, List.cons_append, List.nil_append,
          List.erase_cons_head]
        exact hfin hp

theorem bget_total {NBUF : Nat} {s : Kernel} (h : Reachable NBUF s) (dev blockno : Nat) :
    (bget NBUF s dev blockno).state?.isSome = true ∧
      (bread NBUF s dev blockno).state?.isSome = true := by
  obtain ⟨R, hR⟩ := h
  obtain ⟨L, hL⟩ := hR.inv
  obtain ⟨s1, _, hb⟩ := bget_outcome hL.abs dev blockno
  have h1 : (bget NBUF s dev blockno).state?.isSome = true := by
    rw [hb]
    cases (pick s L dev blockno).buf? with
    | none => rfl
    | some b =>
      show (Outcome.state? (if (s.buf b).locked = true then Outcome.sleep s1 b
        else Outcome.ret (held s1 b) b)).isSome = true
      split <;> rfl
  refine ⟨h1, ?_⟩
  rw [bread_eq]
  cases hg : bget NBUF s dev blockno with
  | ret s2 b => rfl
  | panic s2 m => rfl
  | sleep s2 b => rfl
  | fault => rw [hg] at h1; exact h1

theorem disciplined_buckets {id : Nat} {h : List Lock} (hd : Disciplined id h) :
    (bucketsOf h).length ≤ 1 ∨
      ∃ j, j < NBUCKET ∧ j ≠ id ∧ h = [Lock.steal, Lock.bucket id, Lock.bucket j] := by
  rcases hd with rfl | rfl | rfl | rfl | ⟨j, hj, hne, rfl⟩
  · exact Or.inl (Nat.zero_le _)
  · exact Or.inl (Nat.le_refl _)
  · exact Or.inl (Nat.zero_le _)
  · exact Or.inl (Nat.le_refl _)
  · exact Or.inr ⟨j, hj, hne, rfl⟩

/-! ## The lock discipline of `bget` -/

/-- C17 (bucket-lock discipline of `bget`), as the code has it: replay the `acquire` and
`release` events of a call of `bget` with home bucket `id` on the set of held spinlocks,
from no lock held, for any memory and key.  At every moment the set is one of: no lock,
the home lock, `steal_lock`, `steal_lock` and the home lock, or `steal_lock`, the home
lock and the lock of one other bucket `j`.  So at most one bucket lock is held at any
moment except in the steal loop, where the home lock, taken under `steal_lock` before
the loop, stays held while the donor buckets are scanned: there the home lock and the
lock of the one donor being scanned are held, and never the locks of two donors.  In a
reachable state the call does end (it returns, sleeps or panics). -/
theorem lock_discipline (NBUF : Nat) (s : Kernel) (dev blockno : Nat) :
    (∀ p, p <+: (bget NBUF s dev blockno).events s →
      Disciplined (ihash blockno) (heldLocks p) ∧
      ((bucketsOf (heldLocks p)).length ≤ 1 ∨
        ∃ j, j < NBUCKET ∧ j ≠ ihash blockno ∧
          heldLocks p = [Lock.steal, Lock.bucket (ihash blockno), Lock.bucket j])) ∧
    (Reachable NBUF s → (bget NBUF s dev blockno).state?.isSome = true) := by
  refine ⟨?_, fun h => (bget_total h dev blockno).1⟩
  have key : ∀ p, p <+: (bget NBUF s dev blockno).events s →
      Disciplined (ihash blockno) (heldLocks p) := by
    cases hs : (bget NBUF s dev blockno).state? with
    | none =>
      intro p hp
      have he : (bget NBUF s dev blockno).events s = [] := by
        unfold Outcome.events
        rw [hs]
      rw [he] at hp
      rw [List.prefix_nil.1 hp]
      exact Or.inl rfl
    | some s1 =>
      obtain ⟨es, hl, ha, _, _⟩ := bget_trace NBUF s dev blockno _ rfl s1 hs
      rw [events_of_log hs hl]
      exact (along_iff es []).1 ha
  intro p hp
  exact ⟨key p hp, disciplined_buckets (key p hp)⟩

/-- Witness of C17: with 30 buffers, after `bread(0, 12)` and `bread(0, 25)`, the call
`bget(0, 38)`, which steals from bucket 0. -/
theorem lock_discipline_witness :
    (∀ p, p <+: (bget 30 x2 0 38).events x2 →
      Disciplined (ihash 38) (heldLocks p) ∧
      ((bucketsOf (heldLocks p)).length ≤ 1 ∨
        ∃ j, j < NBUCKET ∧ j ≠ ihash 38 ∧
          heldLocks p = [Lock.steal, Lock.bucket (ihash 38), Lock.bucket j])) ∧
    (Reachable 30 x2 → (bget 30 x2 0 38).state?.isSome = true) :=
  lock_discipline 30 x2 0 38

/-- Counterexample to C17 as stated: with 30 buffers, after `bread(0, 12)` and
`bread(0, 25)` both buffers of bucket 12 are in use, and `bget(0, 38)`, with home bucket
12, steals from bucket 0.  Its events are listed; after the first five, when the donor
bucket 0 is about to be scanned, the call holds `steal_lock` and the locks of the buckets
12 and 0: two bucket locks at once, the home lock among them. -/
theorem lock_discipline_counterexample :
    Reachable 30 x2 ∧ ihash 38 = 12 ∧
    (bget 30 x2 0 38).events x2
      = [Event.acquire (Lock.bucket 12), Event.release (Lock.bucket 12),
          Event.acquire Lock.steal, Event.acquire (Lock.bucket 12),
          Event.acquire (Lock.bucket 0), Event.release (Lock.bucket 0),
          Event.release (Lock.bucket 12), Event.release Lock.steal, Event.acquiresleep 0] ∧
    [Event.acquire (Lock.bucket 12), Event.release (Lock.bucket 12),
        Event.acquire Lock.steal, Event.acquire (Lock.bucket 12),
        Event.acquire (Lock.bucket 0)] <+: (bget 30 x2 0 38).events x2 ∧
    heldLocks [Event.acquire (Lock.bucket 12), Event.release (Lock.bucket 12),
        Event.acquire Lock.steal, Event.acquire (Lock.bucket 12),
        Event.acquire (Lock.bucket 0)] = [Lock.steal, Lock.bucket 12, Lock.bucket 0] ∧
    bucketsOf [Lock.steal, Lock.bucket 12, Lock.bucket 0] = [12, 0] :=
  ⟨⟨_, x2_reach⟩, by rfl, by rfl,
    ⟨[Event.release (Lock.bucket 0), Event.release (Lock.bucket 12),
      Event.release Lock.steal, Event.acquiresleep 0], by rfl⟩, by rfl, by rfl⟩


/-! ## No spinlock across a sleep or disk I/O -/

theorem calm_nil : Calm [] :=
  ⟨fun p e q h => absurd h (by simp), rfl⟩

theorem calm_fault {α : Type} (s : Kernel) {o : Outcome α} (h : o.state? = none) :
    Calm (o.events s) := by
  unfold Outcome.events
  rw [h]
  exact calm_nil

theorem filled_log (s : Kernel) (b : Nat) :
    (filled s b).log = s.log ++ (if (s.buf b).valid = 0 then [Event.diskRead b] else []) := by
  unfold filled
  split
  · simp [virtio_disk_rw, emit, setBuf]
  · simp

theorem bget_calm (NBUF : Nat) (s : Kernel) (dev blockno : Nat)
    (hp : (bget NBUF s dev blockno).isPanic = false) :
    Calm ((bget NBUF s dev blockno).events s) := by
  cases hs : (bget NBUF s dev blockno).state? with
  | none => exact calm_fault s hs
  | some s1 =>
    obtain ⟨es, hl, _, hu, hf⟩ := bget_trace NBUF s dev blockno _ rfl s1 hs
    rw [events_of_log hs hl]
    exact calm_of hu (hf hp)

theorem bread_calm (NBUF : Nat) (s : Kernel) (dev blockno : Nat)
    (hp : (bread NBUF s dev blockno).isPanic = false) :
    Calm ((bread NBUF s dev blockno).events s) := by
  rw [bread_eq] at hp ⊢
  cases hg : bget NBUF s dev blockno with
  | ret sg b =>
    obtain ⟨es, hl, _, hu, hf⟩ := bget_trace NBUF s dev blockno _ hg sg rfl
    have hlog : (filled sg b).log
        = s.log ++ (es ++ (if (sg.buf b).valid = 0 then [Event.diskRead b] else [])) := by
      rw [filled_log, hl, List.append_assoc]
    have he : (Outcome.ret (filled sg b) b : Outcome Nat).events s
        = es ++ (if (sg.buf b).valid = 0 then [Event.diskRead b] else []) :=
      events_of_log rfl hlog
    show Calm ((Outcome.ret (filled sg b) b : Outcome Nat).events s)
    rw [he]
    have h0 := hf rfl
    refine calm_of ((unblocked_append _ _ _).2 ⟨hu, ?_⟩) ?_
    · rw [h0]
      split
      · exact ⟨fun _ => rfl, trivial⟩
      · exact trivial
    · rw [locksAfter_append, h0]
      split <;> rfl
  | panic sg m => rw [hg] at hp; cases hp
  | sleep sg b =>
    have := bget_calm NBUF s dev blockno (by rw [hg]; rfl)
    rw [hg] at this
    exact this
  | fault => exact calm_nil

theorem bwrite_calm (s : Kernel) (b : Nat) (hp : (bwrite s b).isPanic = false) :
    Calm ((bwrite s b).events s) := by
  unfold bwrite at hp ⊢
  split
  · next h => rw [if_pos h] at hp; cases hp
  · have he : (Outcome.ret (virtio_disk_rw s b true) () : Outcome Unit).events s
        = [Event.diskWrite b] :=
      events_of_log rfl (by simp [virtio_disk_rw, emit])
    rw [he]
    exact calm_of ⟨fun _ => rfl, trivial⟩ rfl

theorem brelse_log {s s1 : Kernel} {b : Nat} (h : brelse s b = Outcome.ret s1 ()) :
    s1.log = s.log ++ [Event.releasesleep b,
      Event.acquire (Lock.bucket (ihash (s.buf b).blockno)),
      Event.release (Lock.bucket (ihash (s.buf b).blockno))] := by
  rw [brelse_eq] at h
  split at h
  · cases h
  · have h1 := (Outcome.ret.inj h).1
    subst h1
    by_cases hz : dec32 (s.buf b).refcnt = 0
    · rw [if_pos hz]
      simp [release, moveToFront, relState, decRef, acquire, releasesleep, emit, setBuf,
        setNext, setPrev]
    · rw [if_neg hz]
      simp [release, relState, decRef, acquire, releasesleep, emit, setBuf]

theorem brelse_calm (s : Kernel) (b : Nat) (hp : (brelse s b).isPanic = false) :
    Calm ((brelse s b).events s) := by
  cases hr : brelse s b with
  | ret s1 u =>
    cases u
    have he : (Outcome.ret s1 () : Outcome Unit).events s = _ :=
      events_of_log rfl (brelse_log hr)
    rw [he]
    refine calm_of ?_ ?_
    · simp [Unblocked, Event.isBlocking]
    · simp only [locksAfter, List.foldl, lockStep, List.nil_append, List.erase_cons_head]
  | panic s1 m => rw [hr] at hp; cases hp
  | sleep s1 c =>
    rw [brelse_eq] at hr
    split at hr <;> cases hr
  | fault => exact calm_nil

theorem pin_calm (s : Kernel) (b : Nat) :
    Calm (eventsSince s (bpin s b)) ∧ Calm (eventsSince s (bunpin s b)) := by
  have h1 : eventsSince s (bpin s b)
      = [Event.acquire (Lock.bucket (ihash (s.buf b).blockno)),
        Event.release (Lock.bucket (ihash (s.buf b).blockno))] := by
    unfold eventsSince
    rw [(bpin_eq s b).2.2.2.2, List.drop_left]
  have h2 : eventsSince s (bunpin s b)
      = [Event.acquire (Lock.bucket (ihash (s.buf b).blockno)),
        Event.release (Lock.bucket (ihash (s.buf b).blockno))] := by
    unfold eventsSince
    rw [(bunpin_eq s b).2.2.2.2, List.drop_left]
  rw [h1, h2]
  have hc : Calm [Event.acquire (Lock.bucket (ihash (s.buf b).blockno)),
      Event.release (Lock.bucket (ihash (s.buf b).blockno))] := by
    refine calm_of ?_ ?_
    · simp [Unblocked, Event.isBlocking]
    · simp only [locksAfter, List.foldl, lockStep, List.nil_append, List.erase_cons_head]
  exact ⟨hc, hc⟩

/-- C18 (no spinlock across sleep or I/O): replay the `acquire` and `release` events of a
call on the set of held spinlocks (bucket locks and `steal_lock`), from no lock held, for
any memory and arguments.  For every call of `bget`, `bread`, `bwrite` and `brelse` that
does not end in `panic`, and for every call of `bpin` and `bunpin`, the set is empty at
every `acquiresleep`, at every `virtio_disk_rw` (read or write), and at the end of the
call, when it returns or is suspended for good in `acquiresleep`.  In a reachable state
`bget` and `bread` do end (return, sleep or panic). -/
theorem no_spinlock_across (NBUF : Nat) (s : Kernel) :
    (∀ dev blockno, (bget NBUF s dev blockno).isPanic = false →
      Calm ((bget NBUF s dev blockno).events s)) ∧
    (∀ dev blockno, (bread NBUF s dev blockno).isPanic = false →
      Calm ((bread NBUF s dev blockno).events s)) ∧
    (∀ b, (bwrite s b).isPanic = false → Calm ((bwrite s b).events s)) ∧
    (∀ b, (brelse s b).isPanic = false → Calm ((brelse s b).events s)) ∧
    (∀ b, Calm (eventsSince s (bpin s b))) ∧
    (∀ b, Calm (eventsSince s (bunpin s b))) ∧
    (Reachable NBUF s → ∀ dev blockno,
      (bget NBUF s dev blockno).state?.isSome = true ∧
      (bread NBUF s dev blockno).state?.isSome = true) :=
  ⟨bget_calm NBUF s, bread_calm NBUF s, bwrite_calm s, brelse_calm s,
    fun b => (pin_calm s b).1, fun b => (pin_calm s b).2, fun h => bget_total h⟩

/-- Witness of C18: with 30 buffers, after `bread(0, 12)` and `bread(0, 25)`; the call
`bread(0, 38)` steals from bucket 0, takes the sleep lock and reads the disk after all
its spinlocks are released, and `brelse` of buffer 25 releases the sleep lock before it
takes the bucket lock. -/
theorem no_spinlock_across_witness :
    ((∀ dev blockno, (bget 30 x2 dev blockno).isPanic = false →
      Calm ((bget 30 x2 dev blockno).events x2)) ∧
    (∀ dev blockno, (bread 30 x2 dev blockno).isPanic = false →
      Calm ((bread 30 x2 dev blockno).events x2)) ∧
    (∀ b, (bwrite x2 b).isPanic = false → Calm ((bwrite x2 b).events x2)) ∧
    (∀ b, (brelse x2 b).isPanic = false → Calm ((brelse x2 b).events x2)) ∧
    (∀ b, Calm (eventsSince x2 (bpin x2 b))) ∧
    (∀ b, Calm (eventsSince x2 (bunpin x2 b))) ∧
    (Reachable 30 x2 → ∀ dev blockno,
      (bget 30 x2 dev blockno).state?.isSome = true ∧
      (bread 30 x2 dev blockno).state?.isSome = true)) ∧
    (bread 30 x2 0 38).isPanic = false ∧
    (bread 30 x2 0 38).events x2
      = [Event.acquire (Lock.bucket 12), Event.release (Lock.bucket 12),
          Event.acquire Lock.steal, Event.acquire (Lock.bucket 12),
          Event.acquire (Lock.bucket 0), Event.release (Lock.bucket 0),
          Event.release (Lock.bucket 12), Event.release Lock.steal, Event.acquiresleep 0,
          Event.diskRead 0] ∧
    (brelse x2 25).events x2
      = [Event.releasesleep 25, Event.acquire (Lock.bucket 12),
          Event.release (Lock.bucket 12)] :=
  ⟨no_spinlock_across 30 x2, by rfl, by rfl, by rfl⟩


/-! ## Reference counts of callers that match their calls -/

theorem countP_erase_mem {α : Type} [BEq α] [LawfulBEq α] (p : α → Bool) :
    ∀ (l : List α) (a : α), a ∈ l →
      (l.erase a).countP p + (if p a = true then 1 else 0) = l.countP p
  | [], _, h => by simp at h
  | c :: l, a, h => by
    rw [List.erase_cons]
    by_cases hc : c = a
    · subst hc
      simp only [beq_self_eq_true, ↓reduceIte]
      rw [List.countP_cons]
    · have hb : (c == a) = false := beq_false_of_ne hc
      simp only [hb, Bool.false_eq_true, ↓reduceIte]
      have hm : a ∈ l := by
        rcases List.mem_cons.1 h with e | e
        · exact absurd e.symm hc
        · exact e
      have ih := countP_erase_mem p l a hm
      rw [List.countP_cons, List.countP_cons]
      omega

theorem inc32_mod (x : Nat) : inc32 (x % 4294967296) = (x + 1) % 4294967296 := by
  unfold inc32
  omega

theorem dec32_mod (x : Nat) : dec32 ((x + 1) % 4294967296) = x % 4294967296 := by
  unfold dec32
  omega

theorem ReachM.toReach {NBUF : Nat} {s : Kernel} {R : List Nat} {H : List (Nat × Nat × Nat)}
    {P : List Nat} (h : ReachM NBUF s R H P) :
    Reach NBUF s R ∧ (∀ e ∈ H, e.1 ∈ R) ∧ (∀ b ∈ P, b ∈ R) := by
  induction h with
  | init disk => exact ⟨Reach.init disk, by simp, by simp⟩
  | @bread s s1 R H P b dev blockno _ hb ih =>
    refine ⟨Reach.bread dev blockno ih.1 hb, ?_, fun c hc => List.mem_cons_of_mem _ (ih.2.2 c hc)⟩
    intro e he
    rcases List.mem_cons.1 he with rfl | he
    · exact List.mem_cons_self _ _
    · exact List.mem_cons_of_mem _ (ih.2.1 e he)
  | bwrite _ hb hw ih => exact ⟨Reach.bwrite ih.1 hb hw, ih.2⟩
  | @brelse s s1 R H P b dev blockno _ he hw ih =>
    exact ⟨Reach.brelse ih.1 (ih.2.1 _ he) hw,
      fun e hm => ih.2.1 e (List.mem_of_mem_erase hm), ih.2.2⟩
  | @bpin s R H P b _ hb ih =>
    refine ⟨Reach.bpin ih.1 hb, ih.2.1, ?_⟩
    intro c hc
    rcases List.mem_cons.1 hc with rfl | hc
    · exact hb
    · exact ih.2.2 c hc
  | @bunpin s R H P b _ hb ih =>
    exact ⟨Reach.bunpin ih.1 (ih.2.2 b hb), ih.2.1,
      fun c hc => ih.2.2 c (List.mem_of_mem_erase hc)⟩
  | store d _ hb hl ih => exact ⟨Reach.store d ih.1 hb hl, ih.2⟩

theorem cnt_cons (H : List (Nat × Nat × Nat)) (b c dev blockno : Nat) :
    ((b, dev, blockno) :: H).countP (fun e => decide (e.1 = c))
      = H.countP (fun e => decide (e.1 = c)) + (if b = c then 1 else 0) := by
  rw [List.countP_cons]
  simp

/-- The accounting invariant of matched callers: `refcnt` is the number of unreleased
`bread` calls and pins modulo `2^32`; an unreleased `bread` call has the key its buffer
carries, and its buffer is locked; no buffer has two unreleased `bread` calls. -/
theorem ReachM.account {NBUF : Nat} {s : Kernel} {R : List Nat}
    {H : List (Nat × Nat × Nat)} {P : List Nat} (h : ReachM NBUF s R H P) :
    (∀ b, (s.buf b).refcnt
      = (H.countP (fun e => decide (e.1 = b)) + P.count b) % 4294967296) ∧
    (∀ e ∈ H, (s.buf e.1).dev = e.2.1 ∧ (s.buf e.1).blockno = e.2.2 ∧
      (s.buf e.1).locked = true) ∧
    (∀ b, H.countP (fun e => decide (e.1 = b)) ≤ 1) := by
  induction h with
  | init disk =>
    refine ⟨fun b => ?_, by simp, by simp⟩
    rw [binit_buf]
    rfl
  | @bread s s1 R H P b dev blockno hr hb ih =>
    obtain ⟨i1, i2, i3⟩ := ih
    obtain ⟨L, hL⟩ := hr.toReach.1.inv
    obtain ⟨hp, hlk, _⟩ := bread_ret hL.abs hb
    have hother := bread_ret_other hL.abs hb
    obtain ⟨hdev, hblk, hlk1, _, _⟩ := bread_ret_self hL.abs hb
    have hno : ∀ e ∈ H, e.1 ≠ b := by
      intro e he heq
      have := (i2 e he).2.2
      rw [heq, hlk] at this
      exact Bool.noConfusion this
    have hz : H.countP (fun e => decide (e.1 = b)) = 0 := by
      rw [List.countP_eq_zero]
      intro e he
      simpa using hno e he
    refine ⟨?_, ?_, ?_⟩
    · intro c
      by_cases hc : c = b
      · subst hc
        rw [cnt_cons, if_pos rfl, hz]
        have h0 := i1 c
        rw [hz] at h0
        rcases bread_ret_refcnt hL.abs hb with ⟨_, e⟩ | ⟨hmiss, e⟩
        · rw [e, h0, inc32_mod]
          congr 1
          omega
        · have hfree := pick_miss_free hmiss hp
          rw [hfree] at h0
          rw [e]
          omega
      · rw [cnt_cons, if_neg (fun e => hc e.symm), hother c hc]
        exact i1 c
    · intro e he
      rcases List.mem_cons.1 he with rfl | he
      · exact ⟨hdev, hblk, hlk1⟩
      · rw [hother _ (hno e he)]
        exact i2 e he
    · intro c
      by_cases hc : c = b
      · subst hc
        rw [cnt_cons, if_pos rfl, hz]
      · rw [cnt_cons, if_neg (fun e => hc e.symm)]
        exact i3 c
  | bwrite _ _ hw ih =>
    obtain ⟨_, rfl⟩ := bwrite_ret hw
    exact ih
  | @brelse s s1 R H P b dev blockno hr he hw ih =>
    obtain ⟨i1, i2, i3⟩ := ih
    obtain ⟨_, hbuf, _⟩ := brelse_ret hw
    have hone : H.countP (fun e => decide (e.1 = b)) = 1 := by
      have h1 : 0 < H.countP (fun e => decide (e.1 = b)) :=
        List.countP_pos_iff.2 ⟨_, he, by simp⟩
      have h2 := i3 b
      omega
    have hers : ∀ c, (H.erase (b, dev, blockno)).countP (fun e => decide (e.1 = c))
        + (if b = c then 1 else 0) = H.countP (fun e => decide (e.1 = c)) := by
      intro c
      have := countP_erase_mem (fun e : Nat × Nat × Nat => decide (e.1 = c)) H _ he
      simpa using this
    have hzero : (H.erase (b, dev, blockno)).countP (fun e => decide (e.1 = b)) = 0 := by
      have := hers b
      rw [hone] at this
      simpa using this
    have hno : ∀ e ∈ H.erase (b, dev, blockno), e.1 ≠ b := by
      intro e hm
      have := (List.countP_eq_zero.1 hzero) e hm
      simpa using this
    refine ⟨?_, ?_, ?_⟩
    · intro c
      rw [hbuf]
      by_cases hc : c = b
      · subst hc
        rw [upd_same, hzero]
        show dec32 (s.buf c).refcnt = _
        rw [i1 c, hone, Nat.add_comm 1, dec32_mod, Nat.zero_add]
      · rw [upd_other _ _ _ _ hc]
        have := hers c
        rw [if_neg (fun e => hc e.symm)] at this
        rw [i1 c]
        omega
    · intro e hm
      rw [hbuf, upd_other _ _ _ _ (hno e hm)]
      exact i2 e (List.mem_of_mem_erase hm)
    · intro c
      have := hers c
      have := i3 c
      omega
  | @bpin s R H P b _ _ ih =>
    obtain ⟨i1, i2, i3⟩ := ih
    obtain ⟨hpb, _⟩ := bpin_eq s b
    refine ⟨?_, ?_, i3⟩
    · intro c
      rw [hpb]
      by_cases hc : c = b
      · subst hc
        rw [upd_same, List.count_cons_self]
        show inc32 (s.buf c).refcnt = _
        rw [i1 c, inc32_mod]
        congr 1
      · rw [upd_other _ _ _ _ hc, List.count_cons_of_ne hc]
        exact i1 c
    · intro e he
      obtain ⟨h1, h2, _, _, h5⟩ := bpin_buf s b e.1
      rw [h1, h2, h5]
      exact i2 e he
  | @bunpin s R H P b _ hb ih =>
    obtain ⟨i1, i2, i3⟩ := ih
    obtain ⟨hub, _⟩ := bunpin_eq s b
    refine ⟨?_, ?_, i3⟩
    · intro c
      rw [hub]
      by_cases hc : c = b
      · subst hc
        rw [upd_same, List.count_erase_self]
        show dec32 (s.buf c).refcnt = _
        have hpos : 0 < P.count c := List.count_pos_iff.2 hb
        rw [i1 c]
        have e : H.countP (fun e => decide (e.1 = c)) + P.count c
            = (H.countP (fun e => decide (e.1 = c)) + (P.count c - 1)) + 1 := by omega
        rw [e, dec32_mod]
      · rw [upd_other _ _ _ _ hc, List.count_erase_of_ne hc]
        exact i1 c
    · intro e he
      obtain ⟨h1, h2, _, _, h5⟩ := bunpin_buf s b e.1
      rw [h1, h2, h5]
      exact i2 e he
  | @store s R H P b d _ _ _ ih =>
    obtain ⟨i1, i2, i3⟩ := ih
    have hb : ∀ c, ((setData s b d).buf c).refcnt = (s.buf c).refcnt ∧
        ((setData s b d).buf c).dev = (s.buf c).dev ∧
        ((setData s b d).buf c).blockno = (s.buf c).blockno ∧
        ((setData s b d).buf c).locked = (s.buf c).locked := by
      intro c
      by_cases hc : c = b
      · subst hc
        simp [setData, setBuf]
      · simp [setData, setBuf, hc]
    refine ⟨fun c => by rw [(hb c).1]; exact i1 c, ?_, i3⟩
    intro e he
    rw [(hb e.1).2.1, (hb e.1).2.2.1, (hb e.1).2.2.2]
    exact i2 e he

theorem ReachM.holders_eq {NBUF : Nat} {s : Kernel} {R : List Nat}
    {H : List (Nat × Nat × Nat)} {P : List Nat} (h : ReachM NBUF s R H P) (b : Nat) :
    holders s H b = H.countP (fun e => decide (e.1 = b)) := by
  unfold holders
  refine List.countP_congr ?_
  intro e he
  obtain ⟨h1, h2, _⟩ := h.account.2.1 e he
  simp only [decide_eq_true_eq]
  constructor
  · exact fun hh => hh.1
  · intro hb
    subst hb
    exact ⟨rfl, h1.symm, h2.symm⟩

/-- The reference count of a buffer under matched calls, modulo `2^32`. -/
theorem ReachM.refcnt_eq {NBUF : Nat} {s : Kernel} {R : List Nat}
    {H : List (Nat × Nat × Nat)} {P : List Nat} (h : ReachM NBUF s R H P) (b : Nat) :
    (s.buf b).refcnt = (holders s H b + pins P b) % 4294967296 ∧ holders s H b ≤ 1 := by
  rw [h.holders_eq b]
  exact ⟨h.account.1 b, h.account.2.2 b⟩

theorem bpinTimes_reach {NBUF : Nat} {R : List Nat} {H : List (Nat × Nat × Nat)} {b : Nat}
    (hb : b ∈ R) :
    ∀ (n : Nat) (s : Kernel) (P : List Nat), ReachM NBUF s R H P →
      ReachM NBUF (bpinTimes n s b) R H (List.replicate n b ++ P)
  | 0, _, _, h => h
  | n + 1, s, P, h => by
    have := bpinTimes_reach hb n (bpin s b) (b :: P) (ReachM.bpin h hb)
    rw [List.replicate_succ', List.append_assoc]
    exact this

/-- C12 (reference-count accounting), as the code has it: in every state a single thread
reaches by calls in which each `brelse(b)` ends an unreleased `bread` that returned `b` and
each `bunpin(b)` undoes a `bpin(b)` not yet undone, the `refcnt` of every buffer `b`
equals, modulo `2^32`, the number of unreleased `bread` calls that returned `b` under its
current key plus the number of pins of `b` not yet undone.  While that number is below
`2^32`, `refcnt` equals it, and a buffer with an unreleased `bread` call or a pin not yet
undone has `refcnt > 0`, so that its `brelse` and `bunpin` do not take `refcnt` below
zero.  At most one `bread` call per buffer is unreleased. -/
theorem refcount_accounting (NBUF : Nat) (s : Kernel) (R : List Nat)
    (H : List (Nat × Nat × Nat)) (P : List Nat) (h : ReachM NBUF s R H P) (b : Nat) :
    (s.buf b).refcnt = (holders s H b + pins P b) % 4294967296 ∧
    (holders s H b + pins P b < 4294967296 →
      (s.buf b).refcnt = holders s H b + pins P b ∧
      (((∃ dev blockno, (b, dev, blockno) ∈ H) ∨ b ∈ P) → 0 < (s.buf b).refcnt)) ∧
    holders s H b ≤ 1 := by
  obtain ⟨h1, h2⟩ := h.refcnt_eq b
  refine ⟨h1, fun hlt => ?_, h2⟩
  have he : (s.buf b).refcnt = holders s H b + pins P b := by
    rw [h1, Nat.mod_eq_of_lt hlt]
  refine ⟨he, fun hout => ?_⟩
  rw [he]
  rcases hout with ⟨dev, blockno, hm⟩ | hm
  · have : 0 < holders s H b := by
      rw [h.holders_eq b]
      exact List.countP_pos_iff.2 ⟨_, hm, by simp⟩
    omega
  · have : 0 < pins P b := List.count_pos_iff.2 hm
    omega

theorem w1_reachM : ReachM 30 w1 [26] [(26, 0, 0)] [] :=
  ReachM.bread 0 0 (ReachM.init wDisk) w1_bread

/-- Witness of C12: after `bread(0, 0)` has returned buffer 26 on a pool of 30 buffers,
one `bread` call is unreleased and `refcnt` of buffer 26 is 1. -/
theorem refcount_accounting_witness :
    ((w1.buf 26).refcnt = (holders w1 [(26, 0, 0)] 26 + pins [] 26) % 4294967296 ∧
    (holders w1 [(26, 0, 0)] 26 + pins [] 26 < 4294967296 →
      (w1.buf 26).refcnt = holders w1 [(26, 0, 0)] 26 + pins [] 26 ∧
      (((∃ dev blockno, (26, dev, blockno) ∈ [(26, 0, 0)]) ∨ 26 ∈ ([] : List Nat)) →
        0 < (w1.buf 26).refcnt)) ∧
    holders w1 [(26, 0, 0)] 26 ≤ 1) ∧
    (w1.buf 26).refcnt = 1 ∧ holders w1 [(26, 0, 0)] 26 = 1 :=
  ⟨refcount_accounting 30 w1 [26] [(26, 0, 0)] [] w1_reachM 26, by rfl, by rfl⟩

/-- Counterexample to C12 as stated: with 30 buffers, `bread(0, 0)` returns buffer 26, and
the caller pins it `2^32 - 1` times.  Every call is matched (there is no `brelse` and no
`bunpin`), one `bread` call of buffer 26 under its current key is unreleased and
`2^32 - 1` pins are not undone, yet `refcnt` of buffer 26 is 0: not their number, and not
`> 0`. -/
theorem refcount_accounting_counterexample :
    ReachM 30 (bpinTimes 4294967295 w1 26) [26] [(26, 0, 0)] (List.replicate 4294967295 26) ∧
    holders (bpinTimes 4294967295 w1 26) [(26, 0, 0)] 26 = 1 ∧
    pins (List.replicate 4294967295 26) 26 = 4294967295 ∧
    ((bpinTimes 4294967295 w1 26).buf 26).refcnt = 0 := by
  have hr : ReachM 30 (bpinTimes 4294967295 w1 26) [26] [(26, 0, 0)]
      (List.replicate 4294967295 26) := by
    have := bpinTimes_reach (List.mem_cons_self 26 []) 4294967295 w1 [] w1_reachM
    rw [List.append_nil] at this
    exact this
  have hh : holders (bpinTimes 4294967295 w1 26) [(26, 0, 0)] 26 = 1 := by
    rw [hr.holders_eq 26]
    rfl
  have hp : pins (List.replicate 4294967295 26) 26 = 4294967295 :=
    List.count_replicate_self 26 4294967295
  refine ⟨hr, hh, hp, ?_⟩
  rw [(hr.refcnt_eq 26).1, hh, hp]

end Bcache
